import Mathlib

/-!
Shallow embedding of the social-network analysis engine of QQChatAnalyzer
(`src/network_analyzer.py`).  Python floats are modelled as rationals,
Python `dict`s as insertion-ordered association lists, and Python `set`s as
duplicate-free lists (the source only uses sets for membership, size, and
sorted iteration).  Presentation-only fields of the node/edge dictionaries
(display labels and tooltip strings) are not modelled; all numeric and
identifier data is.
-/

namespace QQChat

/-- Unordered user pair, canonicalized by the caller (the source stores
`tuple(sorted([qq1, qq2]))` keys). -/
abbrev Pair := String × String

/-- A Python dict keyed by user pairs, in insertion order. -/
abbrev WMap := List (Pair × ℚ)

/-- Algorithm parameter `conversation_window` (minutes), fixed in `__init__`. -/
def conversation_window : ℚ := 30

/-- Algorithm parameter `min_interactions`, fixed to 1 in `__init__`. -/
def min_interactions : ℚ := 1

/-- Algorithm parameter `similarity_threshold`, fixed to 0.1 in `__init__`. -/
def similarity_threshold : ℚ := 1/10

/-- Optimization parameter `min_edge_weight`, fixed to 0.2 in `__init__`. -/
def min_edge_weight : ℚ := 1/5

/-- Constructor-settable knobs of `NetworkAnalyzer.__init__`. -/
structure Config where
  enable_parallel : Bool := true
  max_nodes_for_viz : ℕ := 100
  max_edges_for_viz : ℕ := 300
  limit_compute : Bool := false
deriving Repr, DecidableEq

/-- The `__init__` coercion of the `max_nodes_for_viz` / `max_edges_for_viz`
arguments: a positive integer is accepted, anything else falls back to the
default (100 resp. 300). -/
def mkConfig (enable_parallel : Bool) (max_nodes_arg max_edges_arg : Option ℤ)
    (limit_compute : Bool) : Config :=
  { enable_parallel := enable_parallel
    max_nodes_for_viz := match max_nodes_arg with
      | some n => if 0 < n then n.toNat else 100
      | none => 100
    max_edges_for_viz := match max_edges_arg with
      | some n => if 0 < n then n.toNat else 300
      | none => 300
    limit_compute := limit_compute }

/-- A `dict.get`-style lookup on an association list. -/
def getv {κ ν : Type} [BEq κ] (m : List (κ × ν)) (k : κ) : Option ν :=
  (m.find? (fun e => e.1 == k)).map (fun e => e.2)

/-- A `dict.get(k, d)` lookup with default. -/
def getD {κ ν : Type} [BEq κ] (m : List (κ × ν)) (k : κ) (d : ν) : ν :=
  (getv m k).getD d

/-- `defaultdict(float)`-style accumulation `m[k] += delta`: update an existing
entry in place, otherwise append a fresh entry at the end (Python dicts keep
insertion order). -/
def bump {κ : Type} [BEq κ] (m : List (κ × ℚ)) (k : κ) (delta : ℚ) : List (κ × ℚ) :=
  match m with
  | [] => [(k, delta)]
  | (q, w) :: rest => if q == k then (q, w + delta) :: rest else (q, w) :: bump rest k delta

/-- `defaultdict(int)` accumulation `m[k] += 1` for degree counting. -/
def bumpNat {κ : Type} [BEq κ] (m : List (κ × ℕ)) (k : κ) : List (κ × ℕ) :=
  match m with
  | [] => [(k, 1)]
  | (q, c) :: rest => if q == k then (q, c + 1) :: rest else (q, c) :: bumpNat rest k

/-- Python `set.add`: append if not already present (sets are modelled as
duplicate-free lists; the source only takes `len`, membership and `sorted`). -/
def setAdd (s : List String) (u : String) : List String :=
  if s.contains u then s else s ++ [u]

/-- Collect `all_users`: `for pair in m: users.update(pair)`. -/
def collectUsers (m : WMap) : List String :=
  m.foldl (fun acc e => setAdd (setAdd acc e.1.1) e.1.2) []

/-- Stable insertion of `x` after every `y` with `le y x` (the building block
of a stable sort matching Python `sorted`). -/
def insertStable {α : Type} (le : α → α → Bool) (x : α) : List α → List α
  | [] => [x]
  | y :: ys => if le y x then y :: insertStable le x ys else x :: y :: ys

/-- Stable sort matching Python `sorted(l, key=...)`: elements are taken in
input order and each is placed after all earlier elements it does not strictly
precede. -/
def stableSort {α : Type} (le : α → α → Bool) (l : List α) : List α :=
  l.foldl (fun acc x => insertStable le x acc) []

/-- Python `max(l, key=key)` for a nonempty list: the first element attaining
the maximal key (later elements replace the current best only when strictly
greater). -/
def pyMaxBy {α : Type} (key : α → ℚ) : List α → Option α
  | [] => none
  | x :: xs => some (xs.foldl (fun b y => if key b < key y then y else b) x)

/-- `NetworkAnalyzer._calculate_interaction_weights`: merge the conversation
and content-similarity maps as `0.7·conv + 0.3·sim` into a fresh
`defaultdict(float)` (conversation pairs first, then similarity pairs), and
keep only pairs whose combined weight reaches `min_interactions`. -/
def calculate_interaction_weights (conversations content_similarities : WMap) : WMap :=
  let weights := conversations.foldl (fun m e => bump m e.1 (e.2 * (7/10))) []
  let weights := content_similarities.foldl (fun m e => bump m e.1 (e.2 * (3/10))) weights
  weights.filter (fun e => min_interactions ≤ e.2)

/-- Result of `NetworkAnalyzer._construct_network_graph` (the fields of
`NetworkStats` written by it; display labels and tooltips omitted). -/
structure GraphResult where
  original_nodes_count : ℕ
  original_edges_count : ℕ
  nodes : List String
  edges : WMap
  total_nodes : ℕ
  total_edges : ℕ
  interaction_matrix : List (String × ℚ)
deriving Repr, DecidableEq

/-- Stable insertion for a descending key sort: `x` goes after every `y`
whose key is at least `key x`. -/
def insertDescBy {α β : Type} [LinearOrder β] (key : α → β) (x : α) : List α → List α
  | [] => [x]
  | y :: ys => if decide (key x ≤ key y) then y :: insertDescBy key x ys else x :: y :: ys

/-- Stable descending sort by a key, matching Python
`sorted(l, key=..., reverse=True)`. -/
def sortDescBy {α β : Type} [LinearOrder β] (key : α → β) (l : List α) : List α :=
  l.foldl (fun acc x => insertDescBy key x acc) []

/-- Degree table of `_construct_network_graph` step 3:
`node_degrees[pair[0]] += 1; node_degrees[pair[1]] += 1` over the
weight-floored edges. -/
def node_degrees (filtered_weights : WMap) : List (String × ℕ) :=
  filtered_weights.foldl (fun m e => bumpNat (bumpNat m e.1.1) e.1.2) []

/-- Lexicographic strict comparison of character lists by code point (the
order Python uses on strings). -/
def charListLt : List Char → List Char → Bool
  | [], [] => false
  | [], _ :: _ => true
  | _ :: _, [] => false
  | a :: as, b :: bs => if a < b then true else if b < a then false else charListLt as bs

/-- Boolean string order used for Python `sorted` on identifier lists
(`a ≤ b` as the negation of `b < a` in the lexicographic order). -/
def strLe (a b : String) : Bool := !(charListLt b.toList a.toList)

/-- Step 2 of `_construct_network_graph`: drop edges whose weight falls
below `min_edge_weight`. -/
def cng_floor (interaction_weights : WMap) : WMap :=
  interaction_weights.filter (fun e => min_edge_weight ≤ e.2)

/-- Step 3 of `_construct_network_graph`: when more nodes survive than
`max_nodes_for_viz`, keep the top nodes by unweighted degree and only the
edges between them. -/
def cng_node_cap (cfg : Config) (fw : WMap) (fu : List String) : WMap × List String :=
  if cfg.max_nodes_for_viz < fu.length then
    let degs := node_degrees fw
    let top_users := (sortDescBy (fun x => x.2) degs).take cfg.max_nodes_for_viz
    let top_user_set := top_users.map (fun x => x.1)
    (fw.filter (fun e => top_user_set.contains e.1.1 && top_user_set.contains e.1.2),
      top_user_set)
  else (fw, fu)

/-- Step 4 of `_construct_network_graph`: when more edges survive than
`max_edges_for_viz`, keep the heaviest edges and recompute the node set
from them. -/
def cng_edge_cap (cfg : Config) (fw : WMap) (fu : List String) : WMap × List String :=
  if cfg.max_edges_for_viz < fw.length then
    let sorted_edges := (sortDescBy (fun e => e.2) fw).take cfg.max_edges_for_viz
    (sorted_edges, collectUsers sorted_edges)
  else (fw, fu)

/-- `NetworkAnalyzer._construct_network_graph`: record original counts
(step 1), apply the weight floor (step 2), the node cap (step 3) and the
edge cap (step 4), then emit sorted node ids and the surviving edge map. -/
def construct_network_graph (interaction_weights : WMap) (cfg : Config) : GraphResult :=
  let fw1 := cng_floor interaction_weights
  let s3 := cng_node_cap cfg fw1 (collectUsers fw1)
  let s4 := cng_edge_cap cfg s3.1 s3.2
  { original_nodes_count := (collectUsers interaction_weights).length
    original_edges_count := interaction_weights.length
    nodes := stableSort strLe s4.2
    edges := s4.1
    total_nodes := s4.2.length
    total_edges := s4.1.length
    interaction_matrix := s4.1.map (fun e => (e.1.1 ++ "_" ++ e.1.2, e.2)) }

/-- Record of `stats.most_popular_user` (display name omitted). -/
structure MostPopular where
  qq : String
  centrality : ℚ
  degree : ℚ
  betweenness : ℚ
  closeness : ℚ
deriving Repr, DecidableEq

/-- Record of `stats.most_active_pair` (display names omitted). -/
structure MostActive where
  pair : Pair
  weight : ℚ
deriving Repr, DecidableEq

/-- The `NetworkStats` container, with every field at its `__init__` default.
Display-only data (labels, tooltips, node sizes) is not modelled. -/
structure NetworkStats where
  total_nodes : ℕ := 0
  total_edges : ℕ := 0
  nodes : List String := []
  edges : WMap := []
  original_nodes_count : ℕ := 0
  original_edges_count : ℕ := 0
  degree_centrality : List (String × ℚ) := []
  betweenness_centrality : List (String × ℚ) := []
  closeness_centrality : List (String × ℚ) := []
  most_popular_user : Option MostPopular := none
  most_active_pair : Option MostActive := none
  interaction_matrix : List (String × ℚ) := []
  average_clustering : ℚ := 0
  network_density : ℚ := 0
  average_path_length : ℚ := 0
  communities : List (List String) := []
deriving Repr, DecidableEq

/-- `dict` assignment `m[k] = w`: overwrite in place or append. -/
def setv {κ ν : Type} [BEq κ] (m : List (κ × ν)) (k : κ) (w : ν) : List (κ × ν) :=
  match m with
  | [] => [(k, w)]
  | (q, x) :: rest => if q == k then (q, w) :: rest else (q, x) :: setv rest k w

/-- Adjacency table, a `defaultdict(set)` in insertion order. -/
abbrev AdjMap := List (String × List String)

/-- `adj_list[u].add(v)`. -/
def adjInsert (m : AdjMap) (u v : String) : AdjMap :=
  match m with
  | [] => [(u, [v])]
  | (k, s) :: rest =>
      if k == u then (k, if s.contains v then s else s ++ [v]) :: rest
      else (k, s) :: adjInsert rest u v

/-- Neighbour set of `u` (`adj_list[u]`, empty for untouched keys). -/
def adjGet (m : AdjMap) (u : String) : List String :=
  (getv m u).getD []

/-- The adjacency construction shared by `_calculate_centrality_measures`,
`_detect_communities` and `_compute_network_metrics`:
`adj_list[u].add(v); adj_list[v].add(u)` for every edge. -/
def build_adj_list (edges : WMap) : AdjMap :=
  edges.foldl (fun m e => adjInsert (adjInsert m e.1.1 e.1.2) e.1.2 e.1.1) []

/-- The symmetric `edge_weights` table:
`edge_weights[(u,v)] = w; edge_weights[(v,u)] = w` for every edge (a later
edge on the same key pair overwrites an earlier one, as in a Python dict). -/
def build_edge_weights (edges : WMap) : WMap :=
  edges.foldl (fun m e => setv (setv m (e.1.1, e.1.2) e.2) (e.1.2, e.1.1) e.2) []

/-- Weighted `degree_count` accumulation: for each node, sum
`edge_weights.get((node, neighbor), 1)` over its neighbours.  Only nodes with
at least one neighbour ever receive an entry. -/
def degree_count (nodes : List String) (adjm : AdjMap) (ew : WMap) : List (String × ℚ) :=
  nodes.foldl (fun m node =>
    (adjGet adjm node).foldl (fun m2 nb => bump m2 node (getD ew (node, nb) 1)) m) []

/-- Python `max` on a nonempty float list (with a default for the empty case,
mirroring `max(...) if ... else d`). -/
def listMaxD (l : List ℚ) (d : ℚ) : ℚ :=
  match l with
  | [] => d
  | x :: xs => xs.foldl max x

/-- State of the Brandes single-source BFS phase: distances (`-1` meaning
unvisited), shortest-path counts `sigma`, predecessor lists `P`, the pending
queue `Q` and the visit-ordered stack `S`.  All dictionaries are initialised
over the node list; a neighbour outside the node list (on which the source
would raise `KeyError`) reads as already-visited and is never enqueued. -/
structure BrandesState where
  d : List (String × ℤ)
  sigma : List (String × ℚ)
  P : List (String × List String)
  Q : List String
  S : List String

/-- `P[w].append(v)`. -/
def appendPred (m : List (String × List String)) (w v : String) : List (String × List String) :=
  setv m w ((getD m w []) ++ [v])

/-- The BFS loop of Brandes' algorithm (`while Q: v = Q.pop(0); ...`), with
explicit fuel; `nodes.length + 1` fuel always suffices because each node is
enqueued at most once. -/
def brandes_visit (adjm : AdjMap) : ℕ → BrandesState → BrandesState
  | 0, st => st
  | fuel + 1, st =>
    match st.Q with
    | [] => st
    | v :: Qrest =>
      let st0 : BrandesState := { st with Q := Qrest, S := st.S ++ [v] }
      let st1 := (adjGet adjm v).foldl (fun acc w =>
        let acc :=
          if getD acc.d w 0 < 0 then
            { acc with Q := acc.Q ++ [w], d := setv acc.d w (getD acc.d v 0 + 1) }
          else acc
        if getD acc.d w 0 == getD acc.d v 0 + 1 then
          { acc with sigma := bump acc.sigma w (getD acc.sigma v 0),
                     P := appendPred acc.P w v }
        else acc) st0
      brandes_visit adjm fuel st1

/-- The dependency-accumulation phase of Brandes' algorithm for one source:
pop `S` from the back, push `delta` along predecessor lists, and add each
non-source node's `delta` into the running betweenness table. -/
def brandes_accumulate (P : List (String × List String)) (sigma : List (String × ℚ))
    (nodes : List String) (S : List String) (s : String)
    (betweenness : List (String × ℚ)) : List (String × ℚ) :=
  let delta0 : List (String × ℚ) := nodes.map (fun v => (v, 0))
  let acc := S.reverse.foldl (fun (acc : List (String × ℚ) × List (String × ℚ)) w =>
      let delta := (getD P w []).foldl (fun dl v =>
          bump dl v ((getD sigma v 0 / getD sigma w 0) * (1 + getD dl w 0))) acc.1
      let btw := if w != s then bump acc.2 w (getD delta w 0) else acc.2
      (delta, btw)) (delta0, betweenness)
  acc.2

/-- Unnormalised betweenness: one Brandes pass per source node, accumulated
into a table initialised to `0.0` for every node. -/
def brandes_betweenness (nodes : List String) (adjm : AdjMap) : List (String × ℚ) :=
  let btw0 : List (String × ℚ) := nodes.map (fun v => (v, 0))
  nodes.foldl (fun btw s =>
    let st0 : BrandesState :=
      { d := setv (nodes.map (fun v => (v, (-1 : ℤ)))) s 0
        sigma := setv (nodes.map (fun v => (v, (0 : ℚ)))) s 1
        P := nodes.map (fun v => (v, ([] : List String)))
        Q := [s]
        S := [] }
    let st := brandes_visit adjm (nodes.length + 1) st0
    brandes_accumulate st.P st.sigma nodes st.S s btw) btw0

/-- The closeness BFS (`distances` over the node list, `inf` as `none`),
with explicit fuel as in `brandes_visit`. -/
def bfs_loop (adjm : AdjMap) : ℕ → List (String × Option ℕ) → List String →
    List (String × Option ℕ)
  | 0, dist, _ => dist
  | _, dist, [] => dist
  | fuel + 1, dist, v :: Qrest =>
    let step := (adjGet adjm v).foldl (fun (acc : List (String × Option ℕ) × List String) w =>
        if getD acc.1 w (some 0) == none then
          (setv acc.1 w (some ((getD acc.1 v (some 0)).getD 0 + 1)), acc.2 ++ [w])
        else acc) (dist, Qrest)
    bfs_loop adjm fuel step.1 step.2

/-- Hop distances from `source` over the unweighted graph
(`_calculate_centrality_measures`, closeness part). -/
def bfs_distances (adjm : AdjMap) (nodes : List String) (source : String) :
    List (String × Option ℕ) :=
  bfs_loop adjm (nodes.length + 1) (setv (nodes.map (fun v => (v, none))) source (some 0)) [source]

/-- Closeness of one node: reachable distances strictly between 0 and
infinity, then `len(reachable) / sum(reachable)`, or `0.0` when nothing is
reachable. -/
def closeness_of (adjm : AdjMap) (nodes : List String) (node : String) : ℚ :=
  let dist := bfs_distances adjm nodes node
  let reachable := (dist.map (fun e => e.2)).filterMap (fun d? =>
    match d? with
    | some d => if 0 < d then some d else none
    | none => none)
  if reachable.isEmpty then 0 else (reachable.length : ℚ) / ((reachable.sum : ℚ))

/-- `NetworkAnalyzer._calculate_centrality_measures`: weighted degree
centrality (normalised by the maximum), Brandes betweenness (normalised by
`(n-1)(n-2)` when `n > 2`), closeness, and the blended most-popular-user
record.  The node-size update (`max(centrality, 0.1)`) is display-only and
not modelled. -/
def calculate_centrality_measures (st : NetworkStats) : NetworkStats :=
  if st.total_nodes == 0 then st else
  let adjm := build_adj_list st.edges
  let ew := build_edge_weights st.edges
  let nodes := st.nodes
  let n := nodes.length
  let dc := degree_count nodes adjm ew
  let max_degree := if dc.isEmpty then 1 else listMaxD (dc.map (fun e => e.2)) 1
  let degree_centrality := dc.map (fun e => (e.1, e.2 / max_degree))
  let betweenness := brandes_betweenness nodes adjm
  let betweenness :=
    if 2 < n then betweenness.map (fun e => (e.1, e.2 / (((n : ℚ) - 1) * ((n : ℚ) - 2))))
    else betweenness
  let closeness := nodes.map (fun node => (node, closeness_of adjm nodes node))
  let most_popular_user :=
    if degree_centrality.isEmpty then st.most_popular_user
    else
      let combined_scores := nodes.map (fun node =>
        (node, (1/2 : ℚ) * getD degree_centrality node 0
          + (3/10 : ℚ) * getD betweenness node 0
          + (1/5 : ℚ) * getD closeness node 0))
      match pyMaxBy (fun e => e.2) combined_scores with
      | none => st.most_popular_user
      | some best => some
          { qq := best.1
            centrality := best.2
            degree := getD degree_centrality best.1 0
            betweenness := getD betweenness best.1 0
            closeness := getD closeness best.1 0 }
  { st with
    degree_centrality := degree_centrality
    betweenness_centrality := betweenness
    closeness_centrality := closeness
    most_popular_user := most_popular_user }

/-- `defaultdict(list)` append `m[k].append(v)`. -/
def bumpList (m : List (ℕ × List String)) (k : ℕ) (v : String) : List (ℕ × List String) :=
  setv m k ((getD m k []) ++ [v])

/-- The weighted tally `label_weights` of a node's neighbours' labels, read
from a given label table (`label_weights[labels[neighbor]] += weight`). -/
def lp_label_weights (adjm : AdjMap) (ew : WMap) (labels : List (String × ℕ))
    (node : String) : List (ℕ × ℚ) :=
  (adjGet adjm node).foldl (fun lw nb =>
    bump lw (getD labels nb 0) (getD ew (node, nb) 1)) []

/-- The labels attaining the maximal tally weight (the list `random.choice`
draws from). -/
def lp_best_labels (adjm : AdjMap) (ew : WMap) (labels : List (String × ℕ))
    (node : String) : List ℕ :=
  let lw := lp_label_weights adjm ew labels node
  let max_weight := listMaxD (lw.map (fun e => e.2)) 0
  (lw.filter (fun e => e.2 == max_weight)).map (fun e => e.1)

/-- One node visit of the label-propagation inner loop: skip nodes without
neighbours, otherwise tally the weighted frequency of each neighbour's
current label, pick among the maximal labels with `pick` (the source uses
`random.choice`), and update the label in place, reporting whether it
changed. -/
def lp_update (adjm : AdjMap) (ew : WMap) (pick : List ℕ → ℕ)
    (labels : List (String × ℕ)) (node : String) : List (String × ℕ) × Bool :=
  if (adjGet adjm node).isEmpty then (labels, false)
  else
    let label_weights := lp_label_weights adjm ew labels node
    if label_weights.isEmpty then (labels, false)
    else
      let new_label := pick (lp_best_labels adjm ew labels node)
      if getD labels node 0 != new_label then (setv labels node new_label, true)
      else (labels, false)

/-- One full iteration of label propagation: visit the nodes in the given
(randomised) order, updating the shared label table in place and
accumulating the `changed` flag. -/
def lp_pass (adjm : AdjMap) (ew : WMap) (pick : String → List ℕ → ℕ)
    (order : List String) (labels : List (String × ℕ)) : List (String × ℕ) × Bool :=
  order.foldl (fun acc node =>
    let r := lp_update adjm ew (pick node) acc.1 node
    (r.1, acc.2 || r.2)) (labels, false)

/-- The iteration loop of `_detect_communities` (`for iteration in
range(100)` with an early break when a pass changes nothing).  `orders i`
is the shuffled visit order of iteration `i` and `picks i node` the
tie-breaking choice used at `node` in iteration `i`. -/
def lp_loop (adjm : AdjMap) (ew : WMap) (orders : ℕ → List String)
    (picks : ℕ → String → List ℕ → ℕ) : ℕ → ℕ → List (String × ℕ) → List (String × ℕ)
  | 0, _, labels => labels
  | fuel + 1, i, labels =>
    let r := lp_pass adjm ew (picks i) (orders i) labels
    if r.2 then lp_loop adjm ew orders picks fuel (i + 1) r.1 else r.1

/-- `max_iterations` of the label-propagation loop. -/
def lp_max_iterations : ℕ := 100

/-- Plain `k`-fold application of the label-propagation pass starting at
iteration index `i`, with no early break; used to characterise how far the
breaking loop actually runs. -/
def lp_iterate (adjm : AdjMap) (ew : WMap) (orders : ℕ → List String)
    (picks : ℕ → String → List ℕ → ℕ) : ℕ → ℕ → List (String × ℕ) → List (String × ℕ)
  | 0, _, labels => labels
  | k + 1, i, labels =>
      lp_iterate adjm ew orders picks k (i + 1) (lp_pass adjm ew (picks i) (orders i) labels).1

/-- `NetworkAnalyzer._detect_communities`: label propagation seeded with a
unique integer per node, grouping by final label, keeping only communities
of size above one, and (still inside this method) the maximum-weight
`most_active_pair`.  The shuffled orders and random tie-breaks are explicit
parameters. -/
def detect_communities (orders : ℕ → List String) (picks : ℕ → String → List ℕ → ℕ)
    (st : NetworkStats) : NetworkStats :=
  if st.edges.isEmpty then st
  else
    let adjm := build_adj_list st.edges
    let ew := build_edge_weights st.edges
    let nodes := st.nodes
    let labels0 := nodes.enum.foldl (fun m e => setv m e.2 e.1) []
    let labels := lp_loop adjm ew orders picks lp_max_iterations 0 labels0
    let community_members := labels.foldl (fun cm e => bumpList cm e.2 e.1) []
    let communities := (community_members.filter (fun c => 1 < c.2.length)).map
      (fun c => stableSort strLe c.2)
    let most_active_pair :=
      match pyMaxBy (fun e => e.2) st.edges with
      | none => st.most_active_pair
      | some e => some { pair := e.1, weight := e.2 }
    { st with communities := communities, most_active_pair := most_active_pair }

/-- Inner double loop of the clustering coefficient: count unordered
neighbour pairs that are themselves adjacent. -/
def countNeighborEdges (adjm : AdjMap) : List String → ℕ
  | [] => 0
  | x :: xs => (xs.filter (fun y => (adjGet adjm x).contains y)).length
      + countNeighborEdges adjm xs

/-- `NetworkAnalyzer._compute_network_metrics`: density, average clustering
coefficient and average shortest-path length, all skipped (left at their
zero defaults) when the graph has at most one node, with every division
guarded exactly as in the source. -/
def compute_network_metrics (st : NetworkStats) : NetworkStats :=
  if st.total_nodes ≤ 1 then st
  else
    let adjm := build_adj_list st.edges
    let nodes := st.nodes
    let n := nodes.length
    let max_possible_edges : ℚ := (n : ℚ) * ((n : ℚ) - 1) / 2
    let network_density :=
      if 0 < max_possible_edges then (st.total_edges : ℚ) / max_possible_edges else 0
    let clustering_coefficients := nodes.map (fun node =>
      let neighbors := adjGet adjm node
      let k := neighbors.length
      if k < 2 then (0 : ℚ)
      else
        let ebn := countNeighborEdges adjm neighbors
        let max_edges : ℚ := (k : ℚ) * ((k : ℚ) - 1) / 2
        if 0 < max_edges then (ebn : ℚ) / max_edges else 0)
    let average_clustering :=
      if clustering_coefficients.isEmpty then 0
      else clustering_coefficients.sum / (clustering_coefficients.length : ℚ)
    let acc := nodes.foldl (fun (acc : ℚ × ℕ) source =>
      let dist := bfs_distances adjm nodes source
      nodes.foldl (fun acc2 target =>
        if target != source then
          match getD dist target none with
          | some dt => (acc2.1 + (dt : ℚ), acc2.2 + 1)
          | none => acc2
        else acc2) acc) ((0 : ℚ), 0)
    let average_path_length := if 0 < acc.2 then acc.1 / (acc.2 : ℚ) else 0
    { st with
      network_density := network_density
      average_clustering := average_clustering
      average_path_length := average_path_length }

/-- One chat message, with the fields `network_analyzer` reads.  Python
`dict.get` defaults appear as field defaults; a missing/None `reply_to_qq`
or `qq` is the empty string (Python truthiness on strings), a non-list
`mentions` is the empty list (the source coerces it), and a missing
`message_type` is the empty string. -/
structure Message where
  qq : String := ""
  sender : String := ""
  time : String := ""
  timestamp_ms : Option ℤ := none
  content : String := ""
  mentions : List String := []
  reply_to_qq : String := ""
  message_type : String := ""
  is_system : Bool := false
  is_recalled : Bool := false
deriving Repr, DecidableEq

/-- Leap-year test of the Gregorian calendar. -/
def isLeap (y : ℤ) : Bool := (y % 4 == 0 && y % 100 != 0) || y % 400 == 0

/-- Days in a month (1-12) of year `y`. -/
def days_in_month (y : ℤ) (m : ℕ) : ℕ :=
  if m == 2 then (if isLeap y then 29 else 28)
  else if m == 4 || m == 6 || m == 9 || m == 11 then 30 else 31

/-- Days since 1970-01-01 of a civil date (the standard civil-from-days
computation), giving `datetime` subtraction exact integer semantics. -/
def days_from_civil (y : ℤ) (m d : ℕ) : ℤ :=
  let y1 := if m ≤ 2 then y - 1 else y
  let era := (if 0 ≤ y1 then y1 else y1 - 399) / 400
  let yoe := y1 - era * 400
  let mp : ℤ := if 2 < m then (m : ℤ) - 3 else (m : ℤ) + 9
  let doy := (153 * mp + 2) / 5 + (d : ℤ) - 1
  let doe := yoe * 365 + yoe / 4 - yoe / 100 + doy
  era * 146097 + doe - 719468

/-- A validated `datetime(y, mo, d, h, mi, s)` as seconds on an absolute
timeline (what `(t2 - t1).total_seconds()` observes). -/
def mkDatetime (y : ℤ) (mo d h mi s : ℕ) : Option ℤ :=
  if 1 ≤ y && y ≤ 9999 && 1 ≤ mo && mo ≤ 12 && 1 ≤ d && d ≤ days_in_month y mo
      && h ≤ 23 && mi ≤ 59 && s ≤ 59 then
    some (days_from_civil y mo d * 86400 + (h : ℤ) * 3600 + (mi : ℤ) * 60 + (s : ℤ))
  else none

/-- Python whitespace (`\s`) over the characters these chats use. -/
def isSpaceChar (c : Char) : Bool :=
  c == ' ' || c == '\t' || c == '\n' || c == '\r'

/-- Python `str.strip()` on a character list. -/
def trimChars (cs : List Char) : List Char :=
  ((cs.dropWhile isSpaceChar).reverse.dropWhile isSpaceChar).reverse

/-- Split a character list on a separator character, keeping empty parts
(Python `str.split(sep)` with an explicit separator). -/
def splitOnChar (sep : Char) : List Char → List (List Char)
  | [] => [[]]
  | c :: cs =>
    if c = sep then [] :: splitOnChar sep cs
    else
      match splitOnChar sep cs with
      | [] => [[c]]
      | g :: gs => (c :: g) :: gs

/-- Parse a nonempty all-digit character list as a natural number (the use
`int(...)` and `strptime` make of the date-time fields). -/
def parseNatAux : List Char → ℕ → Option ℕ
  | [], acc => some acc
  | c :: cs, acc => if c.isDigit then parseNatAux cs (acc * 10 + (c.toNat - 48)) else none

/-- Parse a nonempty digit string. -/
def parseNat (cs : List Char) : Option ℕ :=
  if cs.isEmpty then none else parseNatAux cs 0

/-- `utils.parse_timestamp`, restricted to the `YYYY-MM-DD H(H):MM:SS`
shapes this repository's message streams carry (the source additionally
accepts wider ISO-8601 variants — fractional seconds, `T` separators,
timezone suffixes — which nothing below exercises).  Returns `none` on
failure, as the source returns `None`. -/
def parse_timestamp (time_str : String) : Option ℤ :=
  let ts := trimChars time_str.toList
  if ts.isEmpty then none
  else
    match splitOnChar ' ' ts with
    | [date_part, time_part] =>
      (match splitOnChar '-' date_part, splitOnChar ':' time_part with
      | [ys, mos, ds], [hs, mis, ss] =>
        (match parseNat ys, parseNat mos, parseNat ds,
            parseNat hs, parseNat mis, parseNat ss with
        | some y, some mo, some d, some h, some mi, some s =>
            mkDatetime (y : ℤ) mo d h mi s
        | _, _, _, _, _, _ => none)
      | _, _ => none)
    | _ => none

/-- Python word character (`\w`) over the ranges these chats use: ASCII
alphanumerics, underscore, and CJK unified ideographs. -/
def isWordChar (c : Char) : Bool :=
  c.isAlphanum || c == '_' || (0x4E00 ≤ c.toNat && c.toNat ≤ 0x9FFF)

/-- The `re.sub(r'[^\w\s]', '', text)` cleanup shared by the tokenizers. -/
def stripPunct (text : String) : String :=
  String.mk (text.toList.filter (fun c => isWordChar c || isSpaceChar c))

/-- Group the non-whitespace runs of a character list (the behaviour of
Python `str.split()` with no argument: empties are dropped). -/
def splitRunsAux (p : Char → Bool) : List Char → List Char → List (List Char)
  | [], acc => if acc.isEmpty then [] else [acc.reverse]
  | c :: cs, acc =>
    if p c then
      (if acc.isEmpty then splitRunsAux p cs [] else acc.reverse :: splitRunsAux p cs [])
    else splitRunsAux p cs (c :: acc)

/-- Python `str.split()`: split on whitespace runs, discarding empties. -/
def pySplit (text : String) : List String :=
  (splitRunsAux isSpaceChar text.toList []).map String.mk

/-- `NetworkAnalyzer._tokenize` (and the identical `_tokenize_static`):
strip punctuation, split on whitespace, keep tokens longer than one
character. -/
def tokenize (text : String) : List String :=
  (pySplit (stripPunct text)).filter (fun w => 1 < w.length)

/-- Deduplicate preserving first occurrence (Python `set(...)` as a list). -/
def listDedup (l : List String) : List String := l.foldl setAdd []

/-- Size of the intersection of two token sets (first argument
duplicate-free). -/
def interCount (a b : List String) : ℕ := (a.filter (fun x => b.contains x)).length

/-- Size of the union of two token sets. -/
def unionCount (a b : List String) : ℕ := (listDedup (a ++ b)).length

/-- `NetworkAnalyzer._messages_related`: 20%-Jaccard overlap of the
whitespace-split word sets after punctuation stripping. -/
def messages_related (content1 content2 : String) : Bool :=
  if content1 == "" || content2 == "" then false
  else
    let words1 := listDedup (pySplit (stripPunct content1))
    let words2 := listDedup (pySplit (stripPunct content2))
    if words1.isEmpty || words2.isEmpty then false
    else decide ((1/5 : ℚ) < (interCount words1 words2 : ℚ) / (unionCount words1 words2 : ℚ))

/-- Union of a user's message tokens (`words.update(tokenize(content))`). -/
def user_token_set (contents : List String) : List String :=
  contents.foldl (fun acc c => (tokenize c).foldl setAdd acc) []

/-- `NetworkAnalyzer._calculate_user_similarity_simple`: Jaccard similarity
of the two users' token sets. -/
def calculate_user_similarity_simple (contents1 contents2 : List String) : ℚ :=
  let words1 := user_token_set contents1
  let words2 := user_token_set contents2
  if words1.isEmpty || words2.isEmpty then 0
  else
    let i := interCount words1 words2
    let u := unionCount words1 words2
    if 0 < u then (i : ℚ) / (u : ℚ) else 0

/-- Canonical pair key `tuple(sorted([qq1, qq2]))`. -/
def sortPair (a b : String) : Pair := if strLe a b then (a, b) else (b, a)

/-- `NetworkAnalyzer._calc_pair_similarity` (the static worker used on the
parallel path): note that it returns the pair exactly as given, without
canonicalizing the key order. -/
def calc_pair_similarity (user_contents : List (String × List String)) (pair : Pair) :
    Pair × ℚ :=
  let contents1 := getD user_contents pair.1 []
  let contents2 := getD user_contents pair.2 []
  if contents1.length < 2 || contents2.length < 2 then (pair, 0)
  else
    let words1 := user_token_set contents1
    let words2 := user_token_set contents2
    if words1.isEmpty || words2.isEmpty then (pair, 0)
    else
      let i := interCount words1 words2
      let u := unionCount words1 words2
      (pair, if 0 < u then (i : ℚ) / (u : ℚ) else 0)

/-- `NetworkAnalyzer._analyze_similarity_sequential`: for each candidate
pair with at least two qualifying messages on both sides, store the Jaccard
similarity under the canonicalized pair key when it exceeds the threshold. -/
def analyze_similarity_sequential (user_contents : List (String × List String))
    (user_pairs : List Pair) : WMap :=
  user_pairs.foldl (fun sims p =>
    let contents1 := getD user_contents p.1 []
    let contents2 := getD user_contents p.2 []
    if 2 ≤ contents1.length && 2 ≤ contents2.length then
      let similarity := calculate_user_similarity_simple contents1 contents2
      if similarity_threshold < similarity then setv sims (sortPair p.1 p.2) similarity
      else sims
    else sims) []

/-- `NetworkAnalyzer._analyze_similarity_parallel`, successful path: fan the
per-pair worker over the pairs and keep results above the threshold under
the keys the worker returned.  (The `except` fallback to the sequential
path fires only on process-pool failure, an environmental condition outside
this model.) -/
def analyze_similarity_parallel (user_contents : List (String × List String))
    (user_pairs : List Pair) : WMap :=
  let results := user_pairs.map (calc_pair_similarity user_contents)
  results.foldl (fun sims r =>
    if similarity_threshold < r.2 then setv sims r.1 r.2 else sims) []

/-- The per-user content collection of `_analyze_content_similarity`. -/
def collect_user_contents (messages : List Message) : List (String × List String) :=
  messages.foldl (fun uc m =>
    if m.is_system || m.is_recalled then uc
    else
      let content := String.mk (trimChars m.content.toList)
      let mt := if m.message_type == "" then "text" else m.message_type
      if !(mt == "text" || mt == "reply") && content == "" then uc
      else if m.qq != "" && content != "" && 2 < content.length then
        setv uc m.qq ((getD uc m.qq []) ++ [content])
      else uc) []

/-- `itertools.combinations(keys, 2)` in order. -/
def pairCombinations : List String → List Pair
  | [] => []
  | x :: xs => xs.map (fun y => (x, y)) ++ pairCombinations xs

/-- `NetworkAnalyzer._analyze_content_similarity`: collect per-user
contents, then run the parallel path when enabled and more than 100 pairs
are at stake, the sequential path otherwise. -/
def analyze_content_similarity (cfg : Config) (messages : List Message) : WMap :=
  let user_contents := collect_user_contents messages
  let user_pairs := pairCombinations (user_contents.map (fun e => e.1))
  if cfg.enable_parallel && 100 < user_pairs.length then
    analyze_similarity_parallel user_contents user_pairs
  else analyze_similarity_sequential user_contents user_pairs

/-- Prefix test on character lists. -/
def charsPrefix : List Char → List Char → Bool
  | [], _ => true
  | _ :: _, [] => false
  | a :: as, b :: bs => a == b && charsPrefix as bs

/-- Substring test on character lists (Python `needle in hay`). -/
def charsHas (needle : List Char) : List Char → Bool
  | [] => needle.isEmpty
  | c :: rest => charsPrefix needle (c :: rest) || charsHas needle rest

/-- Python `needle in hay` on strings. -/
def strHas (hay needle : String) : Bool := charsHas needle.toList hay.toList

/-- `NetworkAnalyzer._calculate_conversation_score`: time-proximity bucket,
mention bonus (exact id in the mention list, else legacy `@id` substring),
reply bonus, lexical-relatedness bonus, base in-window bonus, clamped at 1. -/
def calculate_conversation_score (msg1 msg2 : Message) (time_diff : ℚ) : ℚ :=
  let score : ℚ := 0
  let score :=
    if time_diff ≤ 5 then score + 3/5
    else if time_diff ≤ 15 then score + 2/5
    else if time_diff ≤ 30 then score + 1/5
    else if time_diff ≤ conversation_window then score + 1/10
    else score
  let qq1 := msg1.qq
  let qq2 := msg2.qq
  let score :=
    if qq2 != "" && msg1.mentions.contains qq2 then score + 11/20
    else if qq1 != "" && msg2.mentions.contains qq1 then score + 11/20
    else if (qq2 != "" && strHas msg1.content ("@" ++ qq2))
        || (qq1 != "" && strHas msg2.content ("@" ++ qq1)) then score + 7/20
    else score
  let score :=
    if msg2.reply_to_qq != "" && msg2.reply_to_qq == qq1 then score + 3/5
    else if msg1.reply_to_qq != "" && msg1.reply_to_qq == qq2 then score + 3/5
    else score
  let score := if messages_related msg1.content msg2.content then score + 1/5 else score
  let score := if time_diff ≤ conversation_window then score + 1/10 else score
  min score 1

/-- The bounded forward scan of `_extract_conversations` for one source
message: walk the (at most 50) following messages, skipping system/recalled
and unparseable/same-sender candidates, breaking as soon as the time gap
exceeds the conversation window, and accumulating conversation scores on
the canonical pair. -/
def scan_partners (msg1 : Message) (qq1 : String) (time1 : ℤ) :
    List Message → WMap → WMap
  | [], conversations => conversations
  | msg2 :: rest, conversations =>
    if msg2.is_system || msg2.is_recalled then scan_partners msg1 qq1 time1 rest conversations
    else
      match parse_timestamp msg2.time with
      | none => scan_partners msg1 qq1 time1 rest conversations
      | some time2 =>
        if msg2.qq == "" || qq1 == msg2.qq then scan_partners msg1 qq1 time1 rest conversations
        else
          let time_diff : ℚ := ((time2 - time1 : ℤ) : ℚ) / 60
          if conversation_window < time_diff then conversations
          else
            let cscore := calculate_conversation_score msg1 msg2 time_diff
            if 0 < cscore then
              scan_partners msg1 qq1 time1 rest (bump conversations (sortPair qq1 msg2.qq) cscore)
            else scan_partners msg1 qq1 time1 rest conversations

/-- `NetworkAnalyzer._extract_conversations`: for each non-system,
non-recalled message with a sender and a parseable time, scan forward over
at most `min(50, remaining)` messages. -/
def extract_conversations (messages : List Message) : WMap :=
  (List.range messages.length).foldl (fun conversations i =>
    match messages.drop i with
    | [] => conversations
    | msg1 :: rest =>
      if msg1.is_system || msg1.is_recalled then conversations
      else if msg1.qq == "" then conversations
      else
        match parse_timestamp msg1.time with
        | none => conversations
        | some time1 => scan_partners msg1 msg1.qq time1 (rest.take 50) conversations) []

/-- The `_sort_key` of `load_messages`: `(0, timestamp_ms)` for a positive
integer timestamp, `(1, time-string)` otherwise. -/
def msg_sort_key (m : Message) : ℤ ⊕ String :=
  match m.timestamp_ms with
  | some ts => if 0 < ts then Sum.inl ts else Sum.inr m.time
  | none => Sum.inr m.time

/-- Python tuple order on sort keys (`(0, int)` before `(1, str)`). -/
def msgKeyLe (a b : ℤ ⊕ String) : Bool :=
  match a, b with
  | Sum.inl x, Sum.inl y => decide (x ≤ y)
  | Sum.inl _, Sum.inr _ => true
  | Sum.inr _, Sum.inl _ => false
  | Sum.inr x, Sum.inr y => strLe x y

/-- Message order induced by `_sort_key`. -/
def msgLe (m1 m2 : Message) : Bool := msgKeyLe (msg_sort_key m1) (msg_sort_key m2)

/-- The Top-N active-user computation of `load_messages` under
`limit_compute`: count messages per (non-empty) sender over the sorted
list, stably sort descending by count, take `max(1, max_nodes_for_viz)`. -/
def top_active_users (cfg : Config) (msgs : List Message) : List String :=
  let user_counts := msgs.foldl (fun m msg => if msg.qq != "" then bumpNat m msg.qq else m) []
  let limit_n := max 1 cfg.max_nodes_for_viz
  ((sortDescBy (fun x => x.2) user_counts).take limit_n).map (fun x => x.1)

/-- `NetworkAnalyzer.load_messages`: stable sort by `_sort_key`, then, only
under `limit_compute` (whose companion `max_nodes_for_viz is not None`
check is vacuous — the constructor always stores an integer), restriction
to the most active senders.  The `qq_to_name` display map is not
modelled. -/
def load_messages (cfg : Config) (messages : List Message) : List Message :=
  let sortedMsgs := stableSort msgLe messages
  if cfg.limit_compute then
    let allowed := top_active_users cfg sortedMsgs
    sortedMsgs.filter (fun m => allowed.contains m.qq)
  else sortedMsgs

/-- Copy a `GraphResult` into the `NetworkStats` fields
`_construct_network_graph` writes. -/
def apply_graph (st : NetworkStats) (g : GraphResult) : NetworkStats :=
  { st with
    original_nodes_count := g.original_nodes_count
    original_edges_count := g.original_edges_count
    nodes := g.nodes
    edges := g.edges
    total_nodes := g.total_nodes
    total_edges := g.total_edges
    interaction_matrix := g.interaction_matrix }

/-- `NetworkAnalyzer._build_interaction_graph`. -/
def build_interaction_graph (cfg : Config) (messages : List Message)
    (st : NetworkStats) : NetworkStats :=
  apply_graph st (construct_network_graph
    (calculate_interaction_weights (extract_conversations messages)
      (analyze_content_similarity cfg messages)) cfg)

/-- `NetworkAnalyzer.analyze` on an already-loaded message list: return the
default stats when no messages are loaded, otherwise run graph
construction, centrality, community detection and network metrics in
order. -/
def analyze (cfg : Config) (orders : ℕ → List String) (picks : ℕ → String → List ℕ → ℕ)
    (loaded : List Message) : NetworkStats :=
  let st : NetworkStats := {}
  if loaded.isEmpty then st
  else
    compute_network_metrics
      (detect_communities orders picks
        (calculate_centrality_measures (build_interaction_graph cfg loaded st)))

/-- Weighted degree in the sense of the specification: the sum of the
weights of the edges incident to a node. -/
def weighted_degree (edges : WMap) (u : String) : ℚ :=
  ((edges.filter (fun e => e.1.1 == u || e.1.2 == u)).map (fun e => e.2)).sum

/-- Number of messages sent by `u`. -/
def countMsgs (msgs : List Message) (u : String) : ℕ :=
  (msgs.filter (fun m => m.qq == u)).length

/-- The blended popularity score `0.5·degree + 0.3·betweenness +
0.2·closeness` read off a stats record's centrality maps. -/
def combined_centrality (st : NetworkStats) (u : String) : ℚ :=
  (1/2 : ℚ) * getD st.degree_centrality u 0
    + (3/10 : ℚ) * getD st.betweenness_centrality u 0
    + (1/5 : ℚ) * getD st.closeness_centrality u 0

/-- The default analyzer configuration (`NetworkAnalyzer()` with no
arguments). -/
def base_cfg : Config := {}

/-- Two senders with identical wording whose messages never fall within the
conversation window (a full day apart): the similarity signal fires, the
conversation signal cannot. -/
def c1_messages : List Message :=
  [ { qq := "a", sender := "A", time := "2024-01-01 00:00:00", content := "hello world" },
    { qq := "a", sender := "A", time := "2024-01-01 00:01:00", content := "hello there" },
    { qq := "b", sender := "B", time := "2024-01-02 00:00:00", content := "hello world" },
    { qq := "b", sender := "B", time := "2024-01-02 00:01:00", content := "hello there" } ]

/-- A short two-user exchange with reciprocal mentions inside the
five-minute window; each cross pair scores the clamped maximum 1.0, so the
pair weight aggregates to 2.8 and survives every floor. -/
def c7_messages : List Message :=
  [ { qq := "a", sender := "A", time := "2024-01-01 12:00:00", content := "foo1",
      mentions := ["b"] },
    { qq := "b", sender := "B", time := "2024-01-01 12:01:00", content := "bar2",
      mentions := ["a"] },
    { qq := "a", sender := "A", time := "2024-01-01 12:02:00", content := "baz3",
      mentions := ["b"] },
    { qq := "b", sender := "B", time := "2024-01-01 12:03:00", content := "qux4",
      mentions := ["a"] } ]

/-- The `NetworkAnalyzer(max_nodes_for_viz=1)` configuration. -/
def one_node_cfg : Config := mkConfig true (some 1) none false

/-- A per-sender content map whose key order (`b` first seen before `a`)
makes the candidate pair come out of `itertools.combinations` in unsorted
order. -/
def c8_user_contents : List (String × List String) :=
  [("b", ["hello world", "hello there"]), ("a", ["hello world", "hello there"])]

/-- A three-node path graph a—b—c with a heavier a—b edge; the input on
which synchronous and in-place label propagation must disagree. -/
def c2_edges : WMap := [(("a", "b"), 2), (("b", "c"), 1)]

/-- The initial unique-label table `{node: i for i, node in
enumerate(nodes)}` over the sorted node list of `c2_edges`. -/
def c2_labels0 : List (String × ℕ) := [("a", 0), ("b", 1), ("c", 2)]

/-- The `NetworkAnalyzer(max_nodes_for_viz=2)` configuration. -/
def c3_cfg : Config := mkConfig true (some 2) none false

/-- A three-message mention exchange `u, v, u` at the given minute-spaced
times: both scoring pairs clamp to 1.0, so the pair aggregates to
conversation weight 2.0 and combined weight 1.4. -/
def c3_mk (u v : String) (t1 t2 t3 : String) : List Message :=
  [ { qq := u, sender := u, time := t1, mentions := [v] },
    { qq := v, sender := v, time := t2, mentions := [u] },
    { qq := u, sender := u, time := t3, mentions := [v] } ]

/-- Four mention exchanges, each pair 58 minutes clear of the next (outside
the conversation window): the weight map comes out as
`ab, ac, de, df`, each of weight 1.4, so with `max_nodes_for_viz = 2` the
node cap keeps the two degree-2 hubs `a` and `d` and every edge dies. -/
def c3_messages : List Message :=
  c3_mk "a" "b" "2024-01-01 00:00:00" "2024-01-01 00:01:00" "2024-01-01 00:02:00"
    ++ c3_mk "a" "c" "2024-01-01 01:00:00" "2024-01-01 01:01:00" "2024-01-01 01:02:00"
    ++ c3_mk "d" "e" "2024-01-01 02:00:00" "2024-01-01 02:01:00" "2024-01-01 02:02:00"
    ++ c3_mk "d" "f" "2024-01-01 03:00:00" "2024-01-01 03:01:00" "2024-01-01 03:02:00"

/-- A fixed shuffle order for the community-detection stage. -/
def c3_orders : ℕ → List String := fun _ => ["a", "d"]

/-- A fixed tie-breaking choice for the community-detection stage. -/
def c3_picks : ℕ → String → List ℕ → ℕ := fun _ _ l => l.headD 0

/-- The divisor degree centrality actually normalises by: the maximum
weighted degree over the nodes that have at least one neighbour, defaulting
to 1 when every node is isolated. -/
def max_nonisolated_degree (st : NetworkStats) : ℚ :=
  listMaxD
    ((st.nodes.filter
        (fun u => !(adjGet (build_adj_list st.edges) u).isEmpty)).map
      (fun u => weighted_degree st.edges u)) 1

/-- The three analysis stages `analyze` runs after graph construction. -/
def pipeline_rest (orders : ℕ → List String) (picks : ℕ → String → List ℕ → ℕ)
    (g : NetworkStats) : NetworkStats :=
  compute_network_metrics (detect_communities orders picks
    (calculate_centrality_measures g))

/-! ### Association-list lemmas -/

attribute [local semireducible] Rat.add Rat.mul Rat.inv Rat.sub

/-- Keys of an association list. -/
def keys {κ ν : Type} (m : List (κ × ν)) : List κ := m.map Prod.fst

theorem getv_cons {κ ν : Type} [BEq κ] (e : κ × ν) (m : List (κ × ν)) (k : κ) :
    getv (e :: m) k = if e.1 == k then some e.2 else getv m k := by
  by_cases h : e.1 == k <;> simp [getv, List.find?, h]

theorem getD_def {κ ν : Type} [BEq κ] (m : List (κ × ν)) (k : κ) (d : ν) :
    getD m k d = (getv m k).getD d := rfl

theorem getv_bump {κ : Type} [BEq κ] [LawfulBEq κ] [DecidableEq κ]
    (m : List (κ × ℚ)) (k p : κ) (δ : ℚ) :
    getv (bump m k δ) p =
      if p = k then some (getD m p 0 + δ) else getv m p := by
  induction m with
  | nil =>
    by_cases h : p = k
    · subst h; simp [bump, getv_cons, getD, getv]
    · have : ¬ (k == p) := by simp [beq_iff_eq]; exact fun hc => h hc.symm
      simp [bump, getv_cons, this, h, getv]
  | cons e rest ih =>
    by_cases he : e.1 = k
    · by_cases hp : p = k
      · have hep : (e.1 == p) = true := by simp [beq_iff_eq, he, hp]
        simp [bump, beq_iff_eq, he, getv_cons, hep, hp, getD]
      · have hep : ¬ (e.1 == p) := by simp [beq_iff_eq, he]; exact fun hc => hp hc.symm
        have hkp : ¬ k = p := fun hc => hp hc.symm
        simp [bump, beq_iff_eq, he, getv_cons, hep, hp, hkp]
    · by_cases hep : e.1 = p
      · have hp : ¬ p = k := fun hc => he (hep.trans hc)
        simp [bump, beq_iff_eq, he, getv_cons, hep, hp]
      · simp [bump, beq_iff_eq, he, getv_cons, hep, ih, getD]

theorem getv_setv {κ ν : Type} [BEq κ] [LawfulBEq κ] [DecidableEq κ]
    (m : List (κ × ν)) (k p : κ) (w : ν) :
    getv (setv m k w) p = if p = k then some w else getv m p := by
  induction m with
  | nil =>
    by_cases h : p = k
    · subst h; simp [setv, getv_cons]
    · have : ¬ (k == p) := by simp [beq_iff_eq]; exact fun hc => h hc.symm
      simp [setv, getv_cons, this, h, getv]
  | cons e rest ih =>
    by_cases he : e.1 = k
    · by_cases hp : p = k
      · have hep : (e.1 == p) = true := by simp [beq_iff_eq, he, hp]
        simp [setv, beq_iff_eq, he, getv_cons, hep, hp]
      · have hep : ¬ (e.1 == p) := by simp [beq_iff_eq, he]; exact fun hc => hp hc.symm
        have hkp : ¬ k = p := fun hc => hp hc.symm
        simp [setv, beq_iff_eq, he, getv_cons, hep, hp, hkp]
    · by_cases hep : e.1 = p
      · have hp : ¬ p = k := fun hc => he (hep.trans hc)
        simp [setv, beq_iff_eq, he, getv_cons, hep, hp]
      · simp [setv, beq_iff_eq, he, getv_cons, hep, ih]

theorem keys_bump {κ : Type} [BEq κ] [LawfulBEq κ] [DecidableEq κ]
    (m : List (κ × ℚ)) (k : κ) (δ : ℚ) :
    keys (bump m k δ) = if k ∈ keys m then keys m else keys m ++ [k] := by
  induction m with
  | nil => simp [bump, keys]
  | cons e rest ih =>
    by_cases he : e.1 = k
    · simp [bump, beq_iff_eq, he, keys]
    · have hne : ¬ (k = e.1) := fun hc => he hc.symm
      by_cases hk : k ∈ keys rest
      all_goals
        simp only [keys] at ih hk
        simp only [bump, beq_iff_eq, he, if_false, keys, List.map_cons]
        simp [ih, hk, hne, List.mem_cons]

theorem keys_setv {κ ν : Type} [BEq κ] [LawfulBEq κ] [DecidableEq κ]
    (m : List (κ × ν)) (k : κ) (w : ν) :
    keys (setv m k w) = if k ∈ keys m then keys m else keys m ++ [k] := by
  induction m with
  | nil => simp [setv, keys]
  | cons e rest ih =>
    by_cases he : e.1 = k
    · simp [setv, beq_iff_eq, he, keys]
    · have hne : ¬ (k = e.1) := fun hc => he hc.symm
      by_cases hk : k ∈ keys rest
      all_goals
        simp only [keys] at ih hk
        simp only [setv, beq_iff_eq, he, if_false, keys, List.map_cons]
        simp [ih, hk, hne, List.mem_cons]

theorem nodup_keys_setv {κ ν : Type} [BEq κ] [LawfulBEq κ] [DecidableEq κ]
    (m : List (κ × ν)) (k : κ) (w : ν)
    (h : (keys m).Nodup) : (keys (setv m k w)).Nodup := by
  rw [keys_setv]
  by_cases hk : k ∈ keys m
  · simpa [hk]
  · simp only [hk, if_false, List.nodup_append]
    refine ⟨h, List.nodup_singleton k, ?_⟩
    intro a ha hak
    simp only [List.mem_singleton] at hak
    exact hk (hak ▸ ha)

theorem nodup_keys_bump {κ : Type} [BEq κ] [LawfulBEq κ] [DecidableEq κ]
    (m : List (κ × ℚ)) (k : κ) (δ : ℚ)
    (h : (keys m).Nodup) : (keys (bump m k δ)).Nodup := by
  rw [keys_bump]
  by_cases hk : k ∈ keys m
  · simpa [hk]
  · simp only [hk, if_false, List.nodup_append]
    refine ⟨h, List.nodup_singleton k, ?_⟩
    intro a ha hak
    simp only [List.mem_singleton] at hak
    exact hk (hak ▸ ha)

theorem getD_bump {κ : Type} [BEq κ] [LawfulBEq κ] [DecidableEq κ]
    (m : List (κ × ℚ)) (k p : κ) (δ : ℚ) :
    getD (bump m k δ) p 0 = if p = k then getD m p 0 + δ else getD m p 0 := by
  rw [getD_def, getv_bump]
  by_cases h : p = k <;> simp [h, getD_def]

theorem mem_keys_bump {κ : Type} [BEq κ] [LawfulBEq κ] [DecidableEq κ]
    (m : List (κ × ℚ)) (k p : κ) (δ : ℚ) :
    p ∈ keys (bump m k δ) ↔ p ∈ keys m ∨ p = k := by
  rw [keys_bump]
  by_cases hk : k ∈ keys m
  · simp only [hk, if_true]
    constructor
    · exact Or.inl
    · rintro (h | h)
      · exact h
      · exact h ▸ hk
  · simp [hk]

theorem mem_keys_setv {κ ν : Type} [BEq κ] [LawfulBEq κ] [DecidableEq κ]
    (m : List (κ × ν)) (k p : κ) (w : ν) :
    p ∈ keys (setv m k w) ↔ p ∈ keys m ∨ p = k := by
  rw [keys_setv]
  by_cases hk : k ∈ keys m
  · simp only [hk, if_true]
    constructor
    · exact Or.inl
    · rintro (h | h)
      · exact h
      · exact h ▸ hk
  · simp [hk]

theorem getv_eq_none_of_not_mem_keys {κ ν : Type} [BEq κ] [LawfulBEq κ]
    (m : List (κ × ν)) (p : κ) (h : p ∉ keys m) : getv m p = none := by
  induction m with
  | nil => rfl
  | cons e rest ih =>
    simp only [keys, List.map_cons, List.mem_cons, not_or] at h
    have : ¬ (e.1 == p) := by simp [beq_iff_eq]; exact fun hc => h.1 hc.symm
    rw [getv_cons]
    simp only [this, if_false]
    exact ih (by simpa [keys] using h.2)

theorem getv_of_mem_nodup {κ ν : Type} [BEq κ] [LawfulBEq κ]
    (m : List (κ × ν)) (e : κ × ν) (hm : e ∈ m) (h : (keys m).Nodup) :
    getv m e.1 = some e.2 := by
  induction m with
  | nil => cases hm
  | cons x rest ih =>
    simp only [keys, List.map_cons, List.nodup_cons] at h
    rcases List.mem_cons.mp hm with he | he
    · subst he; simp [getv_cons]
    · have hx : ¬ (x.1 == e.1) := by
        simp only [beq_iff_eq]
        intro hc
        exact h.1 (hc ▸ List.mem_map_of_mem Prod.fst he)
      rw [getv_cons]
      simp only [hx, if_false]
      exact ih he (by simpa [keys] using h.2)

theorem getD_foldl_bump (f : Pair × ℚ → ℚ) (l : List (Pair × ℚ)) (m0 : WMap) (p : Pair) :
    getD (l.foldl (fun m e => bump m e.1 (f e)) m0) p 0
      = getD m0 p 0 + ((l.filter (fun e => e.1 == p)).map f).sum := by
  induction l generalizing m0 with
  | nil => simp
  | cons e rest ih =>
    simp only [List.foldl_cons]
    rw [ih]
    by_cases hep : e.1 = p
    · subst hep
      rw [getD_bump]
      simp only [if_pos rfl, List.filter_cons, beq_self_eq_true, if_true, List.map_cons,
        List.sum_cons]
      ring
    · have : ¬ (e.1 == p) := by simp [beq_iff_eq, hep]
      rw [getD_bump]
      have hpe : ¬ (p = e.1) := fun hc => hep hc.symm
      simp [hpe, List.filter_cons, this]

theorem mem_keys_foldl_bump (f : Pair × ℚ → ℚ) (l : List (Pair × ℚ)) (m0 : WMap) (p : Pair) :
    p ∈ keys (l.foldl (fun m e => bump m e.1 (f e)) m0) ↔ p ∈ keys m0 ∨ p ∈ keys l := by
  induction l generalizing m0 with
  | nil => simp [keys]
  | cons e rest ih =>
    simp only [List.foldl_cons]
    rw [ih, mem_keys_bump]
    simp only [keys, List.map_cons, List.mem_cons]
    tauto

theorem nodup_keys_foldl_bump (f : Pair × ℚ → ℚ) (l : List (Pair × ℚ)) (m0 : WMap)
    (h : (keys m0).Nodup) :
    (keys (l.foldl (fun m e => bump m e.1 (f e)) m0)).Nodup := by
  induction l generalizing m0 with
  | nil => exact h
  | cons e rest ih => exact ih _ (nodup_keys_bump _ _ _ h)

theorem filter_key_eq_nil_of_not_mem {l : WMap} {p : Pair} (h : p ∉ keys l) :
    l.filter (fun e => e.1 == p) = [] := by
  induction l with
  | nil => rfl
  | cons e rest ih =>
    simp only [keys, List.map_cons, List.mem_cons, not_or] at h
    have : ¬ (e.1 == p) := by simp [beq_iff_eq]; exact fun hc => h.1 hc.symm
    simp only [List.filter_cons, this, Bool.false_eq_true, if_false]
    exact ih (by simpa [keys] using h.2)

theorem sum_filter_key_mul {l : WMap} (h : (keys l).Nodup) (p : Pair) (c : ℚ) :
    ((l.filter (fun e => e.1 == p)).map (fun e => e.2 * c)).sum = getD l p 0 * c := by
  induction l with
  | nil => simp [getD_def, getv]
  | cons e rest ih =>
    simp only [keys, List.map_cons, List.nodup_cons] at h
    by_cases hep : e.1 = p
    · have hb : (e.1 == p) = true := by simp [beq_iff_eq, hep]
      have hrest : p ∉ keys rest := by
        intro hc
        exact h.1 (hep ▸ (by simpa [keys] using hc))
      rw [List.filter_cons]
      simp only [hb, if_true, List.map_cons, List.sum_cons]
      rw [filter_key_eq_nil_of_not_mem hrest]
      have : getv (e :: rest) p = some e.2 := by
        rw [getv_cons]; simp [hb]
      simp [getD_def, this]
    · have hb : ¬ (e.1 == p) := by simp [beq_iff_eq, hep]
      rw [List.filter_cons]
      simp only [hb, Bool.false_eq_true, if_false]
      rw [ih (by simpa [keys] using h.2)]
      have : getv (e :: rest) p = getv rest p := by
        rw [getv_cons]; simp [hb]
      simp [getD_def, this]

/-! ### Token-set and similarity lemmas -/

theorem mem_setAdd (s : List String) (u v : String) :
    v ∈ setAdd s u ↔ v ∈ s ∨ v = u := by
  unfold setAdd
  by_cases h : u ∈ s
  · simp only [show s.contains u = true by simpa using h, if_true]
    constructor
    · exact Or.inl
    · rintro (hv | hv)
      · exact hv
      · exact hv ▸ h
  · simp [h]

theorem nodup_setAdd (s : List String) (u : String) (h : s.Nodup) : (setAdd s u).Nodup := by
  unfold setAdd
  by_cases hc : u ∈ s
  · simp only [show s.contains u = true by simpa using hc, if_true]
    exact h
  · simp only [show s.contains u = false by simpa using hc, Bool.false_eq_true, if_false,
      List.nodup_append]
    exact ⟨h, List.nodup_singleton u, by
      intro a ha hau
      simp only [List.mem_singleton] at hau
      exact hc (hau ▸ ha)⟩

theorem nodup_foldl_setAdd (ls : List String) (acc : List String) (h : acc.Nodup) :
    (ls.foldl setAdd acc).Nodup := by
  induction ls generalizing acc with
  | nil => exact h
  | cons x xs ih => exact ih _ (nodup_setAdd _ _ h)

theorem length_le_foldl_setAdd (ls : List String) (acc : List String) :
    acc.length ≤ (ls.foldl setAdd acc).length := by
  induction ls generalizing acc with
  | nil => exact le_rfl
  | cons x xs ih =>
    refine le_trans ?_ (ih (setAdd acc x))
    unfold setAdd
    by_cases h : x ∈ acc
    · simp [h]
    · simp [h]

theorem nodup_listDedup (l : List String) : (listDedup l).Nodup :=
  nodup_foldl_setAdd l [] List.nodup_nil

theorem nodup_user_token_set (contents : List String) : (user_token_set contents).Nodup := by
  unfold user_token_set
  induction contents using List.reverseRecOn with
  | nil => exact List.nodup_nil
  | append_singleton xs x ih =>
    rw [List.foldl_append]
    exact nodup_foldl_setAdd _ _ ih

theorem foldl_setAdd_of_fresh (l : List String) (acc : List String)
    (hfresh : ∀ x ∈ l, x ∉ acc) (hl : l.Nodup) :
    l.foldl setAdd acc = acc ++ l := by
  induction l generalizing acc with
  | nil => simp
  | cons x xs ih =>
    have hx : x ∉ acc := hfresh x (List.mem_cons_self _ _)
    have hstep : setAdd acc x = acc ++ [x] := by
      unfold setAdd
      simp [hx]
    simp only [List.foldl_cons, hstep]
    rw [ih (acc ++ [x])]
    · simp
    · intro y hy
      simp only [List.mem_append, List.mem_singleton, not_or]
      exact ⟨fun hc => hfresh y (List.mem_cons_of_mem _ hy) hc,
        fun hc => (List.nodup_cons.mp hl).1 (hc ▸ hy)⟩
    · exact (List.nodup_cons.mp hl).2

theorem listDedup_eq_self {l : List String} (h : l.Nodup) : listDedup l = l := by
  unfold listDedup
  rw [foldl_setAdd_of_fresh l [] (by simp) h]
  simp

theorem interCount_le_unionCount {a : List String} (b : List String) (h : a.Nodup) :
    interCount a b ≤ unionCount a b := by
  have h1 : interCount a b ≤ a.length := List.length_filter_le _ _
  have h2 : a.length ≤ unionCount a b := by
    unfold unionCount listDedup
    rw [List.foldl_append]
    have : (a.foldl setAdd []) = listDedup a := rfl
    calc a.length = (listDedup a).length := by rw [listDedup_eq_self h]
    _ ≤ _ := length_le_foldl_setAdd _ _
  omega

theorem calculate_user_similarity_le_one (c1 c2 : List String) :
    calculate_user_similarity_simple c1 c2 ≤ 1 := by
  unfold calculate_user_similarity_simple
  by_cases h : (user_token_set c1).isEmpty || (user_token_set c2).isEmpty
  · simp [h]
  · simp only [h, Bool.false_eq_true, if_false]
    by_cases hu : 0 < unionCount (user_token_set c1) (user_token_set c2)
    · simp only [hu, if_true]
      rw [div_le_one (by exact_mod_cast hu)]
      exact_mod_cast interCount_le_unionCount _ (nodup_user_token_set c1)
    · simp [hu]

theorem calc_pair_similarity_le_one (uc : List (String × List String)) (p : Pair) :
    (calc_pair_similarity uc p).2 ≤ 1 := by
  unfold calc_pair_similarity
  by_cases h1 : (getD uc p.1 []).length < 2 || (getD uc p.2 []).length < 2
  · simp [h1]
  · simp only [h1, Bool.false_eq_true, if_false]
    by_cases h2 : (user_token_set (getD uc p.1 [])).isEmpty
        || (user_token_set (getD uc p.2 [])).isEmpty
    · simp [h2]
    · simp only [h2, Bool.false_eq_true, if_false]
      by_cases hu : 0 < unionCount (user_token_set (getD uc p.1 []))
          (user_token_set (getD uc p.2 []))
      · simp only [hu, if_true]
        rw [div_le_one (by exact_mod_cast hu)]
        exact_mod_cast interCount_le_unionCount _ (nodup_user_token_set _)
      · simp [hu]

theorem mem_setv_cases {κ ν : Type} [BEq κ] [LawfulBEq κ] (m : List (κ × ν)) (k : κ) (w : ν)
    (e : κ × ν) (he : e ∈ setv m k w) : e ∈ m ∨ e = (k, w) := by
  induction m with
  | nil =>
    simp only [setv, List.mem_singleton] at he
    exact Or.inr he
  | cons x rest ih =>
    unfold setv at he
    by_cases hx : x.1 == k
    · have hxk : x.1 = k := by simpa using hx
      simp only [hx, if_true, List.mem_cons] at he
      rcases he with he | he
      · exact Or.inr (by rw [he, hxk])
      · exact Or.inl (List.mem_cons_of_mem _ he)
    · simp only [hx, Bool.false_eq_true, if_false, List.mem_cons] at he
      rcases he with he | he
      · exact Or.inl (he ▸ List.mem_cons_self _ _)
      · rcases ih he with h | h
        · exact Or.inl (List.mem_cons_of_mem _ h)
        · exact Or.inr h

theorem analyze_similarity_sequential_aux (uc : List (String × List String))
    (ps : List Pair) (acc : WMap)
    (hacc : (∀ e ∈ acc, e.2 ≤ 1) ∧ (keys acc).Nodup) :
    (∀ e ∈ ps.foldl (fun sims p =>
        if 2 ≤ (getD uc p.1 []).length && 2 ≤ (getD uc p.2 []).length then
          if similarity_threshold < calculate_user_similarity_simple
              (getD uc p.1 []) (getD uc p.2 []) then
            setv sims (sortPair p.1 p.2) (calculate_user_similarity_simple
              (getD uc p.1 []) (getD uc p.2 []))
          else sims
        else sims) acc, e.2 ≤ 1)
      ∧ (keys (ps.foldl (fun sims p =>
        if 2 ≤ (getD uc p.1 []).length && 2 ≤ (getD uc p.2 []).length then
          if similarity_threshold < calculate_user_similarity_simple
              (getD uc p.1 []) (getD uc p.2 []) then
            setv sims (sortPair p.1 p.2) (calculate_user_similarity_simple
              (getD uc p.1 []) (getD uc p.2 []))
          else sims
        else sims) acc)).Nodup := by
  induction ps generalizing acc with
  | nil => exact hacc
  | cons p rest ih =>
    simp only [List.foldl_cons]
    apply ih
    by_cases h1 : 2 ≤ (getD uc p.1 []).length && 2 ≤ (getD uc p.2 []).length
    · by_cases h2 : similarity_threshold < calculate_user_similarity_simple
          (getD uc p.1 []) (getD uc p.2 [])
      · simp only [h1, h2, if_true]
        refine ⟨?_, nodup_keys_setv _ _ _ hacc.2⟩
        intro e he
        rcases mem_setv_cases _ _ _ _ he with h | h
        · exact hacc.1 e h
        · rw [h]; exact calculate_user_similarity_le_one _ _
      · simp only [h1, h2, if_true, if_false]
        exact hacc
    · simp only [h1, Bool.false_eq_true, if_false]
      exact hacc

theorem analyze_similarity_sequential_spec (uc : List (String × List String))
    (ps : List Pair) :
    (∀ e ∈ analyze_similarity_sequential uc ps, e.2 ≤ 1)
      ∧ (keys (analyze_similarity_sequential uc ps)).Nodup := by
  have := analyze_similarity_sequential_aux uc ps [] ⟨by simp, by simp [keys]⟩
  simpa [analyze_similarity_sequential] using this

theorem analyze_similarity_parallel_aux (uc : List (String × List String))
    (rs : List (Pair × ℚ)) (hrs : ∀ r ∈ rs, r.2 ≤ 1) (acc : WMap)
    (hacc : (∀ e ∈ acc, e.2 ≤ 1) ∧ (keys acc).Nodup) :
    (∀ e ∈ rs.foldl (fun sims r =>
        if similarity_threshold < r.2 then setv sims r.1 r.2 else sims) acc, e.2 ≤ 1)
      ∧ (keys (rs.foldl (fun sims r =>
        if similarity_threshold < r.2 then setv sims r.1 r.2 else sims) acc)).Nodup := by
  induction rs generalizing acc with
  | nil => exact hacc
  | cons r rest ih =>
    simp only [List.foldl_cons]
    apply ih
    · intro x hx; exact hrs x (List.mem_cons_of_mem _ hx)
    · by_cases h : similarity_threshold < r.2
      · simp only [h, if_true]
        refine ⟨?_, nodup_keys_setv _ _ _ hacc.2⟩
        intro e he
        rcases mem_setv_cases _ _ _ _ he with hm | hm
        · exact hacc.1 e hm
        · rw [hm]; exact hrs r (List.mem_cons_self _ _)
      · simp only [h, if_false]
        exact hacc

theorem analyze_similarity_parallel_spec (uc : List (String × List String))
    (ps : List Pair) :
    (∀ e ∈ analyze_similarity_parallel uc ps, e.2 ≤ 1)
      ∧ (keys (analyze_similarity_parallel uc ps)).Nodup := by
  have := analyze_similarity_parallel_aux uc (ps.map (calc_pair_similarity uc))
    (by
      intro r hr
      rcases List.mem_map.mp hr with ⟨p, _, hp⟩
      exact hp ▸ calc_pair_similarity_le_one uc p) [] ⟨by simp, by simp [keys]⟩
  simpa [analyze_similarity_parallel] using this

theorem analyze_content_similarity_spec (cfg : Config) (messages : List Message) :
    (∀ e ∈ analyze_content_similarity cfg messages, e.2 ≤ 1)
      ∧ (keys (analyze_content_similarity cfg messages)).Nodup := by
  unfold analyze_content_similarity
  by_cases h : cfg.enable_parallel
      && 100 < (pairCombinations (keys (collect_user_contents messages))).length
  · simp only [keys] at h
    simp only [h, if_true]
    exact analyze_similarity_parallel_spec _ _
  · simp only [keys] at h
    simp only [h, Bool.false_eq_true, if_false]
    exact analyze_similarity_sequential_spec _ _

/-! ### Interaction-weight aggregation lemmas -/

/-- The merged (pre-filter) weight table of
`_calculate_interaction_weights`. -/
def merged_weights (conversations content_similarities : WMap) : WMap :=
  content_similarities.foldl (fun m e => bump m e.1 (e.2 * (3/10)))
    (conversations.foldl (fun m e => bump m e.1 (e.2 * (7/10))) [])

theorem calculate_interaction_weights_eq (conversations content_similarities : WMap) :
    calculate_interaction_weights conversations content_similarities
      = (merged_weights conversations content_similarities).filter
          (fun e => min_interactions ≤ e.2) := rfl

theorem nodup_keys_merged (conversations content_similarities : WMap) :
    (keys (merged_weights conversations content_similarities)).Nodup :=
  nodup_keys_foldl_bump _ _ _ (nodup_keys_foldl_bump _ _ _ (by simp [keys]))

theorem getD_merged (conversations content_similarities : WMap) (p : Pair)
    (hc : (keys conversations).Nodup) (hs : (keys content_similarities).Nodup) :
    getD (merged_weights conversations content_similarities) p 0
      = getD conversations p 0 * (7/10) + getD content_similarities p 0 * (3/10) := by
  unfold merged_weights
  rw [getD_foldl_bump, getD_foldl_bump]
  have h0 : getD ([] : WMap) p 0 = 0 := rfl
  rw [h0, sum_filter_key_mul hc, sum_filter_key_mul hs]
  ring

theorem ciw_entry_value (conversations content_similarities : WMap)
    (hc : (keys conversations).Nodup) (hs : (keys content_similarities).Nodup) :
    ∀ e ∈ calculate_interaction_weights conversations content_similarities,
      e.2 = getD conversations e.1 0 * (7/10) + getD content_similarities e.1 0 * (3/10)
        ∧ min_interactions ≤ e.2 := by
  intro e he
  rw [calculate_interaction_weights_eq] at he
  have hmem := List.mem_of_mem_filter he
  have hge : min_interactions ≤ e.2 := by
    have := List.of_mem_filter he
    simpa using this
  have hv := getv_of_mem_nodup _ e hmem (nodup_keys_merged _ _)
  have hmv : getD (merged_weights conversations content_similarities) e.1 0 = e.2 := by
    simp [getD_def, hv]
  have heq : e.2 = getD conversations e.1 0 * (7/10)
      + getD content_similarities e.1 0 * (3/10) := by
    rw [← hmv, getD_merged _ _ _ hc hs]
  exact ⟨heq, hge⟩

theorem getv_some_exists {κ ν : Type} [BEq κ] {m : List (κ × ν)} {p : κ} {v : ν}
    (h : getv m p = some v) : ∃ e ∈ m, (e.1 == p) = true ∧ e.2 = v := by
  unfold getv at h
  cases hf : m.find? (fun e => e.1 == p) with
  | none => rw [hf] at h; cases h
  | some e =>
    rw [hf] at h
    have hpe := List.find?_some hf
    refine ⟨e, List.mem_of_find?_eq_some hf, by simpa using hpe, ?_⟩
    simpa using h

theorem getD_le_one_of_values {m : WMap} (p : Pair) (h : ∀ e ∈ m, e.2 ≤ 1) :
    getD m p 0 ≤ 1 := by
  rw [getD_def]
  cases hgv : getv m p with
  | none => simp
  | some v =>
    simp only [Option.getD_some]
    rcases getv_some_exists hgv with ⟨e, hem, _, hev⟩
    exact hev ▸ h e hem

theorem ciw_no_simonly_edge (conversations content_similarities : WMap) (p : Pair)
    (hs1 : ∀ e ∈ content_similarities, e.2 ≤ 1)
    (hs : (keys content_similarities).Nodup)
    (hp : p ∉ keys conversations) :
    ∀ e ∈ calculate_interaction_weights conversations content_similarities, e.1 ≠ p := by
  intro e he hep
  rw [calculate_interaction_weights_eq] at he
  have hmem := List.mem_of_mem_filter he
  have hge : min_interactions ≤ e.2 := by
    have := List.of_mem_filter he
    simpa using this
  have hv := getv_of_mem_nodup _ e hmem (nodup_keys_merged _ _)
  have hval : getD (merged_weights conversations content_similarities) e.1 0 = e.2 := by
    simp [getD_def, hv]
  have hmval : getD (merged_weights conversations content_similarities) p 0
      = getD content_similarities p 0 * (3/10) := by
    unfold merged_weights
    rw [getD_foldl_bump, getD_foldl_bump, sum_filter_key_mul hs,
      filter_key_eq_nil_of_not_mem hp]
    simp [getD_def, getv]
  have hsill : getD content_similarities p 0 ≤ 1 := getD_le_one_of_values p hs1
  rw [hep, hmval] at hval
  have : e.2 ≤ 3/10 := by
    rw [← hval]
    nlinarith
  rw [min_interactions] at hge
  linarith

/-! ### Sorting lemmas -/

theorem insertDescBy_perm {α β : Type} [LinearOrder β] (key : α → β) (x : α) (l : List α) :
    (insertDescBy key x l).Perm (x :: l) := by
  induction l with
  | nil => exact List.Perm.refl _
  | cons y ys ih =>
    unfold insertDescBy
    split
    · exact (ih.cons y).trans (List.Perm.swap x y ys)
    · exact List.Perm.refl _

theorem foldl_insertDescBy_perm {α β : Type} [LinearOrder β] (key : α → β)
    (l acc : List α) :
    (l.foldl (fun a x => insertDescBy key x a) acc).Perm (acc ++ l) := by
  induction l generalizing acc with
  | nil => simp
  | cons x xs ih =>
    simp only [List.foldl_cons]
    refine (ih _).trans ?_
    have h1 : (insertDescBy key x acc ++ xs).Perm ((x :: acc) ++ xs) :=
      (insertDescBy_perm key x acc).append_right xs
    refine h1.trans ?_
    simp only [List.cons_append]
    exact List.perm_middle.symm

theorem sortDescBy_perm {α β : Type} [LinearOrder β] (key : α → β) (l : List α) :
    (sortDescBy key l).Perm l := by
  simpa [sortDescBy] using foldl_insertDescBy_perm key l []

theorem insertStable_perm {α : Type} (le : α → α → Bool) (x : α) (l : List α) :
    (insertStable le x l).Perm (x :: l) := by
  induction l with
  | nil => exact List.Perm.refl _
  | cons y ys ih =>
    unfold insertStable
    split
    · exact (ih.cons y).trans (List.Perm.swap x y ys)
    · exact List.Perm.refl _

theorem foldl_insertStable_perm {α : Type} (le : α → α → Bool) (l acc : List α) :
    (l.foldl (fun a x => insertStable le x a) acc).Perm (acc ++ l) := by
  induction l generalizing acc with
  | nil => simp
  | cons x xs ih =>
    simp only [List.foldl_cons]
    refine (ih _).trans ?_
    have h1 : (insertStable le x acc ++ xs).Perm ((x :: acc) ++ xs) :=
      (insertStable_perm le x acc).append_right xs
    refine h1.trans ?_
    simp only [List.cons_append]
    exact List.perm_middle.symm

theorem stableSort_perm {α : Type} (le : α → α → Bool) (l : List α) :
    (stableSort le l).Perm l := by
  simpa [stableSort] using foldl_insertStable_perm le l []

/-! ### Node-set lemmas -/

theorem mem_collectUsers_aux (m : WMap) (acc : List String) (u : String) :
    u ∈ m.foldl (fun acc e => setAdd (setAdd acc e.1.1) e.1.2) acc
      ↔ u ∈ acc ∨ ∃ e ∈ m, u = e.1.1 ∨ u = e.1.2 := by
  induction m generalizing acc with
  | nil => simp
  | cons e rest ih =>
    simp only [List.foldl_cons]
    rw [ih]
    simp only [mem_setAdd, List.mem_cons]
    constructor
    · rintro ((h | h) | ⟨f, hf, hor⟩)
      · rcases h with h | h
        · exact Or.inl h
        · exact Or.inr ⟨e, Or.inl rfl, Or.inl h⟩
      · exact Or.inr ⟨e, Or.inl rfl, Or.inr h⟩
      · exact Or.inr ⟨f, Or.inr hf, hor⟩
    · rintro (h | ⟨f, hf | hf, hor⟩)
      · exact Or.inl (Or.inl (Or.inl h))
      · rcases hor with h | h
        · exact Or.inl (Or.inl (Or.inr (hf ▸ h)))
        · exact Or.inl (Or.inr (hf ▸ h))
      · exact Or.inr ⟨f, hf, hor⟩

theorem mem_collectUsers (m : WMap) (u : String) :
    u ∈ collectUsers m ↔ ∃ e ∈ m, u = e.1.1 ∨ u = e.1.2 := by
  unfold collectUsers
  rw [mem_collectUsers_aux]
  simp

theorem nodup_collectUsers (m : WMap) : (collectUsers m).Nodup := by
  unfold collectUsers
  suffices h : ∀ acc : List String, acc.Nodup →
      (m.foldl (fun acc e => setAdd (setAdd acc e.1.1) e.1.2) acc).Nodup by
    exact h [] List.nodup_nil
  induction m with
  | nil => exact fun acc h => h
  | cons e rest ih =>
    intro acc hacc
    exact ih _ (nodup_setAdd _ _ (nodup_setAdd _ _ hacc))

theorem nodup_subset_length_le {l1 l2 : List String} (h1 : l1.Nodup) (hsub : l1 ⊆ l2) :
    l1.length ≤ l2.length :=
  (List.subperm_of_subset h1 hsub).length_le

theorem collectUsers_mono {m1 m2 : WMap} (h : ∀ e ∈ m1, e ∈ m2) :
    ∀ u ∈ collectUsers m1, u ∈ collectUsers m2 := by
  intro u hu
  rw [mem_collectUsers] at hu ⊢
  rcases hu with ⟨e, he, hor⟩
  exact ⟨e, h e he, hor⟩

/-! ### Degree-table lemmas -/

theorem keys_bumpNat {κ : Type} [BEq κ] [LawfulBEq κ] [DecidableEq κ]
    (m : List (κ × ℕ)) (k : κ) :
    keys (bumpNat m k) = if k ∈ keys m then keys m else keys m ++ [k] := by
  induction m with
  | nil => simp [bumpNat, keys]
  | cons e rest ih =>
    by_cases he : e.1 = k
    · simp [bumpNat, beq_iff_eq, he, keys]
    · have hne : ¬ (k = e.1) := fun hc => he hc.symm
      by_cases hk : k ∈ keys rest
      all_goals
        simp only [keys] at ih hk
        simp only [bumpNat, beq_iff_eq, he, if_false, keys, List.map_cons]
        simp [ih, hk, hne, List.mem_cons]

theorem mem_keys_bumpNat {κ : Type} [BEq κ] [LawfulBEq κ] [DecidableEq κ]
    (m : List (κ × ℕ)) (k p : κ) :
    p ∈ keys (bumpNat m k) ↔ p ∈ keys m ∨ p = k := by
  rw [keys_bumpNat]
  by_cases hk : k ∈ keys m
  · simp only [hk, if_true]
    constructor
    · exact Or.inl
    · rintro (h | h)
      · exact h
      · exact h ▸ hk
  · simp [hk]

theorem nodup_keys_bumpNat {κ : Type} [BEq κ] [LawfulBEq κ] [DecidableEq κ]
    (m : List (κ × ℕ)) (k : κ) (h : (keys m).Nodup) : (keys (bumpNat m k)).Nodup := by
  rw [keys_bumpNat]
  by_cases hk : k ∈ keys m
  · simpa [hk]
  · simp only [hk, if_false, List.nodup_append]
    refine ⟨h, List.nodup_singleton k, ?_⟩
    intro a ha hak
    simp only [List.mem_singleton] at hak
    exact hk (hak ▸ ha)

theorem mem_keys_node_degrees (fw : WMap) (u : String) :
    u ∈ keys (node_degrees fw) ↔ ∃ e ∈ fw, u = e.1.1 ∨ u = e.1.2 := by
  unfold node_degrees
  suffices h : ∀ acc : List (String × ℕ),
      (u ∈ keys (fw.foldl (fun m e => bumpNat (bumpNat m e.1.1) e.1.2) acc)
        ↔ u ∈ keys acc ∨ ∃ e ∈ fw, u = e.1.1 ∨ u = e.1.2) by
    rw [h []]
    simp [keys]
  induction fw with
  | nil => simp
  | cons e rest ih =>
    intro acc
    simp only [List.foldl_cons]
    rw [ih]
    rw [mem_keys_bumpNat, mem_keys_bumpNat]
    simp only [List.mem_cons]
    constructor
    · rintro ((h | h) | h)
      · rcases h with h | h
        · exact Or.inl h
        · exact Or.inr ⟨e, Or.inl rfl, Or.inl h⟩
      · exact Or.inr ⟨e, Or.inl rfl, Or.inr h⟩
      · rcases h with ⟨f, hf, hor⟩
        exact Or.inr ⟨f, Or.inr hf, hor⟩
    · rintro (h | ⟨f, hf | hf, hor⟩)
      · exact Or.inl (Or.inl (Or.inl h))
      · rcases hor with h | h
        · exact Or.inl (Or.inl (Or.inr (hf ▸ h)))
        · exact Or.inl (Or.inr (hf ▸ h))
      · exact Or.inr ⟨f, hf, hor⟩

theorem nodup_keys_node_degrees (fw : WMap) : (keys (node_degrees fw)).Nodup := by
  unfold node_degrees
  suffices h : ∀ acc : List (String × ℕ), (keys acc).Nodup →
      (keys (fw.foldl (fun m e => bumpNat (bumpNat m e.1.1) e.1.2) acc)).Nodup by
    exact h [] (by simp [keys])
  induction fw with
  | nil => exact fun acc h => h
  | cons e rest ih =>
    intro acc hacc
    exact ih _ (nodup_keys_bumpNat _ _ (nodup_keys_bumpNat _ _ hacc))

/-! ### Graph-construction invariants -/

theorem cng_floor_mem (w : WMap) : ∀ e ∈ cng_floor w, e ∈ w ∧ min_edge_weight ≤ e.2 := by
  intro e he
  exact ⟨List.mem_of_mem_filter he, by simpa using List.of_mem_filter he⟩

/-- Invariants of the node-cap step: surviving edges come from the input,
their endpoints lie in the surviving node set, the node set is
duplicate-free, included in the input node set, within the node cap, and
the edge list does not grow. -/
theorem cng_node_cap_spec (cfg : Config) (fw : WMap) (fu : List String)
    (hend : ∀ e ∈ fw, e.1.1 ∈ fu ∧ e.1.2 ∈ fu) (hnd : fu.Nodup) :
    (∀ e ∈ (cng_node_cap cfg fw fu).1, e ∈ fw)
      ∧ (∀ e ∈ (cng_node_cap cfg fw fu).1,
          e.1.1 ∈ (cng_node_cap cfg fw fu).2 ∧ e.1.2 ∈ (cng_node_cap cfg fw fu).2)
      ∧ ((cng_node_cap cfg fw fu).2).Nodup
      ∧ (∀ u ∈ (cng_node_cap cfg fw fu).2, u ∈ fu)
      ∧ (cng_node_cap cfg fw fu).2.length ≤ cfg.max_nodes_for_viz
      ∧ (cng_node_cap cfg fw fu).1.length ≤ fw.length := by
  unfold cng_node_cap
  split
  · rename_i hcap
    set degs := node_degrees fw with hdegs
    set tus := ((sortDescBy (fun x => x.2) degs).take cfg.max_nodes_for_viz).map
      (fun x => x.1) with htus
    have htus_sub : ∀ u ∈ tus, u ∈ keys degs := by
      intro u hu
      rw [htus] at hu
      rcases List.mem_map.mp hu with ⟨x, hx, hxu⟩
      have : x ∈ sortDescBy (fun x => x.2) degs := List.take_subset _ _ hx
      have : x ∈ degs := (sortDescBy_perm _ _).mem_iff.mp this
      exact hxu ▸ List.mem_map_of_mem Prod.fst this
    have htus_fu : ∀ u ∈ tus, u ∈ fu := by
      intro u hu
      have := htus_sub u hu
      rw [hdegs, mem_keys_node_degrees] at this
      rcases this with ⟨e, he, hor⟩
      rcases hor with h | h
      · exact h ▸ (hend e he).1
      · exact h ▸ (hend e he).2
    have htus_nd : tus.Nodup := by
      rw [htus]
      have hperm : (keys (sortDescBy (fun x => x.2) degs)).Perm (keys degs) :=
        (sortDescBy_perm _ _).map Prod.fst
      have hnd2 : (keys (sortDescBy (fun x => x.2) degs)).Nodup :=
        hperm.nodup_iff.mpr (nodup_keys_node_degrees fw)
      have heq : ((sortDescBy (fun x => x.2) degs).take cfg.max_nodes_for_viz).map
          (fun x => x.1) = (keys (sortDescBy (fun x => x.2) degs)).take
          cfg.max_nodes_for_viz := by
        simp [keys, List.map_take]
      rw [heq]
      exact hnd2.sublist (List.take_sublist _ _)
    refine ⟨?_, ?_, htus_nd, htus_fu, ?_, ?_⟩
    · intro e he
      exact List.mem_of_mem_filter he
    · intro e he
      have := List.of_mem_filter he
      simp only [Bool.and_eq_true] at this
      exact ⟨by simpa using this.1, by simpa using this.2⟩
    · show tus.length ≤ cfg.max_nodes_for_viz
      rw [htus, List.length_map]
      exact List.length_take_le _ _
    · exact List.length_filter_le _ _
  · rename_i hcap
    refine ⟨fun e he => he, hend, hnd, fun u hu => hu, ?_, le_rfl⟩
    show fu.length ≤ cfg.max_nodes_for_viz
    omega

/-- Invariants of the edge-cap step, under the same input invariants. -/
theorem cng_edge_cap_spec (cfg : Config) (fw : WMap) (fu : List String)
    (hend : ∀ e ∈ fw, e.1.1 ∈ fu ∧ e.1.2 ∈ fu) (hnd : fu.Nodup) :
    (∀ e ∈ (cng_edge_cap cfg fw fu).1, e ∈ fw)
      ∧ (∀ e ∈ (cng_edge_cap cfg fw fu).1,
          e.1.1 ∈ (cng_edge_cap cfg fw fu).2 ∧ e.1.2 ∈ (cng_edge_cap cfg fw fu).2)
      ∧ ((cng_edge_cap cfg fw fu).2).Nodup
      ∧ (∀ u ∈ (cng_edge_cap cfg fw fu).2, u ∈ fu)
      ∧ (cng_edge_cap cfg fw fu).1.length ≤ cfg.max_edges_for_viz
      ∧ (cng_edge_cap cfg fw fu).1.length ≤ fw.length
      ∧ (cng_edge_cap cfg fw fu).2.length ≤ fu.length := by
  unfold cng_edge_cap
  split
  · rename_i hcap
    set se := (sortDescBy (fun e => e.2) fw).take cfg.max_edges_for_viz with hse
    have hse_sub : ∀ e ∈ se, e ∈ fw := by
      intro e he
      rw [hse] at he
      exact (sortDescBy_perm _ _).mem_iff.mp (List.take_subset _ _ he)
    have hcu_fu : ∀ u ∈ collectUsers se, u ∈ fu := by
      intro u hu
      rw [mem_collectUsers] at hu
      rcases hu with ⟨e, he, hor⟩
      rcases hor with h | h
      · exact h ▸ (hend e (hse_sub e he)).1
      · exact h ▸ (hend e (hse_sub e he)).2
    refine ⟨hse_sub, ?_, nodup_collectUsers _, hcu_fu, ?_, ?_, ?_⟩
    · intro e he
      constructor
      · rw [mem_collectUsers]
        exact ⟨e, he, Or.inl rfl⟩
      · rw [mem_collectUsers]
        exact ⟨e, he, Or.inr rfl⟩
    · rw [hse]
      exact List.length_take_le _ _
    · rw [hse]
      calc ((sortDescBy (fun e => e.2) fw).take cfg.max_edges_for_viz).length
          ≤ (sortDescBy (fun e => e.2) fw).length := (List.take_sublist _ _).length_le
        _ = fw.length := (sortDescBy_perm _ _).length_eq
    · exact nodup_subset_length_le (nodup_collectUsers _) hcu_fu
  · rename_i hcap
    refine ⟨fun e he => he, hend, hnd, fun u hu => hu, ?_, le_rfl, le_rfl⟩
    show fw.length ≤ cfg.max_edges_for_viz
    omega

/-- Unfolded form of the graph constructor. -/
theorem construct_network_graph_eq (w : WMap) (cfg : Config) :
    construct_network_graph w cfg =
      { original_nodes_count := (collectUsers w).length
        original_edges_count := w.length
        nodes := stableSort strLe
          (cng_edge_cap cfg (cng_node_cap cfg (cng_floor w) (collectUsers (cng_floor w))).1
            (cng_node_cap cfg (cng_floor w) (collectUsers (cng_floor w))).2).2
        edges := (cng_edge_cap cfg
          (cng_node_cap cfg (cng_floor w) (collectUsers (cng_floor w))).1
          (cng_node_cap cfg (cng_floor w) (collectUsers (cng_floor w))).2).1
        total_nodes := (cng_edge_cap cfg
          (cng_node_cap cfg (cng_floor w) (collectUsers (cng_floor w))).1
          (cng_node_cap cfg (cng_floor w) (collectUsers (cng_floor w))).2).2.length
        total_edges := (cng_edge_cap cfg
          (cng_node_cap cfg (cng_floor w) (collectUsers (cng_floor w))).1
          (cng_node_cap cfg (cng_floor w) (collectUsers (cng_floor w))).2).1.length
        interaction_matrix := (cng_edge_cap cfg
          (cng_node_cap cfg (cng_floor w) (collectUsers (cng_floor w))).1
          (cng_node_cap cfg (cng_floor w) (collectUsers (cng_floor w))).2).1.map
            (fun e => (e.1.1 ++ "_" ++ e.1.2, e.2)) } := rfl

/-- The combined invariants of `_construct_network_graph` used by the
pruning claims: surviving edges originate in the weight map and sit above
the floor, edge endpoints lie in the node list, node/edge counts respect
both the visualization caps and the original counts, and the node list is a
duplicate-free sorted permutation of the surviving user set. -/
theorem construct_spec (w : WMap) (cfg : Config) :
    (∀ e ∈ (construct_network_graph w cfg).edges, e ∈ w ∧ min_edge_weight ≤ e.2)
      ∧ (∀ e ∈ (construct_network_graph w cfg).edges,
          e.1.1 ∈ (construct_network_graph w cfg).nodes
            ∧ e.1.2 ∈ (construct_network_graph w cfg).nodes)
      ∧ (construct_network_graph w cfg).total_nodes ≤ cfg.max_nodes_for_viz
      ∧ (construct_network_graph w cfg).total_edges ≤ cfg.max_edges_for_viz
      ∧ (construct_network_graph w cfg).total_nodes
          ≤ (construct_network_graph w cfg).original_nodes_count
      ∧ (construct_network_graph w cfg).total_edges
          ≤ (construct_network_graph w cfg).original_edges_count
      ∧ (construct_network_graph w cfg).total_nodes
          = (construct_network_graph w cfg).nodes.length := by
  have hfloor := cng_floor_mem w
  have hend1 : ∀ e ∈ cng_floor w, e.1.1 ∈ collectUsers (cng_floor w)
      ∧ e.1.2 ∈ collectUsers (cng_floor w) := by
    intro e he
    constructor
    · rw [mem_collectUsers]; exact ⟨e, he, Or.inl rfl⟩
    · rw [mem_collectUsers]; exact ⟨e, he, Or.inr rfl⟩
  have h3 := cng_node_cap_spec cfg (cng_floor w) (collectUsers (cng_floor w)) hend1
    (nodup_collectUsers _)
  obtain ⟨h3sub, h3end, h3nd, h3fu, h3cap, h3len⟩ := h3
  have h4 := cng_edge_cap_spec cfg
    (cng_node_cap cfg (cng_floor w) (collectUsers (cng_floor w))).1
    (cng_node_cap cfg (cng_floor w) (collectUsers (cng_floor w))).2 h3end h3nd
  obtain ⟨h4sub, h4end, h4nd, h4fu, h4cap, h4len, h4ulen⟩ := h4
  rw [construct_network_graph_eq]
  refine ⟨?_, ?_, ?_, ?_, ?_, ?_, ?_⟩
  · intro e he
    exact hfloor e (h3sub e (h4sub e he))
  · intro e he
    have := h4end e he
    constructor
    · exact (stableSort_perm strLe _).mem_iff.mpr this.1
    · exact (stableSort_perm strLe _).mem_iff.mpr this.2
  · exact le_trans h4ulen h3cap
  · exact h4cap
  · have hsub : ∀ u ∈ (cng_edge_cap cfg
        (cng_node_cap cfg (cng_floor w) (collectUsers (cng_floor w))).1
        (cng_node_cap cfg (cng_floor w) (collectUsers (cng_floor w))).2).2,
        u ∈ collectUsers w := by
      intro u hu
      have := h3fu u (h4fu u hu)
      exact collectUsers_mono (fun e he => (cng_floor_mem w e he).1) u this
    exact nodup_subset_length_le h4nd hsub
  · calc (cng_edge_cap cfg
        (cng_node_cap cfg (cng_floor w) (collectUsers (cng_floor w))).1
        (cng_node_cap cfg (cng_floor w) (collectUsers (cng_floor w))).2).1.length
        ≤ (cng_node_cap cfg (cng_floor w) (collectUsers (cng_floor w))).1.length := h4len
      _ ≤ (cng_floor w).length := h3len
      _ ≤ w.length := List.length_filter_le _ _
  · exact ((stableSort_perm strLe _).length_eq).symm

/-- When neither cap can trigger, pruning is exactly the weight floor. -/
theorem construct_noop (w : WMap) (cfg : Config)
    (hn : (collectUsers w).length ≤ cfg.max_nodes_for_viz)
    (he : w.length ≤ cfg.max_edges_for_viz) :
    (construct_network_graph w cfg).edges = cng_floor w
      ∧ (construct_network_graph w cfg).nodes
          = stableSort strLe (collectUsers (cng_floor w)) := by
  have hfu_sub : ∀ u ∈ collectUsers (cng_floor w), u ∈ collectUsers w :=
    collectUsers_mono (fun e he' => (cng_floor_mem w e he').1)
  have hfu_len : (collectUsers (cng_floor w)).length ≤ (collectUsers w).length :=
    nodup_subset_length_le (nodup_collectUsers _) hfu_sub
  have h3 : cng_node_cap cfg (cng_floor w) (collectUsers (cng_floor w))
      = (cng_floor w, collectUsers (cng_floor w)) := by
    unfold cng_node_cap
    rw [if_neg]
    omega
  have hfw_len : (cng_floor w).length ≤ w.length := List.length_filter_le _ _
  have h4 : cng_edge_cap cfg (cng_floor w) (collectUsers (cng_floor w))
      = (cng_floor w, collectUsers (cng_floor w)) := by
    unfold cng_edge_cap
    rw [if_neg]
    omega
  rw [construct_network_graph_eq]
  simp only [h3, h4]
  exact ⟨trivial, trivial⟩

/-! ### Claim C1 -/

/-- Claim C1 is false on the code: here two senders share all their tokens
(similarity 1.0, far above the 0.1 threshold) and never interact inside the
conversation window, and 0.3·similarity = 0.3 is not below
min_edge_weight = 0.2 — yet the analysis produces no edge at all, because
the weight-aggregation floor `min_interactions = 1` removes the pair
first. -/
theorem C1_counterexample :
    extract_conversations c1_messages = []
      ∧ analyze_content_similarity base_cfg c1_messages = [(("a", "b"), 1)]
      ∧ min_edge_weight ≤ (3/10 : ℚ) * 1
      ∧ (construct_network_graph
          (calculate_interaction_weights (extract_conversations c1_messages)
            (analyze_content_similarity base_cfg c1_messages)) base_cfg).edges = [] := by
  refine ⟨by decide, by decide, by decide, by decide⟩

/-- Claim C1 (amended): a pair of senders that never interacts inside the
conversation window (no entry in the conversation map) never produces an
edge: its combined weight is 0.3 times a Jaccard similarity ≤ 1, hence at
most 0.3, which falls below the `min_interactions` floor of 1, so the pair
is discarded during weight aggregation — before `min_edge_weight` is even
consulted. -/
theorem C1_similarity_only_pair_never_forms_edge (cfg : Config)
    (messages : List Message) (p : Pair)
    (hp : p ∉ keys (extract_conversations messages)) :
    (∀ e ∈ calculate_interaction_weights (extract_conversations messages)
        (analyze_content_similarity cfg messages), e.1 ≠ p)
      ∧ (∀ e ∈ (construct_network_graph
          (calculate_interaction_weights (extract_conversations messages)
            (analyze_content_similarity cfg messages)) cfg).edges, e.1 ≠ p) := by
  have hspec := analyze_content_similarity_spec cfg messages
  have h1 := ciw_no_simonly_edge _ _ p hspec.1 hspec.2 hp
  refine ⟨h1, ?_⟩
  intro e he
  exact h1 e ((construct_spec _ cfg).1 e he).1

/-- Witness for C1: the all-tokens-shared pair of `c1_messages` indeed
yields no edge. -/
theorem C1_witness :
    ¬ ((("a", "b"), (3/10 : ℚ)) ∈ (construct_network_graph
        (calculate_interaction_weights (extract_conversations c1_messages)
          (analyze_content_similarity base_cfg c1_messages)) base_cfg).edges) :=
  fun hmem =>
    (C1_similarity_only_pair_never_forms_edge base_cfg c1_messages ("a", "b")
      (by decide)).2 _ hmem rfl

/-! ### Claim C5 -/

/-- Claim C5: pruning monotonicity.  The pruned node and edge counts never
exceed the originals, and when the original counts respect both
visualization caps the caps are a no-op: the surviving edges are exactly
the weight map after the `min_edge_weight` floor, and the node list is the
sorted user set of those floored edges. -/
theorem C5_pruning_monotonicity (w : WMap) (cfg : Config) :
    ((construct_network_graph w cfg).total_nodes
        ≤ (construct_network_graph w cfg).original_nodes_count
      ∧ (construct_network_graph w cfg).total_edges
        ≤ (construct_network_graph w cfg).original_edges_count)
      ∧ ((construct_network_graph w cfg).original_nodes_count ≤ cfg.max_nodes_for_viz →
          (construct_network_graph w cfg).original_edges_count ≤ cfg.max_edges_for_viz →
          (construct_network_graph w cfg).edges
              = w.filter (fun e => min_edge_weight ≤ e.2)
            ∧ (construct_network_graph w cfg).nodes
              = stableSort strLe (collectUsers (w.filter (fun e => min_edge_weight ≤ e.2)))) := by
  have hs := construct_spec w cfg
  refine ⟨⟨hs.2.2.2.2.1, hs.2.2.2.2.2.1⟩, ?_⟩
  intro hn he
  have hno := construct_noop w cfg hn he
  exact ⟨hno.1, hno.2⟩

/-- Witness for C5: on a small weight map within both caps, pruning is the
floor alone. -/
theorem C5_witness :
    (construct_network_graph [(("a", "b"), 1)] base_cfg).edges
        = [(("a", "b"), (1 : ℚ))].filter (fun e => min_edge_weight ≤ e.2)
      ∧ (construct_network_graph [(("a", "b"), 1)] base_cfg).nodes
        = stableSort strLe (collectUsers
            ([(("a", "b"), (1 : ℚ))].filter (fun e => min_edge_weight ≤ e.2))) :=
  (C5_pruning_monotonicity [(("a", "b"), 1)] base_cfg).2 (by decide) (by decide)

/-! ### Claim C6 -/

/-- Claim C6: graph invariants.  Every surviving edge has both endpoints in
the node list, node and edge counts respect the configured caps, and every
pruning decision sees only the post-aggregation weight: each surviving
edge's stored weight equals `0.7·conversation + 0.3·similarity` for its
pair and passed both the `min_interactions` and `min_edge_weight`
thresholds on that combined value. -/
theorem C6_graph_invariants (conversations content_similarities : WMap) (cfg : Config)
    (hc : (keys conversations).Nodup) (hs : (keys content_similarities).Nodup) :
    (∀ e ∈ (construct_network_graph
        (calculate_interaction_weights conversations content_similarities) cfg).edges,
        e.1.1 ∈ (construct_network_graph
          (calculate_interaction_weights conversations content_similarities) cfg).nodes
          ∧ e.1.2 ∈ (construct_network_graph
            (calculate_interaction_weights conversations content_similarities) cfg).nodes)
      ∧ (construct_network_graph
          (calculate_interaction_weights conversations content_similarities) cfg).total_nodes
          ≤ cfg.max_nodes_for_viz
      ∧ (construct_network_graph
          (calculate_interaction_weights conversations content_similarities) cfg).total_edges
          ≤ cfg.max_edges_for_viz
      ∧ (∀ e ∈ (construct_network_graph
          (calculate_interaction_weights conversations content_similarities) cfg).edges,
          e.2 = getD conversations e.1 0 * (7/10) + getD content_similarities e.1 0 * (3/10)
            ∧ min_interactions ≤ e.2 ∧ min_edge_weight ≤ e.2) := by
  have hcs := construct_spec (calculate_interaction_weights conversations content_similarities) cfg
  refine ⟨hcs.2.1, hcs.2.2.1, hcs.2.2.2.1, ?_⟩
  intro e he
  have hmem := hcs.1 e he
  have hv := ciw_entry_value conversations content_similarities hc hs e hmem.1
  exact ⟨hv.1, hv.2, hmem.2⟩

/-- Witness for C6: a conversation-only pair with score 2 gets the combined
weight 1.4 and survives with both endpoints present. -/
theorem C6_witness :
    (7/5 : ℚ) = getD [(("a", "b"), (2 : ℚ))] ("a", "b") 0 * (7/10) + getD ([] : WMap) ("a", "b") 0 * (3/10)
      ∧ min_interactions ≤ (7/5 : ℚ) ∧ min_edge_weight ≤ (7/5 : ℚ) :=
  (C6_graph_invariants [(("a", "b"), 2)] [] base_cfg (by decide) (by decide)).2.2.2
    (("a", "b"), 7/5) (by decide)

/-! ### Claim C8 -/

/-- Claim C8 is false on the code: on the same content map and candidate
list, the sequential path stores the (identical) similarity under the
canonicalized key `("a","b")` while the parallel path stores it under the
raw key `("b","a")` — the two result maps differ, and the difference is
behavioural because downstream weight aggregation merges by literal key. -/
theorem C8_counterexample :
    analyze_similarity_sequential c8_user_contents [("b", "a")] = [(("a", "b"), 1)]
      ∧ analyze_similarity_parallel c8_user_contents [("b", "a")] = [(("b", "a"), 1)]
      ∧ analyze_similarity_parallel c8_user_contents [("b", "a")]
          ≠ analyze_similarity_sequential c8_user_contents [("b", "a")] := by
  refine ⟨by decide, by decide, by decide⟩

/-- The two similarity computations agree once both users pass the
two-message gate. -/
theorem calc_pair_similarity_eq_simple (uc : List (String × List String)) (p : Pair)
    (h1 : 2 ≤ (getD uc p.1 []).length) (h2 : 2 ≤ (getD uc p.2 []).length) :
    (calc_pair_similarity uc p).2
      = calculate_user_similarity_simple (getD uc p.1 []) (getD uc p.2 []) := by
  unfold calc_pair_similarity calculate_user_similarity_simple
  have hg : ¬ ((getD uc p.1 []).length < 2 || (getD uc p.2 []).length < 2) := by
    simp only [Bool.or_eq_true, decide_eq_true_eq, not_or]
    omega
  simp only [hg, Bool.false_eq_true, if_false]
  by_cases he : (user_token_set (getD uc p.1 [])).isEmpty
      || (user_token_set (getD uc p.2 [])).isEmpty
  · simp [he]
  · simp only [he, Bool.false_eq_true, if_false]

/-- Claim C8 (amended): the parallel and sequential similarity paths
compute the same Jaccard values and survive the same threshold; when every
candidate pair is already in canonical sorted order the two result maps are
identical, whereas an unsorted candidate pair is stored by the parallel
path under its raw key instead of the canonical key. -/
theorem C8_parallel_eq_sequential_on_sorted_pairs (uc : List (String × List String))
    (ps : List Pair) (hsorted : ∀ p ∈ ps, strLe p.1 p.2 = true) :
    analyze_similarity_parallel uc ps = analyze_similarity_sequential uc ps := by
  unfold analyze_similarity_parallel analyze_similarity_sequential
  rw [List.foldl_map]
  induction ps using List.reverseRecOn with
  | nil => rfl
  | append_singleton xs p ih =>
    rw [List.foldl_append, List.foldl_append]
    rw [ih (fun q hq => hsorted q (List.mem_append_left _ hq))]
    simp only [List.foldl_cons, List.foldl_nil]
    set acc := xs.foldl (fun sims p =>
      if 2 ≤ (getD uc p.1 []).length && 2 ≤ (getD uc p.2 []).length then
        if similarity_threshold < calculate_user_similarity_simple
            (getD uc p.1 []) (getD uc p.2 []) then
          setv sims (sortPair p.1 p.2) (calculate_user_similarity_simple
            (getD uc p.1 []) (getD uc p.2 []))
        else sims
      else sims) []
    have hsp : sortPair p.1 p.2 = p := by
      unfold sortPair
      rw [if_pos (hsorted p (List.mem_append_right _ (List.mem_singleton_self p)))]
    by_cases hlen : (2 ≤ (getD uc p.1 []).length && 2 ≤ (getD uc p.2 []).length) = true
    · have hl : 2 ≤ (getD uc p.1 []).length ∧ 2 ≤ (getD uc p.2 []).length := by
        simpa only [Bool.and_eq_true, decide_eq_true_eq] using hlen
      have hv := calc_pair_similarity_eq_simple uc p hl.1 hl.2
      have hk : (calc_pair_similarity uc p).1 = p := by
        unfold calc_pair_similarity
        have hg : ¬ (((getD uc p.1 []).length < 2 || (getD uc p.2 []).length < 2) = true) := by
          simp only [Bool.or_eq_true, decide_eq_true_eq, not_or]
          omega
        simp only [Bool.not_eq_true] at hg
        simp only [hg, Bool.false_eq_true, if_false]
        by_cases he : ((user_token_set (getD uc p.1 [])).isEmpty
            || (user_token_set (getD uc p.2 [])).isEmpty) = true
        · simp [he]
        · simp only [Bool.not_eq_true] at he
          simp only [he, Bool.false_eq_true, if_false]
      rw [hv, hk, if_pos hlen, hsp]
    · have hz : (calc_pair_similarity uc p).2 = 0 := by
        unfold calc_pair_similarity
        have hg : ((getD uc p.1 []).length < 2 || (getD uc p.2 []).length < 2) = true := by
          simp only [Bool.and_eq_true, decide_eq_true_eq, not_and_or, not_le] at hlen
          simpa only [Bool.or_eq_true, decide_eq_true_eq]
        simp [hg]
      rw [hz, if_neg hlen, if_neg (by rw [similarity_threshold]; norm_num)]

/-- Witness for C8: with the candidate pair already sorted, the two paths
produce identical maps. -/
theorem C8_witness :
    analyze_similarity_parallel
        [("a", ["hello world", "hello there"]), ("b", ["hello world", "hello there"])]
        [("a", "b")]
      = analyze_similarity_sequential
        [("a", ["hello world", "hello there"]), ("b", ["hello world", "hello there"])]
        [("a", "b")] :=
  C8_parallel_eq_sequential_on_sorted_pairs _ _ (by decide)

/-! ### Label-propagation lemmas -/

theorem foldl_max_mem (xs : List ℚ) (x : ℚ) : xs.foldl max x ∈ x :: xs := by
  induction xs generalizing x with
  | nil => exact List.mem_singleton_self x
  | cons y ys ih =>
    simp only [List.foldl_cons]
    rcases List.mem_cons.mp (ih (max x y)) with h | h
    · rw [h]
      rcases max_choice x y with hm | hm
      · rw [hm]
        exact List.mem_cons_self _ _
      · rw [hm]
        exact List.mem_cons_of_mem _ (List.mem_cons_self _ _)
    · exact List.mem_cons_of_mem _ (List.mem_cons_of_mem _ h)

theorem le_foldl_max (xs : List ℚ) (x : ℚ) : x ≤ xs.foldl max x := by
  induction xs generalizing x with
  | nil => exact le_rfl
  | cons y ys ih =>
    simp only [List.foldl_cons]
    exact le_trans (le_max_left x y) (ih (max x y))

theorem mem_le_foldl_max (xs : List ℚ) (x v : ℚ) (h : v ∈ x :: xs) : v ≤ xs.foldl max x := by
  induction xs generalizing x with
  | nil =>
    simp only [List.mem_singleton] at h
    exact h ▸ le_rfl
  | cons y ys ih =>
    simp only [List.foldl_cons]
    rcases List.mem_cons.mp h with hv | hv
    · exact le_trans (hv ▸ le_max_left x y) (le_foldl_max ys (max x y))
    · rcases List.mem_cons.mp hv with hv2 | hv2
      · exact le_trans (hv2 ▸ le_max_right x y) (le_foldl_max ys (max x y))
      · exact ih (max x y) (List.mem_cons_of_mem _ hv2)

theorem listMaxD_mem {l : List ℚ} (d : ℚ) (h : l ≠ []) : listMaxD l d ∈ l := by
  cases l with
  | nil => exact absurd rfl h
  | cons x xs => exact foldl_max_mem xs x

theorem listMaxD_ge {l : List ℚ} (d v : ℚ) (hv : v ∈ l) : v ≤ listMaxD l d := by
  cases l with
  | nil => cases hv
  | cons x xs => exact mem_le_foldl_max xs x v hv

theorem lp_best_labels_ne_nil (adjm : AdjMap) (ew : WMap) (labels : List (String × ℕ))
    (node : String) (h : lp_label_weights adjm ew labels node ≠ []) :
    lp_best_labels adjm ew labels node ≠ [] := by
  unfold lp_best_labels
  intro hc
  have hmax : listMaxD ((lp_label_weights adjm ew labels node).map (fun e => e.2)) 0
      ∈ (lp_label_weights adjm ew labels node).map (fun e => e.2) :=
    listMaxD_mem 0 (by simpa using h)
  rcases List.mem_map.mp hmax with ⟨e, he, hev⟩
  have : e ∈ (lp_label_weights adjm ew labels node).filter (fun e =>
      e.2 == listMaxD ((lp_label_weights adjm ew labels node).map (fun e => e.2)) 0) := by
    rw [List.mem_filter]
    exact ⟨he, by simp [hev]⟩
  have : e.1 ∈ ((lp_label_weights adjm ew labels node).filter (fun e =>
      e.2 == listMaxD ((lp_label_weights adjm ew labels node).map (fun e => e.2)) 0)).map
      (fun e => e.1) := List.mem_map_of_mem _ this
  rw [hc] at this
  cases this

/-- Each node visit either leaves the table unchanged or installs a label
drawn from the argmax set of the tally computed over the labels current at
that visit. -/
theorem lp_update_cases (adjm : AdjMap) (ew : WMap) (pick : List ℕ → ℕ)
    (labels : List (String × ℕ)) (node : String)
    (hpick : ∀ l : List ℕ, l ≠ [] → pick l ∈ l) :
    (lp_update adjm ew pick labels node).1 = labels
      ∨ ((lp_update adjm ew pick labels node).1
            = setv labels node (pick (lp_best_labels adjm ew labels node))
          ∧ pick (lp_best_labels adjm ew labels node)
              ∈ lp_best_labels adjm ew labels node) := by
  unfold lp_update
  by_cases ha : (adjGet adjm node).isEmpty
  · simp [ha]
  · simp only [ha, Bool.false_eq_true, if_false]
    by_cases hw : (lp_label_weights adjm ew labels node).isEmpty
    · simp [hw]
    · simp only [hw, Bool.false_eq_true, if_false]
      have hne : lp_label_weights adjm ew labels node ≠ [] := by
        simpa using hw
      have hbest := lp_best_labels_ne_nil adjm ew labels node hne
      by_cases hch : (getD labels node 0 != pick (lp_best_labels adjm ew labels node)) = true
      · refine Or.inr ⟨?_, hpick _ hbest⟩
        simp [hch]
      · refine Or.inl ?_
        simp [hch]

/-- The `changed` flag does not influence the label values: the pass is the
plain in-place fold of node updates. -/
theorem lp_pass_fst (adjm : AdjMap) (ew : WMap) (pick : String → List ℕ → ℕ)
    (order : List String) (labels : List (String × ℕ)) :
    (lp_pass adjm ew pick order labels).1
      = order.foldl (fun L node => (lp_update adjm ew (pick node) L node).1) labels := by
  unfold lp_pass
  suffices h : ∀ (order : List String) (L : List (String × ℕ)) (b : Bool),
      (order.foldl (fun acc node =>
        ((lp_update adjm ew (pick node) acc.1 node).1,
          acc.2 || (lp_update adjm ew (pick node) acc.1 node).2)) (L, b)).1
        = order.foldl (fun L node => (lp_update adjm ew (pick node) L node).1) L by
    exact h order labels false
  intro order
  induction order with
  | nil => intro L b; rfl
  | cons n rest ih =>
    intro L b
    simp only [List.foldl_cons]
    exact ih _ _

theorem lp_update_unchanged_of_flag (adjm : AdjMap) (ew : WMap) (pick : List ℕ → ℕ)
    (labels : List (String × ℕ)) (node : String)
    (h : (lp_update adjm ew pick labels node).2 = false) :
    (lp_update adjm ew pick labels node).1 = labels := by
  unfold lp_update at h ⊢
  by_cases ha : (adjGet adjm node).isEmpty
  · simp [ha]
  · simp only [ha, Bool.false_eq_true, if_false] at h ⊢
    by_cases hw : (lp_label_weights adjm ew labels node).isEmpty
    · simp [hw]
    · simp only [hw, Bool.false_eq_true, if_false] at h ⊢
      by_cases hch : (getD labels node 0
          != pick (lp_best_labels adjm ew labels node)) = true
      · rw [if_pos hch] at h
        cases h
      · rw [if_neg hch]

/-- A pass that reports no change leaves the label table untouched. -/
theorem lp_pass_no_change (adjm : AdjMap) (ew : WMap) (pick : String → List ℕ → ℕ)
    (order : List String) (labels : List (String × ℕ))
    (h : (lp_pass adjm ew pick order labels).2 = false) :
    (lp_pass adjm ew pick order labels).1 = labels := by
  unfold lp_pass at h ⊢
  suffices haux : ∀ (order : List String) (L : List (String × ℕ)) (b : Bool),
      (order.foldl (fun acc node =>
        ((lp_update adjm ew (pick node) acc.1 node).1,
          acc.2 || (lp_update adjm ew (pick node) acc.1 node).2)) (L, b)).2 = false →
      (order.foldl (fun acc node =>
        ((lp_update adjm ew (pick node) acc.1 node).1,
          acc.2 || (lp_update adjm ew (pick node) acc.1 node).2)) (L, b)).1 = L by
    exact haux order labels false h
  intro order
  induction order with
  | nil => intro L b _; rfl
  | cons n rest ih =>
    intro L b hflag
    simp only [List.foldl_cons] at hflag ⊢
    have h1 := ih _ _ hflag
    rw [h1]
    have hbor : (b || (lp_update adjm ew (pick n) L n).2) = false := by
      by_contra hc
      have hbt : (b || (lp_update adjm ew (pick n) L n).2) = true := by
        revert hc
        cases (b || (lp_update adjm ew (pick n) L n).2) <;> simp
      suffices hmono : ∀ (order : List String) (L : List (String × ℕ)),
          (order.foldl (fun acc node =>
            ((lp_update adjm ew (pick node) acc.1 node).1,
              acc.2 || (lp_update adjm ew (pick node) acc.1 node).2)) (L, true)).2 = true by
        rw [hbt] at hflag
        rw [hmono rest _] at hflag
        cases hflag
      intro order
      induction order with
      | nil => intro L; rfl
      | cons m rest2 ih2 =>
        intro L
        simp only [List.foldl_cons, Bool.true_or]
        exact ih2 _
    have : (lp_update adjm ew (pick n) L n).2 = false := by
      revert hbor
      cases (lp_update adjm ew (pick n) L n).2 <;> simp
    exact lp_update_unchanged_of_flag adjm ew (pick n) L n this

/-- The loop exits as soon as a full pass changes no label. -/
theorem lp_loop_stop (adjm : AdjMap) (ew : WMap) (orders : ℕ → List String)
    (picks : ℕ → String → List ℕ → ℕ) (fuel i : ℕ) (labels : List (String × ℕ))
    (h : (lp_pass adjm ew (picks i) (orders i) labels).2 = false) :
    lp_loop adjm ew orders picks (fuel + 1) i labels = labels := by
  unfold lp_loop
  simp only [h, Bool.false_eq_true, if_false]
  exact lp_pass_no_change adjm ew (picks i) (orders i) labels h

/-- The loop performs at most `fuel` passes: its result is some `k ≤ fuel`
plain iterations of the pass. -/
theorem lp_loop_iterate (adjm : AdjMap) (ew : WMap) (orders : ℕ → List String)
    (picks : ℕ → String → List ℕ → ℕ) :
    ∀ (fuel i : ℕ) (labels : List (String × ℕ)),
      ∃ k ≤ fuel, lp_loop adjm ew orders picks fuel i labels
        = lp_iterate adjm ew orders picks k i labels := by
  intro fuel
  induction fuel with
  | zero => exact fun i labels => ⟨0, le_rfl, rfl⟩
  | succ f ih =>
    intro i labels
    unfold lp_loop
    by_cases hch : (lp_pass adjm ew (picks i) (orders i) labels).2 = true
    · simp only [hch, if_true]
      rcases ih (i + 1) (lp_pass adjm ew (picks i) (orders i) labels).1 with ⟨k, hk, heq⟩
      exact ⟨k + 1, by omega, by rw [heq]; rfl⟩
    · simp only [hch, if_false]
      refine ⟨0, by omega, ?_⟩
      have : (lp_pass adjm ew (picks i) (orders i) labels).2 = false := by
        revert hch
        cases (lp_pass adjm ew (picks i) (orders i) labels).2 <;> simp
      exact lp_pass_no_change adjm ew (picks i) (orders i) labels this

/-! ### Claim C2 -/

/-- Claim C2 is false on the code: the update is in-place (asynchronous),
not synchronous.  On the path graph a—b—c with the shuffle order
`[a, b, c]`, the tally at `b` over the start-of-iteration labels has the
unique argmax label 0, so a synchronous update must relabel `b` to 0 — but
the code, having already relabelled `a` to 1 earlier in the same iteration,
tallies `{1: 2, 2: 1}` at `b` and leaves `b` at label 1.  Every argmax set
met during the pass is a singleton, so the random tie-break plays no
role. -/
theorem C2_counterexample :
    lp_best_labels (build_adj_list c2_edges) (build_edge_weights c2_edges) c2_labels0 "b"
        = [0]
      ∧ lp_best_labels (build_adj_list c2_edges) (build_edge_weights c2_edges) c2_labels0 "a"
        = [1]
      ∧ lp_best_labels (build_adj_list c2_edges) (build_edge_weights c2_edges)
          (setv c2_labels0 "a" 1) "b" = [1]
      ∧ lp_best_labels (build_adj_list c2_edges) (build_edge_weights c2_edges)
          (setv c2_labels0 "a" 1) "c" = [1]
      ∧ (lp_pass (build_adj_list c2_edges) (build_edge_weights c2_edges)
          (fun _ l => l.headD 0) ["a", "b", "c"] c2_labels0).1
        = [("a", 1), ("b", 1), ("c", 1)]
      ∧ getD (lp_pass (build_adj_list c2_edges) (build_edge_weights c2_edges)
          (fun _ l => l.headD 0) ["a", "b", "c"] c2_labels0).1 "b" 0 ≠ 0 := by
  refine ⟨by decide, by decide, by decide, by decide, by decide, by decide⟩

/-- Claim C2 (amended): community detection uses in-place (asynchronous)
label propagation: a pass visits the nodes in the given random order and
each visited node adopts a label from the argmax set of the weighted tally
over the labels current at its visit (including labels updated earlier in
the same pass), with ties drawn by `random.choice`; the loop is capped at
`lp_max_iterations = 100` passes and exits early as soon as a pass changes
no label. -/
theorem C2_label_propagation_is_asynchronous (adjm : AdjMap) (ew : WMap)
    (pick : String → List ℕ → ℕ) (order : List String)
    (labels : List (String × ℕ)) (orders : ℕ → List String)
    (picks : ℕ → String → List ℕ → ℕ) (i fuel : ℕ)
    (hpick : ∀ (node : String) (l : List ℕ), l ≠ [] → pick node l ∈ l) :
    ((lp_pass adjm ew pick order labels).1
        = order.foldl (fun L node => (lp_update adjm ew (pick node) L node).1) labels)
      ∧ (∀ (L : List (String × ℕ)) (node : String),
          (lp_update adjm ew (pick node) L node).1 = L
            ∨ ((lp_update adjm ew (pick node) L node).1
                  = setv L node (pick node (lp_best_labels adjm ew L node))
                ∧ pick node (lp_best_labels adjm ew L node)
                    ∈ lp_best_labels adjm ew L node))
      ∧ ((lp_pass adjm ew (picks i) (orders i) labels).2 = false →
          lp_loop adjm ew orders picks (fuel + 1) i labels = labels)
      ∧ (∃ k ≤ lp_max_iterations,
          lp_loop adjm ew orders picks lp_max_iterations 0 labels
            = lp_iterate adjm ew orders picks k 0 labels) := by
  refine ⟨lp_pass_fst adjm ew pick order labels, ?_, ?_, ?_⟩
  · intro L node
    exact lp_update_cases adjm ew (pick node) L node (hpick node)
  · intro h
    exact lp_loop_stop adjm ew orders picks fuel i labels h
  · exact lp_loop_iterate adjm ew orders picks lp_max_iterations 0 labels

/-- Witness for C2: on the concrete path graph the bounded loop is some
`k ≤ 100` iterations of the pass. -/
theorem C2_witness :
    ∃ k ≤ lp_max_iterations,
      lp_loop (build_adj_list c2_edges) (build_edge_weights c2_edges)
          (fun _ => ["a", "b", "c"]) (fun _ _ l => l.headD 0)
          lp_max_iterations 0 c2_labels0
        = lp_iterate (build_adj_list c2_edges) (build_edge_weights c2_edges)
          (fun _ => ["a", "b", "c"]) (fun _ _ l => l.headD 0) k 0 c2_labels0 :=
  (C2_label_propagation_is_asynchronous (build_adj_list c2_edges)
    (build_edge_weights c2_edges) (fun _ l => l.headD 0) ["a", "b", "c"] c2_labels0
    (fun _ => ["a", "b", "c"]) (fun _ _ l => l.headD 0) 0 99
    (by
      intro node l hl
      cases l with
      | nil => exact absurd rfl hl
      | cons a as => exact List.mem_cons_self a as)).2.2.2

/-! ### Lexicographic string-order lemmas -/

theorem charListLt_irrefl : ∀ a : List Char, charListLt a a = false := by
  intro a
  induction a with
  | nil => rfl
  | cons c cs ih =>
    unfold charListLt
    simp [lt_irrefl, ih]

theorem charListLt_asymm : ∀ a b : List Char,
    charListLt a b = true → charListLt b a = false := by
  intro a
  induction a with
  | nil =>
    intro b h
    cases b with
    | nil => cases h
    | cons c cs => rfl
  | cons c cs ih =>
    intro b h
    cases b with
    | nil => cases h
    | cons d ds =>
      unfold charListLt at h ⊢
      by_cases hcd : c < d
      · have hdc : ¬ d < c := lt_asymm hcd
        simp only [hcd, hdc, if_true, if_false]
      · by_cases hdc : d < c
        · simp only [hcd, hdc, if_true, if_false] at h
          cases h
        · simp only [hcd, hdc, if_false] at h ⊢
          exact ih ds h

theorem charListLt_trichotomy : ∀ a b : List Char,
    charListLt a b = true ∨ charListLt b a = true ∨ a = b := by
  intro a
  induction a with
  | nil =>
    intro b
    cases b with
    | nil => exact Or.inr (Or.inr rfl)
    | cons c cs => exact Or.inl rfl
  | cons c cs ih =>
    intro b
    cases b with
    | nil => exact Or.inr (Or.inl rfl)
    | cons d ds =>
      unfold charListLt
      rcases lt_trichotomy c d with h | h | h
      · left
        simp [h]
      · subst h
        have hlt : ¬ c < c := lt_irrefl c
        rcases ih ds with h2 | h2 | h2
        · left
          simp [hlt, h2]
        · right; left
          simp [hlt, h2]
        · right; right
          rw [h2]
      · right; left
        simp [h]

theorem charListLt_trans : ∀ a b c : List Char,
    charListLt a b = true → charListLt b c = true → charListLt a c = true := by
  intro a
  induction a with
  | nil =>
    intro b c hab hbc
    cases b with
    | nil => cases hab
    | cons b0 bs =>
      cases c with
      | nil => cases hbc
      | cons c0 cs => rfl
  | cons a0 as ih =>
    intro b c hab hbc
    cases b with
    | nil => cases hab
    | cons b0 bs =>
      cases c with
      | nil => cases hbc
      | cons c0 cs =>
        unfold charListLt at hab hbc ⊢
        by_cases h1 : a0 < b0
        · by_cases h2 : b0 < c0
          · simp [lt_trans h1 h2]
          · by_cases h3 : c0 < b0
            · simp only [h2, h3, if_true, if_false] at hbc
              cases hbc
            · have hbc0 : b0 = c0 := le_antisymm (not_lt.mp h3) (not_lt.mp h2)
              subst hbc0
              simp [h1]
        · by_cases h1' : b0 < a0
          · simp only [h1, h1', if_true, if_false] at hab
            cases hab
          · have hab0 : a0 = b0 := le_antisymm (not_lt.mp h1') (not_lt.mp h1)
            subst hab0
            simp only [h1, if_false, lt_irrefl, ite_false] at hab
            by_cases h2 : a0 < c0
            · simp [h2]
            · by_cases h3 : c0 < a0
              · simp only [h2, h3, if_true, if_false] at hbc
                cases hbc
              · have hac0 : a0 = c0 := le_antisymm (not_lt.mp h3) (not_lt.mp h2)
                subst hac0
                simp only [lt_irrefl, ite_false, if_false] at hbc ⊢
                exact ih bs cs hab hbc

theorem strLe_total (a b : String) : strLe a b = true ∨ strLe b a = true := by
  unfold strLe
  rcases charListLt_trichotomy b.toList a.toList with h | h | h
  · right
    rw [charListLt_asymm _ _ h]
    rfl
  · left
    rw [charListLt_asymm _ _ h]
    rfl
  · left
    rw [h, charListLt_irrefl]
    rfl

theorem strLe_trans (a b c : String) (hab : strLe a b = true) (hbc : strLe b c = true) :
    strLe a c = true := by
  unfold strLe at hab hbc ⊢
  by_cases hca : charListLt c.toList a.toList = true
  · exfalso
    rcases charListLt_trichotomy a.toList b.toList with h | h | h
    · have := charListLt_trans _ _ _ hca h
      rw [this] at hbc
      cases hbc
    · rw [h] at hab
      cases hab
    · rw [← h] at hbc
      rw [hca] at hbc
      cases hbc
  · simp only [Bool.not_eq_true] at hca
    rw [hca]
    rfl

theorem strLe_refl (a : String) : strLe a a = true := by
  unfold strLe
  rw [charListLt_irrefl]
  rfl

theorem msgKeyLe_total (a b : ℤ ⊕ String) : msgKeyLe a b = true ∨ msgKeyLe b a = true := by
  cases a with
  | inl x =>
    cases b with
    | inl y =>
      unfold msgKeyLe
      rcases le_total x y with h | h
      · left; simpa
      · right; simpa
    | inr y => left; rfl
  | inr x =>
    cases b with
    | inl y => right; rfl
    | inr y => exact strLe_total x y

theorem msgKeyLe_trans (a b c : ℤ ⊕ String) (hab : msgKeyLe a b = true)
    (hbc : msgKeyLe b c = true) : msgKeyLe a c = true := by
  cases a with
  | inl x =>
    cases c with
    | inl z =>
      cases b with
      | inl y =>
        unfold msgKeyLe at hab hbc ⊢
        simp only [decide_eq_true_eq] at hab hbc ⊢
        omega
      | inr y => cases hbc
    | inr z => rfl
  | inr x =>
    cases b with
    | inl y => cases hab
    | inr y =>
      cases c with
      | inl z => cases hbc
      | inr z => exact strLe_trans x y z hab hbc

theorem msgLe_total (a b : Message) : msgLe a b = true ∨ msgLe b a = true :=
  msgKeyLe_total _ _

theorem msgLe_trans (a b c : Message) (hab : msgLe a b = true) (hbc : msgLe b c = true) :
    msgLe a c = true :=
  msgKeyLe_trans _ _ _ hab hbc

/-! ### Stable-sort correctness -/

theorem pairwise_insertStable {α : Type} (le : α → α → Bool)
    (htot : ∀ a b, le a b = true ∨ le b a = true)
    (htrans : ∀ a b c, le a b = true → le b c = true → le a c = true)
    (x : α) (l : List α) (hl : l.Pairwise (fun a b => le a b = true)) :
    (insertStable le x l).Pairwise (fun a b => le a b = true) := by
  induction l with
  | nil => simp [insertStable]
  | cons y ys ih =>
    unfold insertStable
    by_cases h : le y x = true
    · rw [if_pos h]
      rw [List.pairwise_cons] at hl ⊢
      constructor
      · intro z hz
        rcases List.mem_cons.mp ((insertStable_perm le x ys).mem_iff.mp hz) with hz1 | hz2
        · exact hz1 ▸ h
        · exact hl.1 z hz2
      · exact ih hl.2
    · rw [if_neg h]
      have hxy : le x y = true := by
        rcases htot x y with ht | ht
        · exact ht
        · exact absurd ht h
      rw [List.pairwise_cons]
      constructor
      · intro z hz
        rcases List.mem_cons.mp hz with hz1 | hz2
        · exact hz1 ▸ hxy
        · exact htrans x y z hxy ((List.pairwise_cons.mp hl).1 z hz2)
      · exact hl

theorem pairwise_stableSort {α : Type} (le : α → α → Bool)
    (htot : ∀ a b, le a b = true ∨ le b a = true)
    (htrans : ∀ a b c, le a b = true → le b c = true → le a c = true)
    (l : List α) : (stableSort le l).Pairwise (fun a b => le a b = true) := by
  unfold stableSort
  suffices aux : ∀ (l : List α) (acc : List α),
      acc.Pairwise (fun a b => le a b = true) →
      (l.foldl (fun a x => insertStable le x a) acc).Pairwise
        (fun a b => le a b = true) by
    exact aux l [] List.Pairwise.nil
  intro l
  induction l with
  | nil => exact fun acc h => h
  | cons x xs ih =>
    intro acc hacc
    exact ih _ (pairwise_insertStable le htot htrans x acc hacc)

theorem msgKeyLe_refl (k : ℤ ⊕ String) : msgKeyLe k k = true := by
  cases k with
  | inl x => simp [msgKeyLe]
  | inr x => exact strLe_refl x

theorem insertStable_filter_msg (x : Message) (l : List Message)
    (hl : l.Pairwise (fun a b => msgLe a b = true)) (K : ℤ ⊕ String) :
    (insertStable msgLe x l).filter (fun m => decide (msg_sort_key m = K))
      = if msg_sort_key x = K
        then l.filter (fun m => decide (msg_sort_key m = K)) ++ [x]
        else l.filter (fun m => decide (msg_sort_key m = K)) := by
  induction l with
  | nil =>
    unfold insertStable
    by_cases hK : msg_sort_key x = K <;> simp [hK]
  | cons y ys ih =>
    unfold insertStable
    by_cases h : msgLe y x = true
    · rw [if_pos h]
      rw [List.filter_cons, List.filter_cons]
      by_cases hy : msg_sort_key y = K
      · simp only [hy, decide_True, if_true]
        rw [ih (List.pairwise_cons.mp hl).2]
        by_cases hK : msg_sort_key x = K
        · simp [hK]
        · simp [hK]
      · simp only [hy, decide_False, Bool.false_eq_true, if_false]
        exact ih (List.pairwise_cons.mp hl).2
    · rw [if_neg h]
      by_cases hK : msg_sort_key x = K
      · have hyK : ¬ (msg_sort_key y = K) := by
          intro hc
          apply h
          unfold msgLe
          rw [hc, hK]
          exact msgKeyLe_refl K
        have hys : ∀ z ∈ ys, ¬ (msg_sort_key z = K) := by
          intro z hz hc
          apply h
          have hyz := (List.pairwise_cons.mp hl).1 z hz
          unfold msgLe at hyz ⊢
          rw [hc] at hyz
          rw [hK]
          exact hyz
        have hfil : (y :: ys).filter (fun m => decide (msg_sort_key m = K)) = [] := by
          rw [List.filter_eq_nil_iff]
          intro z hz
          rcases List.mem_cons.mp hz with hz1 | hz2
          · simp [hz1, hyK]
          · simp [hys z hz2]
        rw [List.filter_cons]
        simp only [hK, if_pos rfl, decide_True, if_true, hfil]
        rfl
      · rw [List.filter_cons]
        simp [hK]

theorem stableSort_append_singleton {α : Type} (le : α → α → Bool) (xs : List α) (x : α) :
    stableSort le (xs ++ [x]) = insertStable le x (stableSort le xs) := by
  unfold stableSort
  rw [List.foldl_append]
  rfl

theorem stableSort_filter_msg (l : List Message) (K : ℤ ⊕ String) :
    (stableSort msgLe l).filter (fun m => decide (msg_sort_key m = K))
      = l.filter (fun m => decide (msg_sort_key m = K)) := by
  induction l using List.reverseRecOn with
  | nil => rfl
  | append_singleton xs x ih =>
    rw [stableSort_append_singleton,
      insertStable_filter_msg x _ (pairwise_stableSort msgLe msgLe_total msgLe_trans xs),
      List.filter_append]
    by_cases hK : msg_sort_key x = K
    · simp [hK, ih]
    · simp [hK, ih]

/-! ### Descending-sort order -/

theorem pairwise_insertDescBy {α β : Type} [LinearOrder β] (key : α → β) (x : α)
    (l : List α) (hl : l.Pairwise (fun a b => key b ≤ key a)) :
    (insertDescBy key x l).Pairwise (fun a b => key b ≤ key a) := by
  induction l with
  | nil => simp [insertDescBy]
  | cons y ys ih =>
    unfold insertDescBy
    by_cases h : key x ≤ key y
    · rw [if_pos (by simpa using h)]
      rw [List.pairwise_cons] at hl ⊢
      constructor
      · intro z hz
        rcases List.mem_cons.mp ((insertDescBy_perm key x ys).mem_iff.mp hz) with hz1 | hz2
        · exact hz1 ▸ h
        · exact hl.1 z hz2
      · exact ih hl.2
    · rw [if_neg (by simpa using h)]
      have hyx : key y ≤ key x := le_of_not_le h
      rw [List.pairwise_cons]
      constructor
      · intro z hz
        rcases List.mem_cons.mp hz with hz1 | hz2
        · exact hz1 ▸ hyx
        · exact le_trans ((List.pairwise_cons.mp hl).1 z hz2) hyx
      · exact hl

theorem pairwise_sortDescBy {α β : Type} [LinearOrder β] (key : α → β) (l : List α) :
    (sortDescBy key l).Pairwise (fun a b => key b ≤ key a) := by
  unfold sortDescBy
  suffices aux : ∀ (l : List α) (acc : List α),
      acc.Pairwise (fun a b => key b ≤ key a) →
      (l.foldl (fun a x => insertDescBy key x a) acc).Pairwise
        (fun a b => key b ≤ key a) by
    exact aux l [] List.Pairwise.nil
  intro l
  induction l with
  | nil => exact fun acc h => h
  | cons x xs ih =>
    intro acc hacc
    exact ih _ (pairwise_insertDescBy key x acc hacc)

/-! ### Top-active-user lemmas -/

theorem getv_bumpNat {κ : Type} [BEq κ] [LawfulBEq κ] [DecidableEq κ]
    (m : List (κ × ℕ)) (k p : κ) :
    getv (bumpNat m k) p =
      if p = k then some (getD m p 0 + 1) else getv m p := by
  induction m with
  | nil =>
    by_cases h : p = k
    · subst h; simp [bumpNat, getv_cons, getD, getv]
    · have : ¬ (k == p) := by simp [beq_iff_eq]; exact fun hc => h hc.symm
      simp [bumpNat, getv_cons, this, h, getv]
  | cons e rest ih =>
    by_cases he : e.1 = k
    · by_cases hp : p = k
      · have hep : (e.1 == p) = true := by simp [beq_iff_eq, he, hp]
        simp [bumpNat, beq_iff_eq, he, getv_cons, hep, hp, getD]
      · have hep : ¬ (e.1 == p) := by simp [beq_iff_eq, he]; exact fun hc => hp hc.symm
        have hkp : ¬ k = p := fun hc => hp hc.symm
        simp [bumpNat, beq_iff_eq, he, getv_cons, hep, hp, hkp]
    · by_cases hep : e.1 = p
      · have hp : ¬ p = k := fun hc => he (hep.trans hc)
        simp [bumpNat, beq_iff_eq, he, getv_cons, hep, hp]
      · simp [bumpNat, beq_iff_eq, he, getv_cons, hep, ih, getD]

theorem getD_bumpNat {κ : Type} [BEq κ] [LawfulBEq κ] [DecidableEq κ]
    (m : List (κ × ℕ)) (k p : κ) :
    getD (bumpNat m k) p 0 = if p = k then getD m p 0 + 1 else getD m p 0 := by
  rw [getD_def, getv_bumpNat]
  by_cases h : p = k <;> simp [h, getD_def]

/-- The per-sender message-count table of `load_messages`. -/
def user_counts (msgs : List Message) : List (String × ℕ) :=
  msgs.foldl (fun m msg => if msg.qq != "" then bumpNat m msg.qq else m) []

theorem user_counts_getD_aux (msgs : List Message) (u : String) (hu : u ≠ "") :
    ∀ acc : List (String × ℕ),
      getD (msgs.foldl (fun m msg => if msg.qq != "" then bumpNat m msg.qq else m) acc) u 0
        = getD acc u 0 + countMsgs msgs u := by
  induction msgs with
  | nil => intro acc; simp [countMsgs]
  | cons msg rest ih =>
    intro acc
    simp only [List.foldl_cons]
    by_cases hq : msg.qq = ""
    · have hne : ¬ (msg.qq != "") = true := by simp [hq]
      rw [if_neg hne, ih acc]
      have : ¬ (msg.qq == u) := by simp [beq_iff_eq, hq]; exact fun hc => hu hc.symm
      simp only [countMsgs, List.filter_cons, this, Bool.false_eq_true, if_false]
    · have hne : (msg.qq != "") = true := by simp [hq]
      rw [if_pos hne, ih _]
      rw [getD_bumpNat]
      by_cases huq : u = msg.qq
      · subst huq
        simp only [if_pos rfl, countMsgs, List.filter_cons, beq_self_eq_true, if_true,
          List.length_cons]
        omega
      · have : ¬ (msg.qq == u) := by simp [beq_iff_eq]; exact fun hc => huq hc.symm
        simp only [huq, if_false, countMsgs, List.filter_cons, this, Bool.false_eq_true,
          if_false]

theorem user_counts_getD (msgs : List Message) (u : String) (hu : u ≠ "") :
    getD (user_counts msgs) u 0 = countMsgs msgs u := by
  have := user_counts_getD_aux msgs u hu []
  simpa [user_counts, getD_def, getv] using this

theorem user_counts_keys_ne_empty (msgs : List Message) :
    ∀ v ∈ keys (user_counts msgs), v ≠ "" := by
  unfold user_counts
  suffices aux : ∀ (msgs : List Message) (acc : List (String × ℕ)),
      (∀ v ∈ keys acc, v ≠ "") →
      ∀ v ∈ keys (msgs.foldl
        (fun m msg => if msg.qq != "" then bumpNat m msg.qq else m) acc), v ≠ "" by
    exact aux msgs [] (by simp [keys])
  intro msgs
  induction msgs with
  | nil => exact fun acc h => h
  | cons msg rest ih =>
    intro acc hacc
    simp only [List.foldl_cons]
    apply ih
    by_cases hq : msg.qq = ""
    · have hne : ¬ (msg.qq != "") = true := by simp [hq]
      rw [if_neg hne]
      exact hacc
    · have hne : (msg.qq != "") = true := by simp [hq]
      rw [if_pos hne]
      intro v hv
      rcases (mem_keys_bumpNat acc msg.qq v).mp hv with h | h
      · exact hacc v h
      · exact h ▸ hq

theorem user_counts_nodup_keys (msgs : List Message) :
    (keys (user_counts msgs)).Nodup := by
  unfold user_counts
  suffices aux : ∀ (msgs : List Message) (acc : List (String × ℕ)),
      (keys acc).Nodup →
      (keys (msgs.foldl
        (fun m msg => if msg.qq != "" then bumpNat m msg.qq else m) acc)).Nodup by
    exact aux msgs [] (by simp [keys])
  intro msgs
  induction msgs with
  | nil => exact fun acc h => h
  | cons msg rest ih =>
    intro acc hacc
    simp only [List.foldl_cons]
    apply ih
    by_cases hq : (msg.qq != "") = true
    · rw [if_pos hq]
      exact nodup_keys_bumpNat acc msg.qq hacc
    · rw [if_neg hq]
      exact hacc

theorem user_counts_entry (msgs : List Message) (e : String × ℕ)
    (he : e ∈ user_counts msgs) : e.1 ≠ "" ∧ e.2 = countMsgs msgs e.1 := by
  have hne : e.1 ≠ "" :=
    user_counts_keys_ne_empty msgs e.1 (List.mem_map_of_mem Prod.fst he)
  have hv := getv_of_mem_nodup _ e he (user_counts_nodup_keys msgs)
  have : getD (user_counts msgs) e.1 0 = e.2 := by simp [getD_def, hv]
  rw [user_counts_getD msgs e.1 hne] at this
  exact ⟨hne, this.symm⟩

/-- The Top-N table is within its cap, and no excluded (non-empty) sender
outcounts an included one. -/
theorem top_active_users_spec (cfg : Config) (msgs : List Message) :
    (top_active_users cfg msgs).length ≤ max 1 cfg.max_nodes_for_viz
      ∧ ∀ u ∈ top_active_users cfg msgs, ∀ v : String,
          v ∉ top_active_users cfg msgs → v ≠ "" →
          countMsgs msgs v ≤ countMsgs msgs u := by
  constructor
  · unfold top_active_users
    rw [List.length_map]
    exact List.length_take_le _ _
  · intro u hu v hv hvne
    by_cases hvc : countMsgs msgs v = 0
    · rw [hvc]; omega
    · unfold top_active_users at hu hv
      set S := sortDescBy (fun x => x.2) (user_counts msgs) with hS
      set n := max 1 cfg.max_nodes_for_viz with hn
      rcases List.mem_map.mp hu with ⟨eu, heu, heuu⟩
      have heuS : eu ∈ user_counts msgs :=
        (sortDescBy_perm _ _).mem_iff.mp (List.take_subset _ _ heu)
      have hequ := user_counts_entry msgs eu heuS
      -- locate v's entry
      have hvD : getD (user_counts msgs) v 0 = countMsgs msgs v :=
        user_counts_getD msgs v hvne
      have hvg : getv (user_counts msgs) v = some (countMsgs msgs v) := by
        rw [getD_def] at hvD
        cases hgv : getv (user_counts msgs) v with
        | none => rw [hgv] at hvD; simp at hvD; exact absurd hvD.symm hvc
        | some c => rw [hgv] at hvD; simp at hvD; rw [hvD]
      rcases getv_some_exists hvg with ⟨ev, hev, hevk, hevv⟩
      have hevS : ev ∈ S := (sortDescBy_perm _ _).mem_iff.mpr hev
      have hev1 : ev.1 = v := by simpa using hevk
      have hnotin : ev ∉ S.take n := by
        intro hc
        exact hv (List.mem_map.mpr ⟨ev, hc, hev1⟩)
      have hdrop : ev ∈ S.drop n := by
        rcases (List.mem_append.mp (by
          rw [List.take_append_drop]
          exact hevS : ev ∈ S.take n ++ S.drop n)) with h | h
        · exact absurd h hnotin
        · exact h
      have hpair : (S.take n ++ S.drop n).Pairwise (fun a b => b.2 ≤ a.2) := by
        rw [List.take_append_drop]
        exact pairwise_sortDescBy _ _
      have hcross := (List.pairwise_append.mp hpair).2.2
      have hle : ev.2 ≤ eu.2 := hcross eu heu ev hdrop
      rw [hevv] at hle
      rw [← heuu, ← hequ.2]
      exact hle

/-! ### Claim C9 -/

/-- Claim C9: with `limit_compute` off, `load_messages` keeps every message
and stably sorts by the `(0, timestamp_ms)` / `(1, time)` key: the stored
list is a permutation of the input, sorted under the key order, and
preserves the input's relative order within every key class.  With
`limit_compute` on, the stored list is the sorted list restricted to the
`max(1, max_nodes_for_viz)` most active senders: no kept sender is
outcounted by a dropped one. -/
theorem C9_load_messages_spec (cfg : Config) (messages : List Message) :
    (cfg.limit_compute = false →
        (load_messages cfg messages).Perm messages
          ∧ (load_messages cfg messages).Pairwise (fun a b => msgLe a b = true)
          ∧ ∀ K : ℤ ⊕ String,
              (load_messages cfg messages).filter (fun m => decide (msg_sort_key m = K))
                = messages.filter (fun m => decide (msg_sort_key m = K)))
      ∧ (cfg.limit_compute = true →
          load_messages cfg messages
              = (stableSort msgLe messages).filter
                  (fun m => (top_active_users cfg (stableSort msgLe messages)).contains m.qq)
            ∧ (top_active_users cfg (stableSort msgLe messages)).length
                ≤ max 1 cfg.max_nodes_for_viz
            ∧ ∀ u ∈ top_active_users cfg (stableSort msgLe messages), ∀ v : String,
                v ∉ top_active_users cfg (stableSort msgLe messages) → v ≠ "" →
                countMsgs messages v ≤ countMsgs messages u) := by
  constructor
  · intro hoff
    have hload : load_messages cfg messages = stableSort msgLe messages := by
      unfold load_messages
      rw [hoff]
      rfl
    rw [hload]
    exact ⟨stableSort_perm msgLe messages,
      pairwise_stableSort msgLe msgLe_total msgLe_trans messages,
      fun K => stableSort_filter_msg messages K⟩
  · intro hon
    have hload : load_messages cfg messages
        = (stableSort msgLe messages).filter
            (fun m => (top_active_users cfg (stableSort msgLe messages)).contains m.qq) := by
      unfold load_messages
      rw [hon]
      rfl
    have hspec := top_active_users_spec cfg (stableSort msgLe messages)
    have hcount : ∀ w : String,
        countMsgs (stableSort msgLe messages) w = countMsgs messages w := by
      intro w
      unfold countMsgs
      exact ((stableSort_perm msgLe messages).filter _).length_eq
    refine ⟨hload, hspec.1, ?_⟩
    intro u hu v hv hvne
    rw [← hcount u, ← hcount v]
    exact hspec.2 u hu v hv hvne

/-- Witness for C9: a concrete two-message list is kept whole and sorted
when `limit_compute` is off. -/
theorem C9_witness :
    (load_messages base_cfg c1_messages).Perm c1_messages
      ∧ (load_messages base_cfg c1_messages).Pairwise (fun a b => msgLe a b = true)
      ∧ ∀ K : ℤ ⊕ String,
          (load_messages base_cfg c1_messages).filter (fun m => decide (msg_sort_key m = K))
            = c1_messages.filter (fun m => decide (msg_sort_key m = K)) :=
  (C9_load_messages_spec base_cfg c1_messages).1 rfl

/-! ### Adjacency and degree-table characterization -/

theorem strLe_antisymm (a b : String) (hab : strLe a b = true) (hba : strLe b a = true) :
    a = b := by
  unfold strLe at hab hba
  rcases charListLt_trichotomy a.toList b.toList with h | h | h
  · rw [h] at hba
    cases hba
  · rw [h] at hab
    cases hab
  · obtain ⟨da⟩ := a
    obtain ⟨db⟩ := b
    have hd : da = db := by simpa using h
    rw [hd]

theorem bump_bump_same {κ : Type} [BEq κ] [LawfulBEq κ] (m : List (κ × ℚ)) (u : κ)
    (x y : ℚ) :
    bump (bump m u x) u y = bump m u (x + y) := by
  induction m with
  | nil => simp [bump, add_assoc]
  | cons e rest ih =>
    by_cases he : (e.1 == u) = true
    · simp [bump, he, add_assoc]
    · simp [bump, he, ih]

theorem bump_fresh {κ : Type} [BEq κ] [LawfulBEq κ] (m : List (κ × ℚ)) (u : κ) (x : ℚ)
    (h : u ∉ keys m) : bump m u x = m ++ [(u, x)] := by
  induction m with
  | nil => rfl
  | cons e rest ih =>
    simp only [keys, List.map_cons, List.mem_cons, not_or] at h
    have : ¬ (e.1 == u) := by simp [beq_iff_eq]; exact fun hc => h.1 hc.symm
    simp only [bump, this, Bool.false_eq_true, if_false, List.cons_append]
    rw [ih (by simpa [keys] using h.2)]

theorem foldl_bump_const_key (u : String) (f : String → ℚ) (l : List String)
    (m : List (String × ℚ)) (hl : l ≠ []) :
    l.foldl (fun m2 b => bump m2 u (f b)) m = bump m u ((l.map f).sum) := by
  induction l generalizing m with
  | nil => exact absurd rfl hl
  | cons b bs ih =>
    cases bs with
    | nil => simp [bump]
    | cons c cs =>
      rw [List.foldl_cons]
      rw [ih _ (by simp)]
      rw [bump_bump_same]
      simp [add_assoc]

theorem adjGet_adjInsert (m : AdjMap) (a b u : String) :
    adjGet (adjInsert m a b) u
      = if u = a then
          (if (adjGet m a).contains b then adjGet m a else adjGet m a ++ [b])
        else adjGet m u := by
  induction m with
  | nil =>
    by_cases h : u = a
    · subst h
      simp [adjInsert, adjGet, getv_cons, getv]
    · have : ¬ (a == u) := by simp [beq_iff_eq]; exact fun hc => h hc.symm
      simp [adjInsert, adjGet, getv_cons, this, h, getv]
  | cons e rest ih =>
    by_cases he : e.1 = a
    · by_cases hu : u = a
      · subst hu; subst he
        simp [adjInsert, adjGet, getv_cons, getv]
      · have hne : ¬ (e.1 == u) := by simp [beq_iff_eq, he]; exact fun hc => hu hc.symm
        have hau : ¬ a = u := fun hc => hu hc.symm
        simp only [adjInsert, beq_iff_eq, he, if_true]
        simp [adjGet, getv_cons, hne, hu, he, hau]
    · by_cases hu : u = a
      · subst hu
        have hne : ¬ (e.1 == u) := by simp [beq_iff_eq]; exact he
        simp only [adjInsert, beq_iff_eq, he, if_false]
        simp only [adjGet, getv_cons, hne, Bool.false_eq_true, if_false] at ih ⊢
        simpa using ih
      · by_cases heu : e.1 = u
        · subst heu
          simp only [adjInsert, beq_iff_eq, he, if_false]
          simp [adjGet, getv_cons, hu]
        · have hne : ¬ (e.1 == u) := by simp [beq_iff_eq, heu]
          simp only [adjInsert, beq_iff_eq, he, if_false]
          simp only [adjGet, getv_cons, hne, Bool.false_eq_true, if_false] at ih ⊢
          simpa [hu] using ih

theorem mem_adjGet_adjInsert (m : AdjMap) (a b u v : String) :
    v ∈ adjGet (adjInsert m a b) u ↔ v ∈ adjGet m u ∨ (u = a ∧ v = b) := by
  rw [adjGet_adjInsert]
  by_cases h : u = a
  · subst h
    by_cases hc : (adjGet m u).contains b = true
    · have hb : b ∈ adjGet m u := by simpa using hc
      rw [if_pos rfl, if_pos hc]
      constructor
      · exact Or.inl
      · rintro (hv | ⟨-, rfl⟩)
        · exact hv
        · exact hb
    · rw [if_pos rfl, if_neg hc]
      constructor
      · intro hv
        rcases List.mem_append.mp hv with hv | hv
        · exact Or.inl hv
        · exact Or.inr ⟨rfl, by simpa using hv⟩
      · rintro (hv | ⟨-, rfl⟩)
        · exact List.mem_append_left _ hv
        · exact List.mem_append_right _ (List.mem_singleton_self _)
  · rw [if_neg h]
    simp [h]

theorem mem_adjGet_build (es : WMap) (u v : String) :
    v ∈ adjGet (build_adj_list es) u ↔ ∃ e ∈ es, e.1 = (u, v) ∨ e.1 = (v, u) := by
  unfold build_adj_list
  suffices aux : ∀ (es : WMap) (m : AdjMap),
      (v ∈ adjGet (es.foldl (fun m e => adjInsert (adjInsert m e.1.1 e.1.2) e.1.2 e.1.1) m) u
        ↔ v ∈ adjGet m u ∨ ∃ e ∈ es, e.1 = (u, v) ∨ e.1 = (v, u)) by
    rw [aux es []]
    simp [adjGet, getv]
  intro es
  induction es with
  | nil => simp
  | cons e rest ih =>
    intro m
    simp only [List.foldl_cons]
    rw [ih]
    rw [mem_adjGet_adjInsert, mem_adjGet_adjInsert]
    simp only [List.mem_cons]
    constructor
    · rintro (((hv | ⟨hu, hv⟩) | ⟨hu, hv⟩) | ⟨f, hf, hor⟩)
      · exact Or.inl hv
      · exact Or.inr ⟨e, Or.inl rfl, Or.inl (by rw [hu, hv])⟩
      · exact Or.inr ⟨e, Or.inl rfl, Or.inr (by rw [hu, hv])⟩
      · exact Or.inr ⟨f, Or.inr hf, hor⟩
    · rintro (hv | ⟨f, hf | hf, hor⟩)
      · exact Or.inl (Or.inl (Or.inl hv))
      · subst hf
        rcases hor with hor | hor
        · exact Or.inl (Or.inl (Or.inr
            ⟨(congrArg Prod.fst hor).symm, (congrArg Prod.snd hor).symm⟩))
        · exact Or.inl (Or.inr
            ⟨(congrArg Prod.snd hor).symm, (congrArg Prod.fst hor).symm⟩)
      · exact Or.inr ⟨f, hf, hor⟩

/-- Canonical edge maps: every key is a strictly sorted pair of distinct
users, as `tuple(sorted(...))` keys of distinct senders always are. -/
def strictPairs (es : WMap) : Prop :=
  ∀ e ∈ es, strLe e.1.1 e.1.2 = true ∧ e.1.1 ≠ e.1.2

instance : DecidablePred strictPairs := fun es =>
  List.decidableBAll _ es

theorem build_adj_list_append (xs : WMap) (e : Pair × ℚ) :
    build_adj_list (xs ++ [e])
      = adjInsert (adjInsert (build_adj_list xs) e.1.1 e.1.2) e.1.2 e.1.1 := by
  unfold build_adj_list
  rw [List.foldl_append]
  rfl

theorem build_edge_weights_append (xs : WMap) (e : Pair × ℚ) :
    build_edge_weights (xs ++ [e])
      = setv (setv (build_edge_weights xs) (e.1.1, e.1.2) e.2) (e.1.2, e.1.1) e.2 := by
  unfold build_edge_weights
  rw [List.foldl_append]
  rfl

theorem keys_append_one {κ ν : Type} (xs : List (κ × ν)) (e : κ × ν) :
    keys (xs ++ [e]) = keys xs ++ [e.1] := by
  simp [keys]

theorem nodup_keys_split {κ ν : Type} (xs : List (κ × ν)) (e : κ × ν)
    (hnd : (keys (xs ++ [e])).Nodup) : (keys xs).Nodup ∧ e.1 ∉ keys xs := by
  rw [keys_append_one] at hnd
  rcases List.nodup_append.mp hnd with ⟨h1, -, h3⟩
  exact ⟨h1, fun hc => h3 hc (List.mem_singleton_self _)⟩

theorem fresh_partner (xs : WMap) (e : Pair × ℚ)
    (hstrict : strictPairs (xs ++ [e])) (hnd : (keys (xs ++ [e])).Nodup) :
    e.1.2 ∉ adjGet (build_adj_list xs) e.1.1
      ∧ e.1.1 ∉ adjGet (build_adj_list xs) e.1.2 := by
  have hes := hstrict e (List.mem_append_right _ (List.mem_singleton_self e))
  have hfresh : e.1 ∉ keys xs := (nodup_keys_split xs e hnd).2
  constructor
  · intro hc
    rcases (mem_adjGet_build xs e.1.1 e.1.2).mp hc with ⟨f, hf, hor | hor⟩
    · apply hfresh
      have hm : f.1 ∈ keys xs := List.mem_map_of_mem Prod.fst hf
      rw [hor, Prod.mk.eta] at hm
      exact hm
    · have hfs := hstrict f (List.mem_append_left _ hf)
      rw [hor] at hfs
      exact hes.2 (strLe_antisymm _ _ hes.1 hfs.1)
  · intro hc
    rcases (mem_adjGet_build xs e.1.2 e.1.1).mp hc with ⟨f, hf, hor | hor⟩
    · have hfs := hstrict f (List.mem_append_left _ hf)
      rw [hor] at hfs
      exact hes.2 (strLe_antisymm _ _ hes.1 hfs.1)
    · apply hfresh
      have hm : f.1 ∈ keys xs := List.mem_map_of_mem Prod.fst hf
      rw [hor, Prod.mk.eta] at hm
      exact hm

theorem adjGet_build_eq (es : WMap) (hstrict : strictPairs es)
    (hnd : (keys es).Nodup) (u : String) :
    adjGet (build_adj_list es) u
      = (es.filter (fun e => e.1.1 == u || e.1.2 == u)).map
          (fun e => if e.1.1 == u then e.1.2 else e.1.1) := by
  induction es using List.reverseRecOn with
  | nil => rfl
  | append_singleton xs e ih =>
    have hstrict' : strictPairs xs := fun f hf => hstrict f (List.mem_append_left _ hf)
    have hnd' : (keys xs).Nodup := (nodup_keys_split xs e hnd).1
    have hes := hstrict e (List.mem_append_right _ (List.mem_singleton_self e))
    have hfp := fresh_partner xs e hstrict hnd
    rw [build_adj_list_append, List.filter_append, List.map_append]
    rw [adjGet_adjInsert]
    by_cases hu2 : u = e.1.2
    · rw [if_pos hu2]
      rw [adjGet_adjInsert]
      have hne : ¬ (e.1.2 = e.1.1) := fun hc => hes.2 hc.symm
      rw [if_neg hne]
      have hnc : ¬ ((adjGet (build_adj_list xs) e.1.2).contains e.1.1 = true) := by
        simpa using hfp.2
      rw [if_neg hnc, ← hu2, ih hstrict' hnd']
      have hb1 : (e.1.1 == u) = false := by
        simp [beq_iff_eq, hu2]
        exact hes.2
      have hb2 : (e.1.2 == u) = true := by simp [beq_iff_eq, hu2]
      have hq : ¬ (e.1.1 = u) := by simpa using hb1
      rw [hu2]
      simp [hb1, hb2, hq, ← hu2]
    · rw [if_neg hu2]
      rw [adjGet_adjInsert]
      by_cases hu1 : u = e.1.1
      · rw [if_pos hu1]
        have hnc : ¬ ((adjGet (build_adj_list xs) e.1.1).contains e.1.2 = true) := by
          simpa using hfp.1
        rw [if_neg hnc, ← hu1, ih hstrict' hnd']
        have hb1 : (e.1.1 == u) = true := by simp [beq_iff_eq, hu1]
        rw [hu1]
        simp [hb1, ← hu1]
      · rw [if_neg hu1, ih hstrict' hnd']
        have hb1 : (e.1.1 == u) = false := by
          simp [beq_iff_eq]
          exact fun hc => hu1 hc.symm
        have hb2 : (e.1.2 == u) = false := by
          simp [beq_iff_eq]
          exact fun hc => hu2 hc.symm
        simp [hb1, hb2]

theorem ew_build_lookup (es : WMap) (hstrict : strictPairs es)
    (hnd : (keys es).Nodup) :
    ∀ e ∈ es, getv (build_edge_weights es) (e.1.1, e.1.2) = some e.2
      ∧ getv (build_edge_weights es) (e.1.2, e.1.1) = some e.2 := by
  induction es using List.reverseRecOn with
  | nil => intro e he; cases he
  | append_singleton xs e ih =>
    have hstrict' : strictPairs xs := fun f hf => hstrict f (List.mem_append_left _ hf)
    have hnd' : (keys xs).Nodup := (nodup_keys_split xs e hnd).1
    have hes := hstrict e (List.mem_append_right _ (List.mem_singleton_self e))
    have hfresh : e.1 ∉ keys xs := (nodup_keys_split xs e hnd).2
    intro f hf
    rw [build_edge_weights_append]
    rcases List.mem_append.mp hf with hfx | hfe
    · have hfs := hstrict f (List.mem_append_left _ hfx)
      have hne1 : ¬ ((f.1.1, f.1.2) = (e.1.2, e.1.1)) := by
        intro hc
        simp only [Prod.mk.injEq] at hc
        apply hfs.2
        apply strLe_antisymm _ _ hfs.1
        rw [hc.1, hc.2]
        exact hes.1
      have hne2 : ¬ ((f.1.1, f.1.2) = (e.1.1, e.1.2)) := by
        intro hc
        apply hfresh
        have : f.1 = e.1 := by
          rcases f with ⟨⟨a, b⟩, w⟩
          rcases e with ⟨⟨c, d⟩, w2⟩
          simp only [Prod.mk.injEq] at hc ⊢
          exact hc
        have hm : f.1 ∈ keys xs := List.mem_map_of_mem Prod.fst hfx
        rw [this] at hm
        exact hm
      have hne3 : ¬ ((f.1.2, f.1.1) = (e.1.2, e.1.1)) := by
        intro hc
        apply hfresh
        have : f.1 = e.1 := by
          rcases f with ⟨⟨a, b⟩, w⟩
          rcases e with ⟨⟨c, d⟩, w2⟩
          simp only [Prod.mk.injEq] at hc ⊢
          exact ⟨hc.2, hc.1⟩
        have hm : f.1 ∈ keys xs := List.mem_map_of_mem Prod.fst hfx
        rw [this] at hm
        exact hm
      have hne4 : ¬ ((f.1.2, f.1.1) = (e.1.1, e.1.2)) := by
        intro hc
        simp only [Prod.mk.injEq] at hc
        apply hfs.2
        apply strLe_antisymm _ _ hfs.1
        rw [hc.2, hc.1]
        exact hes.1
      rw [getv_setv, getv_setv, getv_setv, getv_setv]
      rw [if_neg hne1, if_neg hne2, if_neg hne3, if_neg hne4]
      exact ih hstrict' hnd' f hfx
    · have hfe' : f = e := by simpa using hfe
      subst hfe'
      have hne : ¬ ((f.1.1, f.1.2) = (f.1.2, f.1.1)) := by
        intro hc
        simp only [Prod.mk.injEq] at hc
        exact hes.2 hc.1
      constructor
      · rw [getv_setv, if_neg hne, getv_setv, if_pos rfl]
      · rw [getv_setv, if_pos rfl]

theorem getD_eq_of_getv {κ ν : Type} [BEq κ] (m : List (κ × ν)) (k : κ) (d v : ν)
    (h : getv m k = some v) : getD m k d = v := by
  unfold getD
  rw [h]
  rfl

theorem adj_fold_sum (es : WMap) (hstrict : strictPairs es)
    (hnd : (keys es).Nodup) (u : String) (m : List (String × ℚ)) :
    (adjGet (build_adj_list es) u).foldl
        (fun m2 nb => bump m2 u (getD (build_edge_weights es) (u, nb) 1)) m
      = if (adjGet (build_adj_list es) u).isEmpty then m
        else bump m u (weighted_degree es u) := by
  by_cases he : (adjGet (build_adj_list es) u).isEmpty
  · have hl : adjGet (build_adj_list es) u = [] := by simpa [List.isEmpty_iff] using he
    rw [if_pos he, hl]
    rfl
  · rw [if_neg he]
    have hl : adjGet (build_adj_list es) u ≠ [] := by
      simpa [List.isEmpty_iff] using he
    rw [foldl_bump_const_key u _ _ m hl]
    congr 1
    rw [adjGet_build_eq es hstrict hnd u, List.map_map]
    unfold weighted_degree
    congr 1
    apply List.map_congr_left
    intro e hme
    have hme' : e ∈ es := List.mem_of_mem_filter hme
    have hcond := List.of_mem_filter hme
    have hlook := ew_build_lookup es hstrict hnd e hme'
    simp only [Function.comp]
    by_cases hb : (e.1.1 == u) = true
    · rw [if_pos hb]
      have h1 : e.1.1 = u := by simpa using hb
      rw [← h1]
      exact getD_eq_of_getv _ _ _ _ hlook.1
    · rw [if_neg hb]
      have h2 : e.1.2 = u := by
        simp only [Bool.or_eq_true] at hcond
        rcases hcond with hc | hc
        · exact absurd hc hb
        · simpa using hc
      rw [← h2]
      exact getD_eq_of_getv _ _ _ _ hlook.2

theorem degree_count_aux (es : WMap) (hstrict : strictPairs es)
    (hnd : (keys es).Nodup) :
    ∀ (nodes : List String) (m : List (String × ℚ)), nodes.Nodup →
      (∀ u ∈ nodes, u ∉ keys m) →
      nodes.foldl (fun m node =>
          (adjGet (build_adj_list es) node).foldl
            (fun m2 nb => bump m2 node (getD (build_edge_weights es) (node, nb) 1)) m) m
        = m ++ (nodes.filter
              (fun u => !(adjGet (build_adj_list es) u).isEmpty)).map
            (fun u => (u, weighted_degree es u)) := by
  intro nodes
  induction nodes with
  | nil => intro m _ _; simp
  | cons n rest ih =>
    intro m hnodup hfresh
    rw [List.foldl_cons, adj_fold_sum es hstrict hnd n m]
    by_cases he : (adjGet (build_adj_list es) n).isEmpty
    · rw [if_pos he]
      rw [ih m (List.Nodup.of_cons hnodup)
        (fun u hu => hfresh u (List.mem_cons_of_mem n hu))]
      simp [List.filter_cons, he]
    · rw [if_neg he]
      rw [bump_fresh m n _ (hfresh n (List.mem_cons_self n rest))]
      have hnr : n ∉ rest := (List.nodup_cons.mp hnodup).1
      rw [ih (m ++ [(n, weighted_degree es n)]) (List.Nodup.of_cons hnodup) ?_]
      · simp [List.filter_cons, he]
      · intro u hu
        rw [keys_append_one]
        intro hc
        rcases List.mem_append.mp hc with hc | hc
        · exact hfresh u (List.mem_cons_of_mem n hu) hc
        · exact hnr ((by simpa using hc : u = n) ▸ hu)

theorem degree_count_eq (es : WMap) (nodes : List String)
    (hstrict : strictPairs es) (hnd : (keys es).Nodup) (hnodes : nodes.Nodup) :
    degree_count nodes (build_adj_list es) (build_edge_weights es)
      = (nodes.filter
            (fun u => !(adjGet (build_adj_list es) u).isEmpty)).map
          (fun u => (u, weighted_degree es u)) := by
  unfold degree_count
  rw [degree_count_aux es hstrict hnd nodes [] hnodes (by simp [keys])]
  simp

theorem weighted_degree_pos (es : WMap) (u : String)
    (hpos : ∀ e ∈ es, 0 < e.2)
    (h : es.filter (fun e => e.1.1 == u || e.1.2 == u) ≠ []) :
    0 < weighted_degree es u := by
  unfold weighted_degree
  apply List.sum_pos
  · intro x hx
    rcases List.mem_map.mp hx with ⟨e, he, rfl⟩
    exact hpos e (List.mem_of_mem_filter he)
  · intro hc
    exact h (List.map_eq_nil.mp hc)

theorem adjGet_nonempty_iff (es : WMap) (hstrict : strictPairs es)
    (hnd : (keys es).Nodup) (u : String) :
    (!(adjGet (build_adj_list es) u).isEmpty) = true
      ↔ es.filter (fun e => e.1.1 == u || e.1.2 == u) ≠ [] := by
  rw [adjGet_build_eq es hstrict hnd u]
  simp [List.isEmpty_iff]

theorem degree_centrality_eq (st : NetworkStats)
    (hstrict : strictPairs st.edges) (hnd : (keys st.edges).Nodup)
    (hnodes : st.nodes.Nodup) (hn0 : st.total_nodes ≠ 0) :
    (calculate_centrality_measures st).degree_centrality
      = (st.nodes.filter
            (fun u => !(adjGet (build_adj_list st.edges) u).isEmpty)).map
          (fun u => (u, weighted_degree st.edges u / max_nonisolated_degree st)) := by
  have hb : ¬ ((st.total_nodes == 0) = true) := by simpa using hn0
  have key : (calculate_centrality_measures st).degree_centrality
      = (degree_count st.nodes (build_adj_list st.edges)
            (build_edge_weights st.edges)).map
          (fun e => (e.1, e.2 /
            (if (degree_count st.nodes (build_adj_list st.edges)
                  (build_edge_weights st.edges)).isEmpty then 1
             else listMaxD ((degree_count st.nodes (build_adj_list st.edges)
                  (build_edge_weights st.edges)).map (fun e => e.2)) 1))) := by
    unfold calculate_centrality_measures
    rw [if_neg hb]
  rw [key, degree_count_eq st.edges st.nodes hstrict hnd hnodes]
  have hM : (if ((st.nodes.filter
          (fun u => !(adjGet (build_adj_list st.edges) u).isEmpty)).map
            (fun u => (u, weighted_degree st.edges u))).isEmpty then (1 : ℚ)
        else listMaxD (((st.nodes.filter
          (fun u => !(adjGet (build_adj_list st.edges) u).isEmpty)).map
            (fun u => (u, weighted_degree st.edges u))).map (fun e => e.2)) 1)
      = max_nonisolated_degree st := by
    by_cases hF : st.nodes.filter
        (fun u => !(adjGet (build_adj_list st.edges) u).isEmpty) = []
    · rw [hF]
      simp [max_nonisolated_degree, hF, listMaxD]
    · have : ¬ (((st.nodes.filter
          (fun u => !(adjGet (build_adj_list st.edges) u).isEmpty)).map
            (fun u => (u, weighted_degree st.edges u))).isEmpty = true) := by
        simpa [List.isEmpty_iff] using hF
      rw [if_neg this]
      unfold max_nonisolated_degree
      rw [List.map_map]
      rfl
  rw [hM, List.map_map]
  rfl

theorem max_nonisolated_degree_ge (st : NetworkStats) (u : String)
    (hu : u ∈ st.nodes.filter
        (fun v => !(adjGet (build_adj_list st.edges) v).isEmpty)) :
    weighted_degree st.edges u ≤ max_nonisolated_degree st :=
  listMaxD_ge 1 _ (List.mem_map_of_mem _ hu)

theorem max_nonisolated_degree_pos (st : NetworkStats)
    (hstrict : strictPairs st.edges) (hnd : (keys st.edges).Nodup)
    (hpos : ∀ e ∈ st.edges, 0 < e.2)
    (hF : st.nodes.filter
        (fun v => !(adjGet (build_adj_list st.edges) v).isEmpty) ≠ []) :
    0 < max_nonisolated_degree st := by
  have hmem := listMaxD_mem (l := (st.nodes.filter
      (fun v => !(adjGet (build_adj_list st.edges) v).isEmpty)).map
        (fun u => weighted_degree st.edges u)) 1 (by simpa using hF)
  rcases List.mem_map.mp hmem with ⟨v, hv, hveq⟩
  have hvp : (!(adjGet (build_adj_list st.edges) v).isEmpty) = true :=
    (List.mem_filter.mp hv).2
  have hvpos : 0 < weighted_degree st.edges v :=
    weighted_degree_pos st.edges v hpos
      ((adjGet_nonempty_iff st.edges hstrict hnd v).mp hvp)
  rw [max_nonisolated_degree, ← hveq]
  exact hvpos

/-- A concrete pruned stats record with a path `a—b—c` and an isolated
node `z`, exercising every clause of the degree-centrality
characterisation. -/
def c3w_st : NetworkStats :=
  { total_nodes := 4
    nodes := ["a", "b", "c", "z"]
    edges := [(("a", "b"), 2), (("b", "c"), 1)] }

/-- C3, counterexample: on four mention exchanges `a—b, a—c, d—e, d—f`
with `max_nodes_for_viz = 2`, the node cap keeps the hub nodes `a` and `d`
but no edge survives between them, and the degree-centrality map after
`analyze()` is empty even though the pruned node list is not: the node `a`
of the pruned graph has no entry at all, rather than an entry of value 0. -/
theorem C3_counterexample :
    "a" ∈ (analyze c3_cfg c3_orders c3_picks (load_messages c3_cfg c3_messages)).nodes
      ∧ (analyze c3_cfg c3_orders c3_picks
          (load_messages c3_cfg c3_messages)).total_nodes = 2
      ∧ (analyze c3_cfg c3_orders c3_picks
          (load_messages c3_cfg c3_messages)).degree_centrality = [] := by
  decide

/-- C3 (corrected): after centrality computation on a pruned graph with
canonical, positively weighted edges and duplicate-free nodes, the
degree-centrality map has an entry exactly for each node with at least one
incident edge — an isolated node gets no entry, not a 0 entry — each value
is that node's weighted degree divided by the maximum weighted degree over
the non-isolated nodes, every stored value lies in (0, 1], and whenever the
map is nonempty some node attains exactly 1. -/
theorem C3_degree_centrality_normalization (st : NetworkStats)
    (hstrict : strictPairs st.edges) (hnd : (keys st.edges).Nodup)
    (hnodes : st.nodes.Nodup) (hpos : ∀ e ∈ st.edges, 0 < e.2)
    (hn0 : st.total_nodes ≠ 0) :
    (calculate_centrality_measures st).degree_centrality
        = (st.nodes.filter
              (fun u => !(adjGet (build_adj_list st.edges) u).isEmpty)).map
            (fun u => (u, weighted_degree st.edges u / max_nonisolated_degree st))
      ∧ (∀ p ∈ (calculate_centrality_measures st).degree_centrality,
          0 < p.2 ∧ p.2 ≤ 1)
      ∧ (∀ u ∈ st.nodes, (adjGet (build_adj_list st.edges) u).isEmpty = true →
          getv (calculate_centrality_measures st).degree_centrality u = none)
      ∧ ((calculate_centrality_measures st).degree_centrality ≠ [] →
          ∃ p ∈ (calculate_centrality_measures st).degree_centrality, p.2 = 1) := by
  have hdc := degree_centrality_eq st hstrict hnd hnodes hn0
  refine ⟨hdc, ?_, ?_, ?_⟩
  · intro p hp
    rw [hdc] at hp
    rcases List.mem_map.mp hp with ⟨u, hu, rfl⟩
    have hupred : (!(adjGet (build_adj_list st.edges) u).isEmpty) = true :=
      (List.mem_filter.mp hu).2
    have hune := (adjGet_nonempty_iff st.edges hstrict hnd u).mp hupred
    have hwpos := weighted_degree_pos st.edges u hpos hune
    have hMpos := max_nonisolated_degree_pos st hstrict hnd hpos
      (List.ne_nil_of_mem hu)
    constructor
    · exact div_pos hwpos hMpos
    · rw [div_le_one hMpos]
      exact max_nonisolated_degree_ge st u hu
  · intro u hu hiso
    rw [hdc]
    apply getv_eq_none_of_not_mem_keys
    intro hk
    rw [keys, List.map_map] at hk
    rcases List.mem_map.mp hk with ⟨a, ha, haeq⟩
    have hau : a = u := haeq
    subst hau
    have hpred : (!(adjGet (build_adj_list st.edges) a).isEmpty) = true :=
      (List.mem_filter.mp ha).2
    rw [hiso] at hpred
    cases hpred
  · intro hne
    rw [hdc] at hne ⊢
    have hF : st.nodes.filter
        (fun u => !(adjGet (build_adj_list st.edges) u).isEmpty) ≠ [] := by
      intro hc
      rw [hc] at hne
      exact hne rfl
    have hMpos := max_nonisolated_degree_pos st hstrict hnd hpos hF
    have hmem := listMaxD_mem (l := (st.nodes.filter
        (fun u => !(adjGet (build_adj_list st.edges) u).isEmpty)).map
          (fun u => weighted_degree st.edges u)) 1 (by simpa using hF)
    rcases List.mem_map.mp hmem with ⟨v, hv, hveq⟩
    refine ⟨(v, weighted_degree st.edges v / max_nonisolated_degree st),
      List.mem_map_of_mem _ hv, ?_⟩
    show weighted_degree st.edges v / max_nonisolated_degree st = 1
    have hvM : weighted_degree st.edges v = max_nonisolated_degree st := by
      rw [max_nonisolated_degree]
      exact hveq
    rw [hvM]
    exact div_self (ne_of_gt hMpos)

/-- C3, witness: on the concrete record `c3w_st` the hypotheses hold and
the characterisation applies; in particular some entry attains exactly 1. -/
theorem C3_witness :
    c3w_st.nodes.Nodup
      ∧ ((calculate_centrality_measures c3w_st).degree_centrality ≠ [] →
          ∃ p ∈ (calculate_centrality_measures c3w_st).degree_centrality, p.2 = 1) :=
  ⟨by decide,
    (C3_degree_centrality_normalization c3w_st (by decide) (by decide) (by decide)
      (by decide) (by decide)).2.2.2⟩

theorem ccm_preserves_metrics (st : NetworkStats) :
    (calculate_centrality_measures st).total_nodes = st.total_nodes
      ∧ (calculate_centrality_measures st).network_density = st.network_density
      ∧ (calculate_centrality_measures st).average_clustering = st.average_clustering
      ∧ (calculate_centrality_measures st).average_path_length
          = st.average_path_length := by
  unfold calculate_centrality_measures
  by_cases h : (st.total_nodes == 0) = true
  · rw [if_pos h]
    exact ⟨rfl, rfl, rfl, rfl⟩
  · rw [if_neg h]
    exact ⟨rfl, rfl, rfl, rfl⟩

theorem detect_communities_preserves_metrics (orders : ℕ → List String)
    (picks : ℕ → String → List ℕ → ℕ) (st : NetworkStats) :
    (detect_communities orders picks st).total_nodes = st.total_nodes
      ∧ (detect_communities orders picks st).network_density = st.network_density
      ∧ (detect_communities orders picks st).average_clustering
          = st.average_clustering
      ∧ (detect_communities orders picks st).average_path_length
          = st.average_path_length := by
  unfold detect_communities
  by_cases h : st.edges.isEmpty = true
  · rw [if_pos h]
    exact ⟨rfl, rfl, rfl, rfl⟩
  · rw [if_neg h]
    exact ⟨rfl, rfl, rfl, rfl⟩

theorem cnm_total_nodes (st : NetworkStats) :
    (compute_network_metrics st).total_nodes = st.total_nodes := by
  unfold compute_network_metrics
  by_cases h : st.total_nodes ≤ 1
  · rw [if_pos h]
  · rw [if_neg h]

theorem cnm_le_one (st : NetworkStats) (h : st.total_nodes ≤ 1) :
    compute_network_metrics st = st := by
  unfold compute_network_metrics
  rw [if_pos h]

/-- C7, counterexample: with `max_nodes_for_viz = 1` a short mention
exchange between two users leaves a pruned graph with exactly one node, on
which `analyze()` completes but returns `total_nodes = 1` and the true
original counts — not a record whose numeric fields are all zero-valued
defaults. -/
theorem C7_counterexample :
    (analyze one_node_cfg c3_orders c3_picks
        (load_messages one_node_cfg c7_messages)).total_nodes = 1
      ∧ (analyze one_node_cfg c3_orders c3_picks
          (load_messages one_node_cfg c7_messages)).original_nodes_count = 2
      ∧ (analyze one_node_cfg c3_orders c3_picks
          (load_messages one_node_cfg c7_messages)).original_edges_count = 1 := by
  decide

/-- C7 (corrected): on an empty message list `analyze()` returns the
all-defaults record exactly; the metrics stage is the identity on any stats
record with at most one node; and whenever the analysed graph ends with at
most one node, density, average clustering and average path length are all
0 — but the graph-size counters keep their true values, so the returned
record need not be all zero. -/
theorem C7_degenerate_input_behaviour (cfg : Config) (orders : ℕ → List String)
    (picks : ℕ → String → List ℕ → ℕ) (loaded : List Message) :
    analyze cfg orders picks [] = {}
      ∧ (∀ st : NetworkStats, st.total_nodes ≤ 1 → compute_network_metrics st = st)
      ∧ ((analyze cfg orders picks loaded).total_nodes ≤ 1 →
          (analyze cfg orders picks loaded).network_density = 0
            ∧ (analyze cfg orders picks loaded).average_clustering = 0
            ∧ (analyze cfg orders picks loaded).average_path_length = 0) := by
  refine ⟨rfl, cnm_le_one, ?_⟩
  intro h
  by_cases hl : loaded.isEmpty = true
  · have hz : analyze cfg orders picks loaded = {} := by
      unfold analyze
      rw [if_pos hl]
    rw [hz]
    exact ⟨rfl, rfl, rfl⟩
  · have hana : analyze cfg orders picks loaded
        = compute_network_metrics (detect_communities orders picks
            (calculate_centrality_measures
              (build_interaction_graph cfg loaded {}))) := by
      unfold analyze
      rw [if_neg hl]
    have hg1 := ccm_preserves_metrics (build_interaction_graph cfg loaded {})
    have hg2 := detect_communities_preserves_metrics orders picks
      (calculate_centrality_measures (build_interaction_graph cfg loaded {}))
    have hb0 : (build_interaction_graph cfg loaded {}).network_density = 0 := rfl
    have hb1 : (build_interaction_graph cfg loaded {}).average_clustering = 0 := rfl
    have hb2 : (build_interaction_graph cfg loaded {}).average_path_length = 0 := rfl
    have htn : (detect_communities orders picks
        (calculate_centrality_measures
          (build_interaction_graph cfg loaded {}))).total_nodes ≤ 1 := by
      rw [hana, cnm_total_nodes] at h
      exact h
    rw [hana, cnm_le_one _ htn]
    refine ⟨?_, ?_, ?_⟩
    · rw [hg2.2.1, hg1.2.1, hb0]
    · rw [hg2.2.2.1, hg1.2.2.1, hb1]
    · rw [hg2.2.2.2, hg1.2.2.2, hb2]

/-- C7, witness: the one-node pruned graph of the counterexample input
satisfies the node bound, and the theorem yields its three zero metrics. -/
theorem C7_witness :
    (analyze one_node_cfg c3_orders c3_picks
        (load_messages one_node_cfg c7_messages)).total_nodes ≤ 1
      ∧ ((analyze one_node_cfg c3_orders c3_picks
            (load_messages one_node_cfg c7_messages)).network_density = 0
          ∧ (analyze one_node_cfg c3_orders c3_picks
              (load_messages one_node_cfg c7_messages)).average_clustering = 0
          ∧ (analyze one_node_cfg c3_orders c3_picks
              (load_messages one_node_cfg c7_messages)).average_path_length = 0) :=
  ⟨by decide,
    (C7_degenerate_input_behaviour one_node_cfg c3_orders c3_picks
      (load_messages one_node_cfg c7_messages)).2.2 (by decide)⟩

theorem foldl_pick_mem {α : Type} (key : α → ℚ) :
    ∀ (xs : List α) (b : α),
      xs.foldl (fun b y => if key b < key y then y else b) b ∈ b :: xs := by
  intro xs
  induction xs with
  | nil => intro b; exact List.mem_singleton_self b
  | cons z zs ih =>
    intro b
    rw [List.foldl_cons]
    have h := ih (if key b < key z then z else b)
    rcases List.mem_cons.mp h with h | h
    · rw [h]
      by_cases hc : key b < key z
      · rw [if_pos hc]
        exact List.mem_cons_of_mem b (List.mem_cons_self z zs)
      · rw [if_neg hc]
        exact List.mem_cons_self b (z :: zs)
    · exact List.mem_cons_of_mem b (List.mem_cons_of_mem z h)

theorem foldl_pick_le {α : Type} (key : α → ℚ) :
    ∀ (xs : List α) (b y : α), y ∈ b :: xs →
      key y ≤ key (xs.foldl (fun b y => if key b < key y then y else b) b) := by
  intro xs
  induction xs with
  | nil =>
    intro b y hy
    have : y = b := by simpa using hy
    rw [this, List.foldl_nil]
  | cons z zs ih =>
    intro b y hy
    rw [List.foldl_cons]
    have hb : key b ≤ key (if key b < key z then z else b) := by
      by_cases hc : key b < key z
      · rw [if_pos hc]; exact le_of_lt hc
      · rw [if_neg hc]
    have hz : key z ≤ key (if key b < key z then z else b) := by
      by_cases hc : key b < key z
      · rw [if_pos hc]
      · rw [if_neg hc]; exact le_of_not_lt hc
    have hhead := ih (if key b < key z then z else b)
      (if key b < key z then z else b) (List.mem_cons_self _ zs)
    rcases List.mem_cons.mp hy with hy | hy
    · rw [hy]
      exact le_trans hb hhead
    · rcases List.mem_cons.mp hy with hy | hy
      · rw [hy]
        exact le_trans hz hhead
      · exact ih (if key b < key z then z else b) y (List.mem_cons_of_mem _ hy)

theorem pyMaxBy_eq_none_iff {α : Type} (key : α → ℚ) (l : List α) :
    pyMaxBy key l = none ↔ l = [] := by
  cases l with
  | nil => simp [pyMaxBy]
  | cons x xs => simp [pyMaxBy]

theorem pyMaxBy_mem {α : Type} (key : α → ℚ) (l : List α) (m : α)
    (h : pyMaxBy key l = some m) : m ∈ l := by
  cases l with
  | nil => cases h
  | cons x xs =>
    have hm : xs.foldl (fun b y => if key b < key y then y else b) x = m := by
      simpa [pyMaxBy] using h
    rw [← hm]
    exact foldl_pick_mem key xs x

theorem pyMaxBy_le {α : Type} (key : α → ℚ) (l : List α) (m : α)
    (h : pyMaxBy key l = some m) : ∀ y ∈ l, key y ≤ key m := by
  cases l with
  | nil => intro y hy; cases hy
  | cons x xs =>
    have hm : xs.foldl (fun b y => if key b < key y then y else b) x = m := by
      simpa [pyMaxBy] using h
    intro y hy
    rw [← hm]
    exact foldl_pick_le key xs x y hy

theorem cnm_preserves (st : NetworkStats) :
    (compute_network_metrics st).most_popular_user = st.most_popular_user
      ∧ (compute_network_metrics st).most_active_pair = st.most_active_pair
      ∧ (compute_network_metrics st).edges = st.edges
      ∧ (compute_network_metrics st).nodes = st.nodes
      ∧ (compute_network_metrics st).degree_centrality = st.degree_centrality
      ∧ (compute_network_metrics st).betweenness_centrality = st.betweenness_centrality
      ∧ (compute_network_metrics st).closeness_centrality = st.closeness_centrality := by
  unfold compute_network_metrics
  by_cases h : st.total_nodes ≤ 1
  · rw [if_pos h]
    exact ⟨rfl, rfl, rfl, rfl, rfl, rfl, rfl⟩
  · rw [if_neg h]
    exact ⟨rfl, rfl, rfl, rfl, rfl, rfl, rfl⟩

theorem dc_preserves (orders : ℕ → List String) (picks : ℕ → String → List ℕ → ℕ)
    (st : NetworkStats) :
    (detect_communities orders picks st).most_popular_user = st.most_popular_user
      ∧ (detect_communities orders picks st).edges = st.edges
      ∧ (detect_communities orders picks st).nodes = st.nodes
      ∧ (detect_communities orders picks st).degree_centrality = st.degree_centrality
      ∧ (detect_communities orders picks st).betweenness_centrality
          = st.betweenness_centrality
      ∧ (detect_communities orders picks st).closeness_centrality
          = st.closeness_centrality := by
  unfold detect_communities
  by_cases h : st.edges.isEmpty = true
  · rw [if_pos h]
    exact ⟨rfl, rfl, rfl, rfl, rfl, rfl⟩
  · rw [if_neg h]
    exact ⟨rfl, rfl, rfl, rfl, rfl, rfl⟩

theorem dc_most_active (orders : ℕ → List String) (picks : ℕ → String → List ℕ → ℕ)
    (st : NetworkStats) :
    (detect_communities orders picks st).most_active_pair
      = (match pyMaxBy (fun e => e.2) st.edges with
         | none => st.most_active_pair
         | some e => some { pair := e.1, weight := e.2 }) := by
  unfold detect_communities
  by_cases h : st.edges.isEmpty = true
  · rw [if_pos h]
    have he : st.edges = [] := List.isEmpty_iff.mp h
    rw [he]
    rfl
  · rw [if_neg h]

theorem ccm_preserves_io (st : NetworkStats) :
    (calculate_centrality_measures st).edges = st.edges
      ∧ (calculate_centrality_measures st).nodes = st.nodes
      ∧ (calculate_centrality_measures st).most_active_pair = st.most_active_pair
      ∧ (calculate_centrality_measures st).total_nodes = st.total_nodes := by
  unfold calculate_centrality_measures
  by_cases h : (st.total_nodes == 0) = true
  · rw [if_pos h]
    exact ⟨rfl, rfl, rfl, rfl⟩
  · rw [if_neg h]
    exact ⟨rfl, rfl, rfl, rfl⟩

theorem ccm_zero (st : NetworkStats) (h0 : (st.total_nodes == 0) = true) :
    calculate_centrality_measures st = st := by
  unfold calculate_centrality_measures
  rw [if_pos h0]

theorem ccm_dc_raw (st : NetworkStats) (h0 : ¬ ((st.total_nodes == 0) = true)) :
    (calculate_centrality_measures st).degree_centrality
      = (degree_count st.nodes (build_adj_list st.edges)
            (build_edge_weights st.edges)).map
          (fun e => (e.1, e.2 /
            (if (degree_count st.nodes (build_adj_list st.edges)
                  (build_edge_weights st.edges)).isEmpty then 1
             else listMaxD ((degree_count st.nodes (build_adj_list st.edges)
                  (build_edge_weights st.edges)).map (fun e => e.2)) 1))) := by
  unfold calculate_centrality_measures
  rw [if_neg h0]

theorem ccm_mp_raw (st : NetworkStats) (h0 : ¬ ((st.total_nodes == 0) = true)) :
    (calculate_centrality_measures st).most_popular_user
      = (if (calculate_centrality_measures st).degree_centrality.isEmpty
         then st.most_popular_user
         else
           match pyMaxBy (fun e => e.2) (st.nodes.map (fun node =>
               (node,
                 (1/2 : ℚ) * getD (calculate_centrality_measures st).degree_centrality node 0
                   + (3/10 : ℚ) * getD (calculate_centrality_measures st).betweenness_centrality node 0
                   + (1/5 : ℚ) * getD (calculate_centrality_measures st).closeness_centrality node 0))) with
           | none => st.most_popular_user
           | some best => some
               { qq := best.1
                 centrality := best.2
                 degree := getD (calculate_centrality_measures st).degree_centrality best.1 0
                 betweenness :=
                   getD (calculate_centrality_measures st).betweenness_centrality best.1 0
                 closeness :=
                   getD (calculate_centrality_measures st).closeness_centrality best.1 0 }) := by
  unfold calculate_centrality_measures
  rw [if_neg h0]

theorem pipeline_rest_field_chain (orders : ℕ → List String)
    (picks : ℕ → String → List ℕ → ℕ) (g : NetworkStats) :
    (pipeline_rest orders picks g).most_popular_user
        = (calculate_centrality_measures g).most_popular_user
      ∧ (pipeline_rest orders picks g).degree_centrality
          = (calculate_centrality_measures g).degree_centrality
      ∧ (pipeline_rest orders picks g).betweenness_centrality
          = (calculate_centrality_measures g).betweenness_centrality
      ∧ (pipeline_rest orders picks g).closeness_centrality
          = (calculate_centrality_measures g).closeness_centrality
      ∧ (pipeline_rest orders picks g).edges = g.edges
      ∧ (pipeline_rest orders picks g).nodes = g.nodes := by
  unfold pipeline_rest
  have hc := cnm_preserves (detect_communities orders picks
    (calculate_centrality_measures g))
  have hd := dc_preserves orders picks (calculate_centrality_measures g)
  have hi := ccm_preserves_io g
  refine ⟨?_, ?_, ?_, ?_, ?_, ?_⟩
  · rw [hc.1, hd.1]
  · rw [hc.2.2.2.2.1, hd.2.2.2.1]
  · rw [hc.2.2.2.2.2.1, hd.2.2.2.2.1]
  · rw [hc.2.2.2.2.2.2, hd.2.2.2.2.2]
  · rw [hc.2.2.1, hd.2.1, hi.1]
  · rw [hc.2.2.2.1, hd.2.2.1, hi.2.1]

theorem pipeline_rest_most_active (orders : ℕ → List String)
    (picks : ℕ → String → List ℕ → ℕ) (g : NetworkStats)
    (hgma : g.most_active_pair = none) :
    (pipeline_rest orders picks g).most_active_pair
      = (match pyMaxBy (fun e => e.2) g.edges with
         | none => none
         | some e => some { pair := e.1, weight := e.2 }) := by
  unfold pipeline_rest
  rw [(cnm_preserves _).2.1,
    dc_most_active orders picks (calculate_centrality_measures g),
    (ccm_preserves_io g).1, (ccm_preserves_io g).2.2.1, hgma]

theorem pipeline_mp_none_iff (orders : ℕ → List String)
    (picks : ℕ → String → List ℕ → ℕ) (g : NetworkStats)
    (hgmp : g.most_popular_user = none) (hgdc : g.degree_centrality = [])
    (hlen : g.total_nodes = g.nodes.length) :
    (pipeline_rest orders picks g).most_popular_user = none
      ↔ (pipeline_rest orders picks g).degree_centrality = [] := by
  have hch := pipeline_rest_field_chain orders picks g
  rw [hch.1, hch.2.1]
  by_cases h0 : (g.total_nodes == 0) = true
  · rw [ccm_zero g h0, hgmp, hgdc]
    simp
  · rw [ccm_mp_raw g h0]
    by_cases hdc0 : (calculate_centrality_measures g).degree_centrality.isEmpty = true
    · rw [if_pos hdc0, hgmp]
      have hdce : (calculate_centrality_measures g).degree_centrality = [] :=
        List.isEmpty_iff.mp hdc0
      simp [hdce]
    · rw [if_neg hdc0]
      have hdcne : (calculate_centrality_measures g).degree_centrality ≠ [] := by
        simpa [List.isEmpty_iff] using hdc0
      have hn0 : g.total_nodes ≠ 0 := by simpa using h0
      have hnne : g.nodes ≠ [] := by
        intro hc
        apply hn0
        rw [hlen, hc]
        rfl
      have hsne : g.nodes.map (fun node =>
          (node,
            (1/2 : ℚ) * getD (calculate_centrality_measures g).degree_centrality node 0
              + (3/10 : ℚ) * getD (calculate_centrality_measures g).betweenness_centrality node 0
              + (1/5 : ℚ) * getD (calculate_centrality_measures g).closeness_centrality node 0))
          ≠ [] := by
        simpa using hnne
      cases hE : pyMaxBy (fun e => e.2) (g.nodes.map (fun node =>
          (node,
            (1/2 : ℚ) * getD (calculate_centrality_measures g).degree_centrality node 0
              + (3/10 : ℚ) * getD (calculate_centrality_measures g).betweenness_centrality node 0
              + (1/5 : ℚ) * getD (calculate_centrality_measures g).closeness_centrality node 0))) with
      | none => exact absurd ((pyMaxBy_eq_none_iff _ _).mp hE) hsne
      | some best =>
        constructor
        · intro h
          cases h
        · intro h
          exact absurd h hdcne

theorem pipeline_mp_some_spec (orders : ℕ → List String)
    (picks : ℕ → String → List ℕ → ℕ) (g : NetworkStats)
    (hgmp : g.most_popular_user = none) :
    ∀ mp, (pipeline_rest orders picks g).most_popular_user = some mp →
      mp.qq ∈ (pipeline_rest orders picks g).nodes
        ∧ mp.centrality = combined_centrality (pipeline_rest orders picks g) mp.qq
        ∧ mp.degree = getD (pipeline_rest orders picks g).degree_centrality mp.qq 0
        ∧ mp.betweenness
            = getD (pipeline_rest orders picks g).betweenness_centrality mp.qq 0
        ∧ mp.closeness
            = getD (pipeline_rest orders picks g).closeness_centrality mp.qq 0
        ∧ ∀ v ∈ (pipeline_rest orders picks g).nodes,
            combined_centrality (pipeline_rest orders picks g) v
              ≤ combined_centrality (pipeline_rest orders picks g) mp.qq := by
  intro mp hmp
  have hch := pipeline_rest_field_chain orders picks g
  rw [hch.1] at hmp
  by_cases h0 : (g.total_nodes == 0) = true
  · rw [ccm_zero g h0, hgmp] at hmp
    cases hmp
  · rw [ccm_mp_raw g h0] at hmp
    by_cases hdc0 : (calculate_centrality_measures g).degree_centrality.isEmpty = true
    · rw [if_pos hdc0, hgmp] at hmp
      cases hmp
    · rw [if_neg hdc0] at hmp
      cases hE : pyMaxBy (fun e => e.2) (g.nodes.map (fun node =>
          (node,
            (1/2 : ℚ) * getD (calculate_centrality_measures g).degree_centrality node 0
              + (3/10 : ℚ) * getD (calculate_centrality_measures g).betweenness_centrality node 0
              + (1/5 : ℚ) * getD (calculate_centrality_measures g).closeness_centrality node 0))) with
      | none =>
        rw [hE] at hmp
        simp only [hgmp] at hmp
        cases hmp
      | some best =>
        rw [hE] at hmp
        have hmp' : some
            ({ qq := best.1
               centrality := best.2
               degree := getD (calculate_centrality_measures g).degree_centrality best.1 0
               betweenness :=
                 getD (calculate_centrality_measures g).betweenness_centrality best.1 0
               closeness :=
                 getD (calculate_centrality_measures g).closeness_centrality best.1 0 }
              : MostPopular) = some mp := hmp
        have hmpe : mp
            = { qq := best.1
                centrality := best.2
                degree := getD (calculate_centrality_measures g).degree_centrality best.1 0
                betweenness :=
                  getD (calculate_centrality_measures g).betweenness_centrality best.1 0
                closeness :=
                  getD (calculate_centrality_measures g).closeness_centrality best.1 0 } :=
          (Option.some.inj hmp').symm
        subst hmpe
        have hbest := pyMaxBy_mem _ _ _ hE
        rcases List.mem_map.mp hbest with ⟨v, hv, hveq⟩
        have h1 : best.1 = v := by rw [← hveq]
        have h2 : best.2
            = (1/2 : ℚ) * getD (calculate_centrality_measures g).degree_centrality v 0
              + (3/10 : ℚ) * getD (calculate_centrality_measures g).betweenness_centrality v 0
              + (1/5 : ℚ) * getD (calculate_centrality_measures g).closeness_centrality v 0 := by
          rw [← hveq]
        refine ⟨?_, ?_, ?_, ?_, ?_, ?_⟩
        · show best.1 ∈ (pipeline_rest orders picks g).nodes
          rw [hch.2.2.2.2.2, h1]
          exact hv
        · show best.2 = combined_centrality (pipeline_rest orders picks g) best.1
          unfold combined_centrality
          rw [hch.2.1, hch.2.2.1, hch.2.2.2.1, h1]
          exact h2
        · show getD (calculate_centrality_measures g).degree_centrality best.1 0
            = getD (pipeline_rest orders picks g).degree_centrality best.1 0
          rw [hch.2.1]
        · show getD (calculate_centrality_measures g).betweenness_centrality best.1 0
            = getD (pipeline_rest orders picks g).betweenness_centrality best.1 0
          rw [hch.2.2.1]
        · show getD (calculate_centrality_measures g).closeness_centrality best.1 0
            = getD (pipeline_rest orders picks g).closeness_centrality best.1 0
          rw [hch.2.2.2.1]
        · intro v2 hv2
          rw [hch.2.2.2.2.2] at hv2
          have hle := pyMaxBy_le _ _ _ hE
            (v2,
              (1/2 : ℚ) * getD (calculate_centrality_measures g).degree_centrality v2 0
                + (3/10 : ℚ) * getD (calculate_centrality_measures g).betweenness_centrality v2 0
                + (1/5 : ℚ) * getD (calculate_centrality_measures g).closeness_centrality v2 0)
            (List.mem_map_of_mem _ hv2)
          show combined_centrality (pipeline_rest orders picks g) v2
            ≤ combined_centrality (pipeline_rest orders picks g) best.1
          unfold combined_centrality
          rw [hch.2.1, hch.2.2.1, hch.2.2.2.1, h1]
          calc (1/2 : ℚ) * getD (calculate_centrality_measures g).degree_centrality v2 0
                + (3/10 : ℚ) * getD (calculate_centrality_measures g).betweenness_centrality v2 0
                + (1/5 : ℚ) * getD (calculate_centrality_measures g).closeness_centrality v2 0
              ≤ best.2 := hle
            _ = _ := h2

theorem pipeline_ma_spec (orders : ℕ → List String)
    (picks : ℕ → String → List ℕ → ℕ) (g : NetworkStats)
    (hgma : g.most_active_pair = none) :
    ((pipeline_rest orders picks g).most_active_pair = none
        ↔ (pipeline_rest orders picks g).edges = [])
      ∧ ∀ ma, (pipeline_rest orders picks g).most_active_pair = some ma →
          (ma.pair, ma.weight) ∈ (pipeline_rest orders picks g).edges
            ∧ ∀ e ∈ (pipeline_rest orders picks g).edges, e.2 ≤ ma.weight := by
  have hch := pipeline_rest_field_chain orders picks g
  have hma := pipeline_rest_most_active orders picks g hgma
  rw [hma, hch.2.2.2.2.1]
  cases hE : pyMaxBy (fun e => e.2) g.edges with
  | none =>
    have hee : g.edges = [] := (pyMaxBy_eq_none_iff _ _).mp hE
    refine ⟨iff_of_true rfl hee, ?_⟩
    intro ma hma2
    cases hma2
  | some e =>
    refine ⟨?_, ?_⟩
    · constructor
      · intro h
        cases h
      · intro h
        rw [h] at hE
        cases hE
    · intro ma hma2
      have hma3 : some ({ pair := e.1, weight := e.2 } : MostActive) = some ma := hma2
      have hmae : ma = { pair := e.1, weight := e.2 } := (Option.some.inj hma3).symm
      subst hmae
      constructor
      · show (e.1, e.2) ∈ g.edges
        rw [Prod.mk.eta]
        exact pyMaxBy_mem _ _ _ hE
      · intro f hf
        exact pyMaxBy_le _ _ _ hE f hf

/-- C10: after `analyze()`, `most_popular_user` is `None` exactly when the
degree-centrality map is empty and `most_active_pair` is `None` exactly when
the pruned edge list is empty; a present `most_active_pair` is a
maximum-weight edge of the pruned graph, and a present `most_popular_user`
is a pruned node maximising `0.5·degree + 0.3·betweenness + 0.2·closeness`,
recorded together with its three component scores. -/
theorem C10_most_popular_and_most_active (cfg : Config) (orders : ℕ → List String)
    (picks : ℕ → String → List ℕ → ℕ) (loaded : List Message) :
    ((analyze cfg orders picks loaded).most_popular_user = none
        ↔ (analyze cfg orders picks loaded).degree_centrality = [])
      ∧ ((analyze cfg orders picks loaded).most_active_pair = none
          ↔ (analyze cfg orders picks loaded).edges = [])
      ∧ (∀ ma, (analyze cfg orders picks loaded).most_active_pair = some ma →
          (ma.pair, ma.weight) ∈ (analyze cfg orders picks loaded).edges
            ∧ ∀ e ∈ (analyze cfg orders picks loaded).edges, e.2 ≤ ma.weight)
      ∧ (∀ mp, (analyze cfg orders picks loaded).most_popular_user = some mp →
          mp.qq ∈ (analyze cfg orders picks loaded).nodes
            ∧ mp.centrality = combined_centrality (analyze cfg orders picks loaded) mp.qq
            ∧ mp.degree
                = getD (analyze cfg orders picks loaded).degree_centrality mp.qq 0
            ∧ mp.betweenness
                = getD (analyze cfg orders picks loaded).betweenness_centrality mp.qq 0
            ∧ mp.closeness
                = getD (analyze cfg orders picks loaded).closeness_centrality mp.qq 0
            ∧ ∀ v ∈ (analyze cfg orders picks loaded).nodes,
                combined_centrality (analyze cfg orders picks loaded) v
                  ≤ combined_centrality (analyze cfg orders picks loaded) mp.qq) := by
  by_cases hl : loaded.isEmpty = true
  · have hz : analyze cfg orders picks loaded = {} := by
      unfold analyze
      rw [if_pos hl]
    rw [hz]
    refine ⟨iff_of_true rfl rfl, iff_of_true rfl rfl, ?_, ?_⟩
    · intro ma h
      cases h
    · intro mp h
      cases h
  · have hass : analyze cfg orders picks loaded
        = pipeline_rest orders picks (build_interaction_graph cfg loaded {}) := by
      unfold analyze pipeline_rest
      rw [if_neg hl]
    rw [hass]
    have hgmp : (build_interaction_graph cfg loaded {}).most_popular_user = none := rfl
    have hgma : (build_interaction_graph cfg loaded {}).most_active_pair = none := rfl
    have hgdc : (build_interaction_graph cfg loaded {}).degree_centrality = [] := rfl
    have hlen : (build_interaction_graph cfg loaded {}).total_nodes
        = (build_interaction_graph cfg loaded {}).nodes.length :=
      (construct_spec (calculate_interaction_weights (extract_conversations loaded)
        (analyze_content_similarity cfg loaded)) cfg).2.2.2.2.2.2
    exact ⟨pipeline_mp_none_iff orders picks _ hgmp hgdc hlen,
      (pipeline_ma_spec orders picks _ hgma).1,
      (pipeline_ma_spec orders picks _ hgma).2,
      pipeline_mp_some_spec orders picks _ hgmp⟩

/-- C10, witness: on the four-message mention exchange under the default
configuration the most-active pair is present, and the theorem places the
recorded `a—b` edge of weight 2.8 in the pruned edge list. -/
theorem C10_witness :
    (analyze base_cfg c3_orders c3_picks
        (load_messages base_cfg c7_messages)).most_active_pair
        = some { pair := ("a", "b"), weight := 14/5 }
      ∧ (({ pair := ("a", "b"), weight := 14/5 } : MostActive).pair,
          ({ pair := ("a", "b"), weight := 14/5 } : MostActive).weight)
          ∈ (analyze base_cfg c3_orders c3_picks
              (load_messages base_cfg c7_messages)).edges :=
  ⟨by decide,
    ((C10_most_popular_and_most_active base_cfg c3_orders c3_picks
        (load_messages base_cfg c7_messages)).2.2.1
      { pair := ("a", "b"), weight := 14/5 } (by decide)).1⟩

theorem getD_setv {κ ν : Type} [BEq κ] [LawfulBEq κ] [DecidableEq κ]
    (m : List (κ × ν)) (k p : κ) (w d : ν) :
    getD (setv m k w) p d = if p = k then w else getD m p d := by
  rw [getD_def, getv_setv]
  by_cases h : p = k <;> simp [h, getD_def]

theorem getD_map_const {ν : Type} (nodes : List String) (c d : ν) (u : String) :
    getD (nodes.map (fun v => (v, c))) u d = if u ∈ nodes then c else d := by
  induction nodes with
  | nil => simp [getD, getv]
  | cons x xs ih =>
    by_cases h : u = x
    · subst h
      simp [getD_def, getv_cons]
    · have hne : ¬ (x == u) := by simp [beq_iff_eq]; exact fun hc => h hc.symm
      simp only [List.map_cons, getD_def, getv_cons, hne, Bool.false_eq_true, if_false]
      rw [← getD_def, ih]
      simp [List.mem_cons, h]

theorem adj_sub_nodes (es : WMap) (nodes : List String)
    (hclosed : ∀ e ∈ es, e.1.1 ∈ nodes ∧ e.1.2 ∈ nodes) :
    ∀ u, ∀ w ∈ adjGet (build_adj_list es) u, w ∈ nodes := by
  intro u w hw
  rcases (mem_adjGet_build es u w).mp hw with ⟨e, he, hor | hor⟩
  · have := (hclosed e he).2
    rw [hor] at this
    exact this
  · have := (hclosed e he).1
    rw [hor] at this
    exact this

theorem adj_no_self (es : WMap) (hstrict : strictPairs es) :
    ∀ u, u ∉ adjGet (build_adj_list es) u := by
  intro u hu
  rcases (mem_adjGet_build es u u).mp hu with ⟨e, he, hor | hor⟩
  all_goals
    have hs := (hstrict e he).2
    rw [hor] at hs
    exact hs rfl

/-- The invariant bundle of the Brandes BFS phase, relating distances,
path counts, predecessor lists, queue and visit stack. -/
structure BInv (nodes : List String) (adjm : AdjMap) (s : String)
    (st : BrandesState) : Prop where
  kd : keys st.d = nodes
  ksg : keys st.sigma = nodes
  kp : keys st.P = nodes
  nodup_sq : (st.S ++ st.Q).Nodup
  sub_sq : ∀ u ∈ st.S ++ st.Q, u ∈ nodes
  disc_d : ∀ u ∈ st.S ++ st.Q, 0 ≤ getD st.d u 0
  undisc_d : ∀ u ∈ nodes, u ∉ st.S ++ st.Q → getD st.d u 0 = -1
  undisc_sigma : ∀ u ∈ nodes, u ∉ st.S ++ st.Q → getD st.sigma u 0 = 0
  undisc_P : ∀ u ∈ nodes, u ∉ st.S ++ st.Q → getD st.P u [] = []
  sorted_sq : (st.S ++ st.Q).Pairwise (fun a b => getD st.d a 0 ≤ getD st.d b 0)
  q_le : ∀ a ∈ st.Q, ∀ b ∈ st.Q, getD st.d a 0 ≤ getD st.d b 0 + 1
  graded : ∀ w ∈ nodes, ∀ u ∈ getD st.P w [],
    getD st.d u 0 + 1 = getD st.d w 0 ∧ u ∈ st.S
  nodup_P : ∀ w ∈ nodes, (getD st.P w []).Nodup
  consistent : ∀ w ∈ nodes, w ≠ s →
    getD st.sigma w 0 = ((getD st.P w []).map (fun u => getD st.sigma u 0)).sum
  sigma_pos : ∀ u ∈ st.S ++ st.Q, 1 ≤ getD st.sigma u 0
  s_d : getD st.d s 0 = 0
  s_sigma : getD st.sigma s 0 = 1
  s_P : getD st.P s [] = []
  s_head : st.S = [] → st.Q = [s]
  s_in : st.S ≠ [] → s ∈ st.S

theorem BInv_init (nodes : List String) (adjm : AdjMap) (s : String)
    (hnd : nodes.Nodup) (hs : s ∈ nodes) :
    BInv nodes adjm s
      { d := setv (nodes.map (fun v => (v, (-1 : ℤ)))) s 0
        sigma := setv (nodes.map (fun v => (v, (0 : ℚ)))) s 1
        P := nodes.map (fun v => (v, ([] : List String)))
        Q := [s]
        S := [] } := by
  have hkc : ∀ {ν : Type} (c : ν), keys (nodes.map (fun v => (v, c))) = nodes := by
    intro ν c
    simp only [keys, List.map_map]
    have : (Prod.fst ∘ fun v : String => (v, c)) = id := rfl
    rw [this, List.map_id]
  have hdfun : ∀ u, getD (setv (nodes.map (fun v => (v, (-1 : ℤ)))) s 0) u 0
      = if u = s then 0 else if u ∈ nodes then -1 else 0 := by
    intro u
    rw [getD_setv, getD_map_const]
  have hsfun : ∀ u, getD (setv (nodes.map (fun v => (v, (0 : ℚ)))) s 1) u 0
      = if u = s then 1 else 0 := by
    intro u
    rw [getD_setv, getD_map_const]
    by_cases h : u = s <;> simp [h]
  have hpfun : ∀ u, getD (nodes.map (fun v => (v, ([] : List String)))) u [] = [] := by
    intro u
    rw [getD_map_const]
    by_cases h : u ∈ nodes <;> simp [h]
  refine ⟨?_, ?_, ?_, ?_, ?_, ?_, ?_, ?_, ?_, ?_, ?_, ?_, ?_, ?_, ?_, ?_, ?_, ?_, ?_, ?_⟩
  · rw [keys_setv]
    simp [hkc, hs]
  · rw [keys_setv]
    simp [hkc, hs]
  · exact hkc _
  · simp
  · intro u hu
    simp only [List.nil_append, List.mem_singleton] at hu
    exact hu ▸ hs
  · intro u hu
    simp only [List.nil_append, List.mem_singleton] at hu
    rw [hu, hdfun]
    simp
  · intro u hu hus
    simp only [List.nil_append, List.mem_singleton] at hus
    rw [hdfun]
    simp [hus, hu]
  · intro u hu hus
    simp only [List.nil_append, List.mem_singleton] at hus
    rw [hsfun]
    simp [hus]
  · intro u _ _
    exact hpfun u
  · simp
  · intro a ha b hb
    simp only [List.mem_singleton] at ha hb
    rw [ha, hb]
    omega
  · intro w _ u hu
    rw [hpfun] at hu
    cases hu
  · intro w _
    rw [hpfun]
    exact List.nodup_nil
  · intro w _ hws
    rw [hpfun, hsfun]
    simp [hws]
  · intro u hu
    simp only [List.nil_append, List.mem_singleton] at hu
    rw [hu, hsfun]
    simp
  · rw [hdfun]
    simp
  · rw [hsfun]
    simp
  · exact hpfun s
  · intro _
    rfl
  · intro h
    exact absurd rfl h

/-- The inner per-neighbour step of the Brandes BFS loop, named for
reasoning; identical to the lambda in `brandes_visit`. -/
def brandes_step (v : String) (acc : BrandesState) (w : String) : BrandesState :=
  let acc :=
    if getD acc.d w 0 < 0 then
      { acc with Q := acc.Q ++ [w], d := setv acc.d w (getD acc.d v 0 + 1) }
    else acc
  if getD acc.d w 0 == getD acc.d v 0 + 1 then
    { acc with sigma := bump acc.sigma w (getD acc.sigma v 0),
               P := appendPred acc.P w v }
  else acc

theorem brandes_visit_nil (adjm : AdjMap) (fuel : ℕ) (st : BrandesState)
    (h : st.Q = []) : brandes_visit adjm (fuel + 1) st = st := by
  unfold brandes_visit
  rw [h]

theorem brandes_visit_cons (adjm : AdjMap) (fuel : ℕ) (st : BrandesState)
    (v : String) (Qrest : List String) (h : st.Q = v :: Qrest) :
    brandes_visit adjm (fuel + 1) st
      = brandes_visit adjm fuel ((adjGet adjm v).foldl (brandes_step v)
          { st with Q := Qrest, S := st.S ++ [v] }) := by
  conv_lhs => unfold brandes_visit
  rw [h]
  rfl

theorem brandes_step_eq_A (v w : String) (acc : BrandesState)
    (hA : getD acc.d w 0 < 0) (hwv : w ≠ v) :
    brandes_step v acc w =
      { d := setv acc.d w (getD acc.d v 0 + 1)
        sigma := bump acc.sigma w (getD acc.sigma v 0)
        P := appendPred acc.P w v
        Q := acc.Q ++ [w]
        S := acc.S } := by
  unfold brandes_step
  rw [if_pos hA]
  have e1 : getD ({ acc with Q := acc.Q ++ [w], d := setv acc.d w (getD acc.d v 0 + 1) } : BrandesState).d w 0
      = getD acc.d v 0 + 1 := by
    show getD (setv acc.d w (getD acc.d v 0 + 1)) w 0 = _
    rw [getD_setv, if_pos rfl]
  have e2 : getD ({ acc with Q := acc.Q ++ [w], d := setv acc.d w (getD acc.d v 0 + 1) } : BrandesState).d v 0
      = getD acc.d v 0 := by
    show getD (setv acc.d w (getD acc.d v 0 + 1)) v 0 = _
    rw [getD_setv, if_neg (fun hc => hwv hc.symm)]
  rw [if_pos (by rw [e1, e2]; simp)]

theorem brandes_step_eq_B (v w : String) (acc : BrandesState)
    (hA : ¬ (getD acc.d w 0 < 0))
    (hB : getD acc.d w 0 = getD acc.d v 0 + 1) :
    brandes_step v acc w =
      { acc with sigma := bump acc.sigma w (getD acc.sigma v 0),
                 P := appendPred acc.P w v } := by
  unfold brandes_step
  rw [if_neg hA, if_pos (by simp [hB])]

theorem brandes_step_eq_C (v w : String) (acc : BrandesState)
    (hA : ¬ (getD acc.d w 0 < 0))
    (hB : ¬ (getD acc.d w 0 = getD acc.d v 0 + 1)) :
    brandes_step v acc w = acc := by
  unfold brandes_step
  rw [if_neg hA, if_neg (by simp [hB])]

theorem getD_appendPred (P : List (String × List String)) (w v x : String) :
    getD (appendPred P w v) x []
      = if x = w then getD P w [] ++ [v] else getD P x [] := by
  unfold appendPred
  rw [getD_setv]

/-- Mid-fold invariant of the Brandes BFS inner loop: the state invariant
plus the facts that the just-popped node `v` closes the stack, its distance
is fixed, and every queued node is within one level of it. -/
structure MInv (nodes : List String) (adjm : AdjMap) (s v : String)
    (S0 : List String) (dv : ℤ) (acc : BrandesState) : Prop where
  inv : BInv nodes adjm s acc
  hS : acc.S = S0 ++ [v]
  hdv : getD acc.d v 0 = dv
  hqv : ∀ x ∈ acc.Q, getD acc.d x 0 ≤ dv + 1

theorem brandes_step_preserves (nodes : List String) (adjm : AdjMap)
    (s v : String) (S0 : List String) (dv : ℤ) (w : String) (acc : BrandesState)
    (hw : w ∈ nodes) (hwv : w ≠ v) (hfresh : v ∉ getD acc.P w [])
    (hm : MInv nodes adjm s v S0 dv acc) :
    MInv nodes adjm s v S0 dv (brandes_step v acc w)
      ∧ ∀ w', w' ≠ w → getD (brandes_step v acc w).P w' [] = getD acc.P w' [] := by
  obtain ⟨hi, hS, hdv, hqv⟩ := hm
  have hvS : v ∈ acc.S := by
    rw [hS]
    exact List.mem_append_right _ (List.mem_singleton_self v)
  have hvSQ : v ∈ acc.S ++ acc.Q := List.mem_append_left _ hvS
  have hvnodes : v ∈ nodes := hi.sub_sq v hvSQ
  have hdv0 : (0 : ℤ) ≤ dv := hdv ▸ hi.disc_d v hvSQ
  have hsv : (1 : ℚ) ≤ getD acc.sigma v 0 := hi.sigma_pos v hvSQ
  have hSne : acc.S ≠ [] := by
    rw [hS]
    simp
  have hSle : ∀ a ∈ acc.S, getD acc.d a 0 ≤ dv := by
    intro a ha
    have hps : (acc.S).Pairwise (fun a b => getD acc.d a 0 ≤ getD acc.d b 0) :=
      (List.pairwise_append.mp hi.sorted_sq).1
    rw [hS] at ha hps
    rcases List.mem_append.mp ha with ha | ha
    · have := (List.pairwise_append.mp hps).2.2 a ha v (List.mem_singleton_self v)
      rw [hdv] at this
      exact this
    · have hav : a = v := by simpa using ha
      rw [hav, hdv]
  have hcross : ∀ a ∈ acc.S, ∀ b ∈ acc.Q, getD acc.d a 0 ≤ getD acc.d b 0 :=
    (List.pairwise_append.mp hi.sorted_sq).2.2
  by_cases hA : getD acc.d w 0 < 0
  · -- the neighbour is freshly discovered
    have hwSQ : w ∉ acc.S ++ acc.Q := by
      intro hc
      have := hi.disc_d w hc
      omega
    have hsg0 : getD acc.sigma w 0 = 0 := hi.undisc_sigma w hw hwSQ
    have hP0 : getD acc.P w [] = [] := hi.undisc_P w hw hwSQ
    have hws : w ≠ s := by
      intro hc
      rw [hc, hi.s_d] at hA
      omega
    rw [brandes_step_eq_A v w acc hA hwv, hdv]
    have hd' : ∀ x, getD (setv acc.d w (dv + 1)) x 0
        = if x = w then dv + 1 else getD acc.d x 0 := fun x => getD_setv _ _ _ _ _
    have hsg' : ∀ x, getD (bump acc.sigma w (getD acc.sigma v 0)) x 0
        = if x = w then getD acc.sigma x 0 + getD acc.sigma v 0
          else getD acc.sigma x 0 := fun x => getD_bump _ _ _ _
    have hP' : ∀ x, getD (appendPred acc.P w v) x []
        = if x = w then getD acc.P w [] ++ [v] else getD acc.P x [] :=
      fun x => getD_appendPred _ _ _ _
    have hmemSQ : ∀ u, u ∈ acc.S ++ (acc.Q ++ [w])
        ↔ u ∈ acc.S ++ acc.Q ∨ u = w := by
      intro u
      simp [List.mem_append, or_assoc]
    refine ⟨⟨⟨?_, ?_, ?_, ?_, ?_, ?_, ?_, ?_, ?_, ?_, ?_, ?_, ?_, ?_, ?_, ?_, ?_, ?_,
      ?_, ?_⟩, ?_, ?_, ?_⟩, ?_⟩
    · dsimp only
      rw [keys_setv, if_pos (hi.kd ▸ hw)]
      exact hi.kd
    · dsimp only
      rw [keys_bump, if_pos (hi.ksg ▸ hw)]
      exact hi.ksg
    · dsimp only
      unfold appendPred
      rw [keys_setv, if_pos (hi.kp ▸ hw)]
      exact hi.kp
    · dsimp only
      rw [← List.append_assoc]
      rw [List.nodup_append]
      refine ⟨hi.nodup_sq, List.nodup_singleton w, ?_⟩
      intro a ha hac
      have : a = w := by simpa using hac
      exact hwSQ (this ▸ ha)
    · dsimp only
      intro u hu
      rcases (hmemSQ u).mp hu with hu | hu
      · exact hi.sub_sq u hu
      · exact hu ▸ hw
    · dsimp only
      intro u hu
      rw [hd']
      rcases (hmemSQ u).mp hu with hu | hu
      · have hne : u ≠ w := fun hc => hwSQ (hc ▸ hu)
        rw [if_neg hne]
        exact hi.disc_d u hu
      · rw [if_pos hu]
        omega
    · dsimp only
      intro u hu hus
      have h1 : u ∉ acc.S ++ acc.Q := fun hc => hus ((hmemSQ u).mpr (Or.inl hc))
      have h2 : u ≠ w := fun hc => hus ((hmemSQ u).mpr (Or.inr hc))
      rw [hd', if_neg h2]
      exact hi.undisc_d u hu h1
    · dsimp only
      intro u hu hus
      have h1 : u ∉ acc.S ++ acc.Q := fun hc => hus ((hmemSQ u).mpr (Or.inl hc))
      have h2 : u ≠ w := fun hc => hus ((hmemSQ u).mpr (Or.inr hc))
      rw [hsg', if_neg h2]
      exact hi.undisc_sigma u hu h1
    · dsimp only
      intro u hu hus
      have h1 : u ∉ acc.S ++ acc.Q := fun hc => hus ((hmemSQ u).mpr (Or.inl hc))
      have h2 : u ≠ w := fun hc => hus ((hmemSQ u).mpr (Or.inr hc))
      rw [hP', if_neg h2]
      exact hi.undisc_P u hu h1
    · dsimp only
      rw [← List.append_assoc]
      rw [List.pairwise_append]
      refine ⟨?_, List.pairwise_singleton _ _, ?_⟩
      · refine List.Pairwise.imp_of_mem ?_ hi.sorted_sq
        intro a b ha hb hab
        have hna : a ≠ w := fun hc => hwSQ (hc ▸ ha)
        have hnb : b ≠ w := fun hc => hwSQ (hc ▸ hb)
        rw [hd', hd', if_neg hna, if_neg hnb]
        exact hab
      · intro a ha b hb
        have hbw : b = w := by simpa using hb
        have hna : a ≠ w := fun hc => hwSQ (hc ▸ ha)
        rw [hd', hd', if_neg hna, hbw, if_pos rfl]
        rcases List.mem_append.mp ha with ha | ha
        · have := hSle a ha
          omega
        · have := hqv a ha
          omega
    · dsimp only
      intro a ha b hb
      rw [hd', hd']
      rcases List.mem_append.mp ha with ha | ha
      · have hna : a ≠ w := by
          intro hc
          exact hwSQ (hc ▸ List.mem_append_right _ ha)
        rw [if_neg hna]
        rcases List.mem_append.mp hb with hb | hb
        · have hnb : b ≠ w := by
            intro hc
            exact hwSQ (hc ▸ List.mem_append_right _ hb)
          rw [if_neg hnb]
          exact hi.q_le a ha b hb
        · have hbw : b = w := by simpa using hb
          rw [if_pos hbw]
          have := hqv a ha
          omega
      · have haw : a = w := by simpa using ha
        rw [if_pos haw]
        rcases List.mem_append.mp hb with hb | hb
        · have hnb : b ≠ w := by
            intro hc
            exact hwSQ (hc ▸ List.mem_append_right _ hb)
          rw [if_neg hnb]
          have hvb : getD acc.d v 0 ≤ getD acc.d b 0 := hcross v hvS b hb
          rw [hdv] at hvb
          omega
        · have hbw : b = w := by simpa using hb
          rw [if_pos hbw]
          omega
    · dsimp only
      intro x hx u hu
      rw [hP'] at hu
      by_cases hxw : x = w
      · subst hxw
        rw [if_pos rfl, hP0] at hu
        have huv : u = v := by simpa using hu
        subst huv
        constructor
        · rw [hd' u, hd' x, if_neg (fun hc => hwv hc.symm), if_pos rfl, hdv]
        · exact hvS
      · rw [if_neg hxw] at hu
        have hold := hi.graded x hx u hu
        have hunw : u ≠ w := fun hc => hwSQ (hc ▸ List.mem_append_left _ hold.2)
        constructor
        · rw [hd' u, hd' x, if_neg hunw, if_neg hxw]
          exact hold.1
        · exact hold.2
    · dsimp only
      intro x hx
      rw [hP']
      by_cases hxw : x = w
      · rw [if_pos hxw, hP0]
        exact List.nodup_singleton v
      · rw [if_neg hxw]
        exact hi.nodup_P x hx
    · dsimp only
      intro x hx hxs
      rw [hsg' x, hP' x]
      by_cases hxw : x = w
      · rw [if_pos hxw, if_pos hxw, hxw, hP0]
        simp only [List.nil_append, List.map_cons, List.map_nil, List.sum_cons,
          List.sum_nil]
        rw [hsg' v, if_neg (fun hc => hwv hc.symm), hsg0]
        ring
      · rw [if_neg hxw, if_neg hxw]
        have hold := hi.consistent x hx hxs
        rw [hold]
        refine congrArg List.sum (List.map_congr_left ?_)
        intro u hu
        have huS := (hi.graded x hx u hu).2
        have hunw : u ≠ w := fun hc => hwSQ (hc ▸ List.mem_append_left _ huS)
        rw [hsg' u, if_neg hunw]
    · dsimp only
      intro u hu
      rw [hsg']
      rcases (hmemSQ u).mp hu with hu | hu
      · have hne : u ≠ w := fun hc => hwSQ (hc ▸ hu)
        rw [if_neg hne]
        exact hi.sigma_pos u hu
      · rw [if_pos hu, hu, hsg0]
        linarith
    · dsimp only
      rw [hd', if_neg (fun hc => hws hc.symm)]
      exact hi.s_d
    · dsimp only
      rw [hsg', if_neg (fun hc => hws hc.symm)]
      exact hi.s_sigma
    · dsimp only
      rw [hP', if_neg (fun hc => hws hc.symm)]
      exact hi.s_P
    · dsimp only
      intro h
      exact absurd h hSne
    · dsimp only
      intro _
      exact hi.s_in hSne
    · dsimp only
      exact hS
    · dsimp only
      rw [hd', if_neg (fun hc => hwv hc.symm)]
      exact hdv
    · dsimp only
      intro x hx
      rw [hd']
      rcases List.mem_append.mp hx with hx | hx
      · have hne : x ≠ w := fun hc => hwSQ (hc ▸ List.mem_append_right _ hx)
        rw [if_neg hne]
        exact hqv x hx
      · have hxw : x = w := by simpa using hx
        rw [if_pos hxw]
    · intro w' hw'
      dsimp only
      rw [hP', if_neg hw']
  · by_cases hB : getD acc.d w 0 = getD acc.d v 0 + 1
    · -- the neighbour sits on the next BFS level: record the extra path
      have hdw : getD acc.d w 0 = dv + 1 := by rw [hB, hdv]
      have hwSQ : w ∈ acc.S ++ acc.Q := by
        by_contra hc
        have := hi.undisc_d w hw hc
        omega
      have hwnotS : w ∉ acc.S := by
        intro hc
        have := hSle w hc
        omega
      have hws : w ≠ s := by
        intro hc
        rw [hc, hi.s_d] at hdw
        omega
      rw [brandes_step_eq_B v w acc hA hB]
      have hsg' : ∀ x, getD (bump acc.sigma w (getD acc.sigma v 0)) x 0
          = if x = w then getD acc.sigma x 0 + getD acc.sigma v 0
            else getD acc.sigma x 0 := fun x => getD_bump _ _ _ _
      have hP' : ∀ x, getD (appendPred acc.P w v) x []
          = if x = w then getD acc.P w [] ++ [v] else getD acc.P x [] :=
        fun x => getD_appendPred _ _ _ _
      refine ⟨⟨⟨?_, ?_, ?_, ?_, ?_, ?_, ?_, ?_, ?_, ?_, ?_, ?_, ?_, ?_, ?_, ?_, ?_,
        ?_, ?_, ?_⟩, ?_, ?_, ?_⟩, ?_⟩
      · dsimp only
        exact hi.kd
      · dsimp only
        rw [keys_bump, if_pos (hi.ksg ▸ hw)]
        exact hi.ksg
      · dsimp only
        unfold appendPred
        rw [keys_setv, if_pos (hi.kp ▸ hw)]
        exact hi.kp
      · dsimp only
        exact hi.nodup_sq
      · dsimp only
        exact hi.sub_sq
      · dsimp only
        exact hi.disc_d
      · dsimp only
        exact hi.undisc_d
      · dsimp only
        intro u hu hus
        have h2 : u ≠ w := fun hc => hus (hc ▸ hwSQ)
        rw [hsg', if_neg h2]
        exact hi.undisc_sigma u hu hus
      · dsimp only
        intro u hu hus
        have h2 : u ≠ w := fun hc => hus (hc ▸ hwSQ)
        rw [hP', if_neg h2]
        exact hi.undisc_P u hu hus
      · dsimp only
        exact hi.sorted_sq
      · dsimp only
        exact hi.q_le
      · dsimp only
        intro x hx u hu
        rw [hP'] at hu
        by_cases hxw : x = w
        · subst hxw
          rw [if_pos rfl] at hu
          rcases List.mem_append.mp hu with hu | hu
          · exact hi.graded x hx u hu
          · have huv : u = v := by simpa using hu
            subst huv
            constructor
            · rw [hdv, hdw]
            · exact hvS
        · rw [if_neg hxw] at hu
          exact hi.graded x hx u hu
      · dsimp only
        intro x hx
        rw [hP']
        by_cases hxw : x = w
        · rw [if_pos hxw]
          rw [List.nodup_append]
          refine ⟨hi.nodup_P w hw, List.nodup_singleton v, ?_⟩
          intro a ha hav
          have : a = v := by simpa using hav
          exact hfresh (this ▸ ha)
        · rw [if_neg hxw]
          exact hi.nodup_P x hx
      · dsimp only
        intro x hx hxs
        rw [hsg' x, hP' x]
        by_cases hxw : x = w
        · rw [if_pos hxw, if_pos hxw, hxw]
          rw [List.map_append, List.sum_append]
          simp only [List.map_cons, List.map_nil, List.sum_cons, List.sum_nil]
          rw [hsg' v, if_neg (fun hc => hwv hc.symm)]
          have hold := hi.consistent w hw hws
          have hmc : (getD acc.P w []).map (fun u =>
              getD (bump acc.sigma w (getD acc.sigma v 0)) u 0)
              = (getD acc.P w []).map (fun u => getD acc.sigma u 0) := by
            refine List.map_congr_left ?_
            intro u hu
            have huS := (hi.graded w hw u hu).2
            have hunw : u ≠ w := fun hc => hwnotS (hc ▸ huS)
            rw [hsg' u, if_neg hunw]
          rw [hmc, ← hold]
          ring
        · rw [if_neg hxw, if_neg hxw]
          have hold := hi.consistent x hx hxs
          rw [hold]
          refine congrArg List.sum (List.map_congr_left ?_)
          intro u hu
          have huS := (hi.graded x hx u hu).2
          have hunw : u ≠ w := fun hc => hwnotS (hc ▸ huS)
          rw [hsg' u, if_neg hunw]
      · dsimp only
        intro u hu
        rw [hsg']
        by_cases hne : u = w
        · rw [if_pos hne, hne]
          have h1 := hi.sigma_pos w hwSQ
          linarith
        · rw [if_neg hne]
          exact hi.sigma_pos u hu
      · dsimp only
        exact hi.s_d
      · dsimp only
        rw [hsg', if_neg (fun hc => hws hc.symm)]
        exact hi.s_sigma
      · dsimp only
        rw [hP', if_neg (fun hc => hws hc.symm)]
        exact hi.s_P
      · dsimp only
        intro h
        exact absurd h hSne
      · dsimp only
        intro _
        exact hi.s_in hSne
      · dsimp only
        exact hS
      · dsimp only
        exact hdv
      · dsimp only
        exact hqv
      · intro w' hw'
        dsimp only
        rw [hP', if_neg hw']
    · rw [brandes_step_eq_C v w acc hA hB]
      exact ⟨⟨hi, hS, hdv, hqv⟩, fun _ _ => rfl⟩

theorem brandes_fold_inv (nodes : List String) (adjm : AdjMap) (s v : String)
    (S0 : List String) (dv : ℤ) :
    ∀ (ws : List String) (acc : BrandesState), ws.Nodup →
      (∀ w ∈ ws, w ∈ nodes ∧ w ≠ v) →
      (∀ w ∈ ws, v ∉ getD acc.P w []) →
      MInv nodes adjm s v S0 dv acc →
      MInv nodes adjm s v S0 dv (ws.foldl (brandes_step v) acc) := by
  intro ws
  induction ws with
  | nil =>
    intro acc _ _ _ hm
    exact hm
  | cons w rest ih =>
    intro acc hnodup hcond hfr hm
    rw [List.foldl_cons]
    have hst := brandes_step_preserves nodes adjm s v S0 dv w acc
      (hcond w (List.mem_cons_self w rest)).1
      (hcond w (List.mem_cons_self w rest)).2
      (hfr w (List.mem_cons_self w rest)) hm
    refine ih _ (List.Nodup.of_cons hnodup)
      (fun w' hw' => hcond w' (List.mem_cons_of_mem _ hw')) ?_ hst.1
    intro w' hw'
    have hww' : w' ≠ w :=
      fun hc => (List.nodup_cons.mp hnodup).1 (hc ▸ hw')
    rw [hst.2 w' hww']
    exact hfr w' (List.mem_cons_of_mem _ hw')

theorem brandes_visit_inv (nodes : List String) (adjm : AdjMap) (s : String)
    (hadj_nodup : ∀ u, (adjGet adjm u).Nodup)
    (hadj_sub : ∀ u, ∀ w ∈ adjGet adjm u, w ∈ nodes)
    (hadj_ne : ∀ u, u ∉ adjGet adjm u) :
    ∀ (fuel : ℕ) (st : BrandesState), BInv nodes adjm s st →
      BInv nodes adjm s (brandes_visit adjm fuel st) := by
  intro fuel
  induction fuel with
  | zero =>
    intro st h
    exact h
  | succ fuel ih =>
    intro st h
    cases hQ : st.Q with
    | nil =>
      rw [brandes_visit_nil adjm fuel st hQ]
      exact h
    | cons v Qrest =>
      rw [brandes_visit_cons adjm fuel st v Qrest hQ]
      apply ih
      have hvQ : v ∈ st.Q := by
        rw [hQ]
        exact List.mem_cons_self v Qrest
      have hvSQ : v ∈ st.S ++ st.Q := List.mem_append_right _ hvQ
      have hvnotS : v ∉ st.S := by
        intro hc
        rcases List.nodup_append.mp h.nodup_sq with ⟨-, -, hdisj⟩
        exact hdisj hc hvQ
      have hconc : ({ st with Q := Qrest, S := st.S ++ [v] }
          : BrandesState).S ++ ({ st with Q := Qrest, S := st.S ++ [v] }
          : BrandesState).Q = st.S ++ st.Q := by
        show (st.S ++ [v]) ++ Qrest = st.S ++ st.Q
        rw [List.append_assoc, hQ]
        rfl
      have hQsub : ∀ x ∈ Qrest, x ∈ st.Q := by
        intro x hx
        rw [hQ]
        exact List.mem_cons_of_mem v hx
      have hi0 : BInv nodes adjm s
          ({ st with Q := Qrest, S := st.S ++ [v] } : BrandesState) := by
        refine ⟨h.kd, h.ksg, h.kp, ?_, ?_, ?_, ?_, ?_, ?_, ?_, ?_, ?_, ?_, ?_, ?_,
          h.s_d, h.s_sigma, h.s_P, ?_, ?_⟩
        · rw [hconc]
          exact h.nodup_sq
        · intro u hu
          exact h.sub_sq u (hconc ▸ hu)
        · intro u hu
          exact h.disc_d u (hconc ▸ hu)
        · intro u hu hus
          exact h.undisc_d u hu (fun hc => hus (hconc ▸ hc))
        · intro u hu hus
          exact h.undisc_sigma u hu (fun hc => hus (hconc ▸ hc))
        · intro u hu hus
          exact h.undisc_P u hu (fun hc => hus (hconc ▸ hc))
        · rw [hconc]
          exact h.sorted_sq
        · intro a ha b hb
          exact h.q_le a (hQsub a ha) b (hQsub b hb)
        · intro x hx u hu
          refine ⟨(h.graded x hx u hu).1, ?_⟩
          show u ∈ st.S ++ [v]
          exact List.mem_append_left _ (h.graded x hx u hu).2
        · exact h.nodup_P
        · exact h.consistent
        · intro u hu
          exact h.sigma_pos u (hconc ▸ hu)
        · intro hc
          simp at hc
        · intro _
          show s ∈ st.S ++ [v]
          by_cases hse : st.S = []
          · have := h.s_head hse
            rw [this] at hQ
            have hvs : v = s := by
              have := congrArg List.head? hQ
              simpa using this.symm
            rw [hse, hvs]
            simp
          · exact List.mem_append_left _ (h.s_in hse)
      have hm0 : MInv nodes adjm s v st.S (getD st.d v 0)
          ({ st with Q := Qrest, S := st.S ++ [v] } : BrandesState) := by
        refine ⟨hi0, rfl, rfl, ?_⟩
        intro x hx
        exact h.q_le x (hQsub x hx) v hvQ
      have hres := brandes_fold_inv nodes adjm s v st.S (getD st.d v 0)
        (adjGet adjm v) _ (hadj_nodup v)
        (fun w hw => ⟨hadj_sub v w hw, fun hc => hadj_ne v (hc ▸ hw)⟩)
        ?_ hm0
      · exact hres.inv
      · intro w hw hc
        have := (h.graded w (hadj_sub v w hw) v hc).2
        exact hvnotS this

/-- Successors of `v` in the shortest-path DAG recorded by the predecessor
table: the visited nodes whose predecessor list contains `v`. -/
def succL (P : List (String × List String)) (S : List String) (v : String) :
    List String :=
  S.filter (fun w => (getD P w []).contains v)

/-- Table of DAG path counts from `v`, built along the visit order: the
entry of `t` is 1 at `v` itself and otherwise the sum of the entries of its
predecessors. -/
def ntab (P : List (String × List String)) (S : List String) (v : String) :
    List (String × ℚ) :=
  S.foldl (fun tab t => setv tab t
    (if t == v then 1 else ((getD P t []).map (fun w => getD tab w 0)).sum)) []

/-- Number of DAG paths from `v` to `t`. -/
def npath (P : List (String × List String)) (S : List String) (v t : String) : ℚ :=
  getD (ntab P S v) t 0

theorem ntab_foldl_stable (P : List (String × List String)) (v : String)
    (S2 : List String) (tab : List (String × ℚ)) (u : String) (hu : u ∉ S2) :
    getD (S2.foldl (fun tab t => setv tab t
        (if t == v then 1 else ((getD P t []).map (fun w => getD tab w 0)).sum)) tab) u 0
      = getD tab u 0 := by
  induction S2 generalizing tab with
  | nil => rfl
  | cons t rest ih =>
    rw [List.foldl_cons]
    have hut : u ≠ t := fun hc => hu (hc ▸ List.mem_cons_self t rest)
    rw [ih _ (fun hc => hu (List.mem_cons_of_mem t hc)), getD_setv, if_neg hut]

theorem ntab_append (P : List (String × List String)) (v : String)
    (S1 S2 : List String) :
    ntab P (S1 ++ S2) v
      = S2.foldl (fun tab t => setv tab t
          (if t == v then 1 else ((getD P t []).map (fun w => getD tab w 0)).sum))
        (ntab P S1 v) := by
  unfold ntab
  rw [List.foldl_append]

theorem npath_nonneg (P : List (String × List String)) (S : List String)
    (v : String) : ∀ t, 0 ≤ npath P S v t := by
  suffices aux : ∀ (S2 : List String) (tab : List (String × ℚ)),
      (∀ x, 0 ≤ getD tab x 0) →
      ∀ t, 0 ≤ getD (S2.foldl (fun tab t => setv tab t
          (if t == v then 1 else ((getD P t []).map (fun w => getD tab w 0)).sum))
        tab) t 0 by
    intro t
    refine aux S [] ?_ t
    intro x
    show (0 : ℚ) ≤ getD [] x 0
    simp [getD, getv]
  intro S2
  induction S2 with
  | nil =>
    intro tab htab t
    exact htab t
  | cons x rest ih =>
    intro tab htab t
    rw [List.foldl_cons]
    refine ih _ ?_ t
    intro y
    rw [getD_setv]
    by_cases hyx : y = x
    · rw [if_pos hyx]
      by_cases hxv : (x == v) = true
      · rw [if_pos hxv]
        norm_num
      · rw [if_neg hxv]
        apply List.sum_nonneg
        intro q hq
        rcases List.mem_map.mp hq with ⟨w, _, rfl⟩
        exact htab w
    · rw [if_neg hyx]
      exact htab y

theorem npath_not_mem (P : List (String × List String)) (S : List String)
    (v t : String) (ht : t ∉ S) : npath P S v t = 0 := by
  unfold npath ntab
  rw [ntab_foldl_stable P v S [] t ht]
  simp [getD, getv]

theorem npath_unfold (P : List (String × List String)) (d : List (String × ℤ))
    (S : List String) (hnodup : S.Nodup)
    (hsorted : S.Pairwise (fun a b => getD d a 0 ≤ getD d b 0))
    (hgraded : ∀ w ∈ S, ∀ u ∈ getD P w [],
      getD d u 0 + 1 = getD d w 0 ∧ u ∈ S)
    (v t : String) (ht : t ∈ S) :
    npath P S v t = if t = v then 1
      else ((getD P t []).map (fun w => npath P S v w)).sum := by
  obtain ⟨S1, S2, rfl⟩ := List.append_of_mem ht
  have hnd := hnodup
  rw [List.nodup_append] at hnd
  have htS2 : t ∉ S2 := (List.nodup_cons.mp hnd.2.1).1
  have htS1 : t ∉ S1 := fun hc => hnd.2.2 hc (List.mem_cons_self t S2)
  unfold npath
  rw [ntab_append P v S1 (t :: S2), List.foldl_cons,
    ntab_foldl_stable P v S2 _ t htS2, getD_setv, if_pos rfl]
  by_cases htv : t = v
  · rw [if_pos (by simp [htv]), if_pos htv]
  · rw [if_neg (by simp [htv]), if_neg htv]
    refine congrArg List.sum (List.map_congr_left ?_)
    intro w hw
    have hg := hgraded t ht w hw
    have hwnet : w ≠ t := by
      intro hc
      have := hg.1
      rw [hc] at this
      omega
    have hwS1 : w ∈ S1 := by
      rcases List.mem_append.mp hg.2 with h | h
      · exact h
      · rcases List.mem_cons.mp h with h | h
        · exact absurd h hwnet
        · exfalso
          have h2 := (List.pairwise_append.mp hsorted).2.1
          have hrel := (List.pairwise_cons.mp h2).1 w h
          have := hg.1
          omega
    have hwS2 : w ∉ S2 := by
      intro hc
      exact hnd.2.2 hwS1 (List.mem_cons_of_mem t hc)
    rw [ntab_foldl_stable P v S2 _ w hwS2, getD_setv, if_neg hwnet]

theorem list_sum_mul_left (c : ℚ) {α : Type} (l : List α) (f : α → ℚ) :
    c * (l.map f).sum = (l.map (fun x => c * f x)).sum := by
  induction l with
  | nil => simp
  | cons x xs ih =>
    simp only [List.map_cons, List.sum_cons]
    rw [mul_add, ih]

theorem list_sum_div (c : ℚ) {α : Type} (l : List α) (f : α → ℚ) :
    (l.map f).sum / c = (l.map (fun x => f x / c)).sum := by
  induction l with
  | nil => simp
  | cons x xs ih =>
    simp only [List.map_cons, List.sum_cons]
    rw [add_div, ih]

theorem list_sum_map_add {β : Type} (B : List β) (g h : β → ℚ) :
    (B.map (fun b => g b + h b)).sum = (B.map g).sum + (B.map h).sum := by
  induction B with
  | nil => simp
  | cons y ys ih =>
    simp only [List.map_cons, List.sum_cons]
    rw [ih]
    ring

theorem list_sum_comm {α β : Type} (A : List α) (B : List β) (f : α → β → ℚ) :
    (A.map (fun a => (B.map (f a)).sum)).sum
      = (B.map (fun b => (A.map (fun a => f a b)).sum)).sum := by
  induction A with
  | nil =>
    simp
  | cons x xs ih =>
    simp only [List.map_cons, List.sum_cons]
    rw [ih, ← list_sum_map_add B (f x) (fun b => (xs.map (fun a => f a b)).sum)]

theorem list_sum_indicator {α : Type} [DecidableEq α] (l : List α) (v : α)
    (hnd : l.Nodup) :
    (l.map (fun u => if u = v then (1 : ℚ) else 0)).sum
      = if v ∈ l then 1 else 0 := by
  induction l with
  | nil => simp
  | cons x xs ih =>
    simp only [List.map_cons, List.sum_cons]
    rw [ih (List.Nodup.of_cons hnd)]
    by_cases hxv : x = v
    · subst hxv
      have hxs : x ∉ xs := (List.nodup_cons.mp hnd).1
      simp [hxs]
    · have : ¬ (v = x) := fun hc => hxv hc.symm
      simp [hxv, List.mem_cons, this]

/-- Static facts about the structures the Brandes BFS phase leaves behind,
as used by the accumulation analysis. -/
structure BStatic (S : List String) (P : List (String × List String))
    (sigma : List (String × ℚ)) (d : List (String × ℤ)) (s : String) : Prop where
  nodupS : S.Nodup
  sorted : S.Pairwise (fun a b => getD d a 0 ≤ getD d b 0)
  graded : ∀ w ∈ S, ∀ u ∈ getD P w [],
    getD d u 0 + 1 = getD d w 0 ∧ u ∈ S
  nodupP : ∀ w ∈ S, (getD P w []).Nodup
  consistent : ∀ w ∈ S, w ≠ s →
    getD sigma w 0 = ((getD P w []).map (fun u => getD sigma u 0)).sum
  sigma_pos : ∀ u ∈ S, 1 ≤ getD sigma u 0
  sP : getD P s [] = []
  sd : getD d s 0 = 0
  dpos : ∀ u ∈ S, 0 ≤ getD d u 0

theorem npath_sigma_le {S : List String} {P : List (String × List String)}
    {sigma : List (String × ℚ)} {d : List (String × ℤ)} {s : String}
    (hb : BStatic S P sigma d s) (v : String) (hv : v ∈ S) :
    ∀ t ∈ S, getD sigma v 0 * npath P S v t ≤ getD sigma t 0 := by
  have hmain : ∀ n : ℕ, ∀ t ∈ S, (getD d t 0).toNat = n →
      getD sigma v 0 * npath P S v t ≤ getD sigma t 0 := by
    intro n
    induction n using Nat.strong_induction_on with
    | _ n ih =>
      intro t htS hn
      rw [npath_unfold P d S hb.nodupS hb.sorted hb.graded v t htS]
      by_cases htv : t = v
      · rw [if_pos htv, mul_one, htv]
      · rw [if_neg htv]
        by_cases hts : t = s
        · rw [hts, hb.sP]
          simp only [List.map_nil, List.sum_nil, mul_zero]
          have := hb.sigma_pos s (hts ▸ htS)
          linarith
        · rw [list_sum_mul_left, hb.consistent t htS hts]
          refine List.sum_le_sum ?_
          intro w hw
          have hg := hb.graded t htS w hw
          have hd := hb.dpos w hg.2
          have hdn : (getD d w 0).toNat < n := by
            have := hg.1
            omega
          exact ih _ hdn w hg.2 rfl
  intro t htS
  exact hmain (getD d t 0).toNat t htS rfl

theorem npath_vanish {S : List String} {P : List (String × List String)}
    {sigma : List (String × ℚ)} {d : List (String × ℤ)} {s : String}
    (hb : BStatic S P sigma d s) (v : String) :
    ∀ t ∈ S, t ≠ v → getD d t 0 ≤ getD d v 0 → npath P S v t = 0 := by
  have hmain : ∀ n : ℕ, ∀ t ∈ S, (getD d t 0).toNat = n → t ≠ v →
      getD d t 0 ≤ getD d v 0 → npath P S v t = 0 := by
    intro n
    induction n using Nat.strong_induction_on with
    | _ n ih =>
      intro t htS hn htv htd
      rw [npath_unfold P d S hb.nodupS hb.sorted hb.graded v t htS, if_neg htv]
      refine List.sum_eq_zero ?_
      intro q hq
      rcases List.mem_map.mp hq with ⟨w, hw, rfl⟩
      have hg := hb.graded t htS w hw
      have hd := hb.dpos w hg.2
      have hdn : (getD d w 0).toNat < n := by
        have := hg.1
        omega
      have hwv : w ≠ v := by
        intro hc
        rw [hc] at hg
        omega
      exact ih _ hdn w hg.2 rfl hwv (by omega)
  intro t htS htv htd
  exact hmain (getD d t 0).toNat t htS rfl htv htd

theorem npath_self {S : List String} {P : List (String × List String)}
    {sigma : List (String × ℚ)} {d : List (String × ℤ)} {s : String}
    (hb : BStatic S P sigma d s) (v : String) (hv : v ∈ S) :
    npath P S v v = 1 := by
  rw [npath_unfold P d S hb.nodupS hb.sorted hb.graded v v hv, if_pos rfl]

theorem mem_succL (P : List (String × List String)) (S : List String)
    (v w : String) : w ∈ succL P S v ↔ w ∈ S ∧ v ∈ getD P w [] := by
  unfold succL
  rw [List.mem_filter]
  simp

theorem nodup_succL (P : List (String × List String)) (S : List String)
    (v : String) (h : S.Nodup) : (succL P S v).Nodup :=
  List.Nodup.filter _ h

theorem npath_first_step {S : List String} {P : List (String × List String)}
    {sigma : List (String × ℚ)} {d : List (String × ℤ)} {s : String}
    (hb : BStatic S P sigma d s) (v : String) (hv : v ∈ S) :
    ∀ t ∈ S, t ≠ v →
      ((succL P S v).map (fun w => npath P S w t)).sum ≤ npath P S v t := by
  have hsucc_d : ∀ w ∈ succL P S v, getD d v 0 + 1 = getD d w 0 ∧ w ∈ S := by
    intro w hw
    rcases (mem_succL P S v w).mp hw with ⟨hwS, hvP⟩
    exact ⟨(hb.graded w hwS v hvP).1, hwS⟩
  have hmain : ∀ n : ℕ, ∀ t ∈ S, (getD d t 0).toNat = n → t ≠ v →
      ((succL P S v).map (fun w => npath P S w t)).sum ≤ npath P S v t := by
    intro n
    induction n using Nat.strong_induction_on with
    | _ n ih =>
      intro t htS hn htv
      by_cases hc1 : getD d t 0 ≤ getD d v 0
      · -- below or at the level of v: everything vanishes
        rw [npath_vanish hb v t htS htv hc1]
        have hz : ((succL P S v).map (fun w => npath P S w t)).sum = 0 := by
          refine List.sum_eq_zero ?_
          intro q hq
          rcases List.mem_map.mp hq with ⟨w, hw, rfl⟩
          have hwf := hsucc_d w hw
          have htw : t ≠ w := by
            intro hc
            rw [← hc] at hwf
            omega
          exact npath_vanish hb w t htS htw (by omega)
        rw [hz]
      · by_cases hc2 : getD d t 0 = getD d v 0 + 1
        · -- exactly one level below v
          have hrhs : npath P S v t
              = if v ∈ getD P t [] then 1 else 0 := by
            rw [npath_unfold P d S hb.nodupS hb.sorted hb.graded v t htS,
              if_neg htv]
            have hmc : (getD P t []).map (fun w => npath P S v w)
                = (getD P t []).map (fun u => if u = v then (1 : ℚ) else 0) := by
              refine List.map_congr_left ?_
              intro u hu
              have hg := hb.graded t htS u hu
              by_cases huv : u = v
              · rw [if_pos huv, huv]
                exact npath_self hb v hv
              · rw [if_neg huv]
                exact npath_vanish hb v u hg.2 huv (by omega)
            rw [hmc, list_sum_indicator _ v (hb.nodupP t htS)]
          have hlhs : ((succL P S v).map (fun w => npath P S w t)).sum
              = if v ∈ getD P t [] then 1 else 0 := by
            have hmc : (succL P S v).map (fun w => npath P S w t)
                = (succL P S v).map (fun w => if w = t then (1 : ℚ) else 0) := by
              refine List.map_congr_left ?_
              intro w hw
              have hwf := hsucc_d w hw
              by_cases hwt : w = t
              · rw [if_pos hwt, hwt]
                exact npath_self hb t htS
              · rw [if_neg hwt]
                have htw : t ≠ w := fun hc => hwt hc.symm
                exact npath_vanish hb w t htS htw (by omega)
            rw [hmc, list_sum_indicator _ t (nodup_succL P S v hb.nodupS)]
            by_cases hmem : v ∈ getD P t []
            · rw [if_pos hmem, if_pos ((mem_succL P S v t).mpr ⟨htS, hmem⟩)]
            · rw [if_neg hmem, if_neg (fun hc =>
                hmem ((mem_succL P S v t).mp hc).2)]
          rw [hlhs, hrhs]
        · -- strictly deeper: decompose through the predecessors of t
          have hdt : getD d v 0 + 1 < getD d t 0 := by omega
          rw [npath_unfold P d S hb.nodupS hb.sorted hb.graded v t htS,
            if_neg htv]
          have hstep : (succL P S v).map (fun w => npath P S w t)
              = (succL P S v).map (fun w =>
                  ((getD P t []).map (fun u => npath P S w u)).sum) := by
            refine List.map_congr_left ?_
            intro w hw
            have hwf := hsucc_d w hw
            have htw : ¬ (t = w) := by
              intro hc
              rw [← hc] at hwf
              omega
            rw [npath_unfold P d S hb.nodupS hb.sorted hb.graded w t htS,
              if_neg htw]
          rw [hstep, list_sum_comm]
          refine List.sum_le_sum ?_
          intro u hu
          have hg := hb.graded t htS u hu
          have huv : u ≠ v := by
            intro hc
            rw [hc] at hg
            omega
          have hdn : (getD d u 0).toNat < n := by
            have h1 := hg.1
            have h2 := hb.dpos u hg.2
            omega
          exact ih _ hdn u hg.2 rfl huv
  intro t htS htv
  exact hmain (getD d t 0).toNat t htS rfl htv

/-- The static bound on the accumulated dependency of `v`: path-weighted
mass over all other visited nodes. -/
def phi (P : List (String × List String)) (sigma : List (String × ℚ))
    (S : List String) (v : String) : ℚ :=
  ((S.filter (fun t => !(t == v))).map
    (fun t => getD sigma v 0 * npath P S v t / getD sigma t 0)).sum

theorem sum_filter_extract (S : List String) (hnd : S.Nodup) (y x : String)
    (hx : x ∈ S) (hxy : x ≠ y) (g : String → ℚ) :
    ((S.filter (fun t => !(t == y))).map g).sum
      = g x + ((S.filter (fun t => (!(t == y)) && (!(t == x)))).map g).sum := by
  have hxF : x ∈ S.filter (fun t => !(t == y)) := by
    rw [List.mem_filter]
    exact ⟨hx, by simp [hxy]⟩
  have hperm := List.perm_cons_erase hxF
  have hsum : ((S.filter (fun t => !(t == y))).map g).sum
      = ((x :: (S.filter (fun t => !(t == y))).erase x).map g).sum :=
    List.Perm.sum_eq (List.Perm.map g hperm)
  rw [hsum, List.map_cons, List.sum_cons]
  congr 1
  have hndF : (S.filter (fun t => !(t == y))).Nodup := List.Nodup.filter _ hnd
  rw [List.Nodup.erase_eq_filter hndF x, List.filter_filter]
  refine congrArg _ (congrArg _ (List.filter_congr ?_))
  intro a _
  simp only [bne]
  exact Bool.and_comm _ _

theorem list_sum_indicator_count (l : List String) (p : String → Prop)
    [DecidablePred p] :
    (l.map (fun t => if p t then (1 : ℚ) else 0)).sum
      = ((l.filter (fun t => decide (p t))).length : ℚ) := by
  induction l with
  | nil => simp
  | cons x xs ih =>
    simp only [List.map_cons, List.sum_cons, List.filter_cons]
    by_cases hp : p x
    · rw [if_pos hp, ih]
      have hd : decide (p x) = true := by simpa using hp
      rw [hd, if_pos rfl, List.length_cons]
      push_cast
      ring
    · rw [if_neg hp, ih]
      have hd : decide (p x) = false := by simpa using hp
      rw [hd]
      simp

theorem phi_nonneg {S : List String} {P : List (String × List String)}
    {sigma : List (String × ℚ)} {d : List (String × ℤ)} {s : String}
    (hb : BStatic S P sigma d s) (v : String) (hv : v ∈ S) :
    0 ≤ phi P sigma S v := by
  refine List.sum_nonneg ?_
  intro q hq
  rcases List.mem_map.mp hq with ⟨t, ht, rfl⟩
  have htS := List.mem_of_mem_filter ht
  have h1 := hb.sigma_pos v hv
  have h2 := hb.sigma_pos t htS
  have h3 := npath_nonneg P S v t
  positivity

theorem phi_supersolution {S : List String} {P : List (String × List String)}
    {sigma : List (String × ℚ)} {d : List (String × ℤ)} {s : String}
    (hb : BStatic S P sigma d s) (v : String) (hv : v ∈ S) :
    ((succL P S v).map (fun w =>
        getD sigma v 0 / getD sigma w 0 * (1 + phi P sigma S w))).sum
      ≤ phi P sigma S v := by
  have hstep1 : ((S.filter (fun t => !(t == v))).map (fun t =>
      ((succL P S v).map (fun w =>
          getD sigma v 0 * npath P S w t / getD sigma t 0)).sum)).sum
        ≤ phi P sigma S v := by
    unfold phi
    refine List.sum_le_sum ?_
    intro t ht
    have htS := List.mem_of_mem_filter ht
    have htv : t ≠ v := by
      have := List.of_mem_filter ht
      simpa using this
    have hfs := npath_first_step hb v hv t htS htv
    have hpos : (0 : ℚ) < getD sigma t 0 := by
      have := hb.sigma_pos t htS
      linarith
    have hsv0 : (0 : ℚ) ≤ getD sigma v 0 := by
      have := hb.sigma_pos v hv
      linarith
    rw [← list_sum_div, ← list_sum_mul_left]
    rw [div_le_div_iff_of_pos_right hpos]
    exact mul_le_mul_of_nonneg_left hfs hsv0
  refine le_trans (le_of_eq ?_) hstep1
  rw [list_sum_comm]
  refine congrArg List.sum (List.map_congr_left ?_)
  intro w hw
  rcases (mem_succL P S v w).mp hw with ⟨hwS, hvP⟩
  have hwd := (hb.graded w hwS v hvP).1
  have hwv : w ≠ v := by
    intro hc
    rw [hc] at hwd
    omega
  have hws : w ≠ s := by
    intro hc
    rw [hc, hb.sP] at hvP
    cases hvP
  have hsw1 : (1 : ℚ) ≤ getD sigma w 0 := hb.sigma_pos w hwS
  have hsw0 : getD sigma w 0 ≠ 0 := by linarith
  have hsv1 : (1 : ℚ) ≤ getD sigma v 0 := hb.sigma_pos v hv
  have hsv0 : getD sigma v 0 ≠ 0 := by linarith
  -- expand the right-hand side through phi w
  have hphiw : getD sigma v 0 / getD sigma w 0 * (1 + phi P sigma S w)
      = getD sigma v 0 / getD sigma w 0
        + ((S.filter (fun t => (!(t == w)) && (!(t == v)))).map (fun t =>
            getD sigma v 0 * npath P S w t / getD sigma t 0)).sum := by
    unfold phi
    rw [mul_add, mul_one]
    congr 1
    rw [list_sum_mul_left]
    rw [sum_filter_extract S hb.nodupS w v hv (fun hc => hwv hc.symm)]
    have hzero : getD sigma v 0 / getD sigma w 0
        * (getD sigma w 0 * npath P S w v / getD sigma v 0) = 0 := by
      rw [npath_vanish hb w v hv (Ne.symm hwv) (by omega)]
      ring
    rw [hzero, zero_add]
    refine congrArg List.sum (List.map_congr_left ?_)
    intro t _
    rw [← mul_div_assoc, ← mul_assoc, div_mul_cancel₀ _ hsw0]
  rw [hphiw]
  -- expand the left-hand side by extracting the t = w term
  rw [sum_filter_extract S hb.nodupS v w hwS hwv]
  congr 1
  · rw [npath_self hb w hwS, mul_one]
  · refine congrArg List.sum (congrArg _ (List.filter_congr ?_))
    intro a _
    exact Bool.and_comm _ _

theorem phi_le_count {S : List String} {P : List (String × List String)}
    {sigma : List (String × ℚ)} {d : List (String × ℤ)} {s : String}
    (hb : BStatic S P sigma d s) (v : String) (hv : v ∈ S) :
    phi P sigma S v
      ≤ ((S.filter (fun t => decide (getD d v 0 < getD d t 0))).length : ℚ) := by
  unfold phi
  have hstep : ((S.filter (fun t => !(t == v))).map (fun t =>
      getD sigma v 0 * npath P S v t / getD sigma t 0)).sum
      ≤ ((S.filter (fun t => !(t == v))).map (fun t =>
          if getD d v 0 < getD d t 0 then (1 : ℚ) else 0)).sum := by
    refine List.sum_le_sum ?_
    intro t ht
    have htS := List.mem_of_mem_filter ht
    have htv : t ≠ v := by
      have := List.of_mem_filter ht
      simpa using this
    have hpos : (0 : ℚ) < getD sigma t 0 := by
      have := hb.sigma_pos t htS
      linarith
    by_cases hdd : getD d v 0 < getD d t 0
    · rw [if_pos hdd]
      rw [div_le_one hpos]
      exact npath_sigma_le hb v hv t htS
    · rw [if_neg hdd]
      rw [npath_vanish hb v t htS htv (by omega)]
      simp
  refine le_trans hstep ?_
  rw [list_sum_indicator_count, List.filter_filter]
  have h1 : S.filter (fun a =>
        (decide (getD d v 0 < getD d a 0)) && (!(a == v)))
      = (S.filter (fun t => decide (getD d v 0 < getD d t 0))).filter
          (fun a => !(a == v)) := by
    rw [List.filter_filter]
    refine List.filter_congr ?_
    intro a _
    exact (Bool.and_comm _ _).symm
  rw [h1]
  exact_mod_cast List.length_filter_le _ _

theorem count_le_length_sub_two (S : List String) (d : List (String × ℤ))
    (hnd : S.Nodup) (v s : String) (hv : v ∈ S) (hs : s ∈ S) (hvs : v ≠ s)
    (hd0 : 0 ≤ getD d v 0) (hds : getD d s 0 = 0) :
    ((S.filter (fun t => decide (getD d v 0 < getD d t 0))).length : ℚ)
      ≤ (S.length : ℚ) - 2 := by
  have hsub : S.filter (fun t => decide (getD d v 0 < getD d t 0))
      ⊆ (S.erase v).erase s := by
    intro t ht
    have htS := List.mem_of_mem_filter ht
    have hcond : getD d v 0 < getD d t 0 := by
      have := List.of_mem_filter ht
      simpa using this
    have htv : t ≠ v := by
      intro hc
      rw [hc] at hcond
      omega
    have hts : t ≠ s := by
      intro hc
      rw [hc, hds] at hcond
      omega
    rw [List.mem_erase_of_ne hts, List.mem_erase_of_ne htv]
    exact htS
  have hlen := nodup_subset_length_le (List.Nodup.filter _ hnd) hsub
  have h1 : (S.erase v).length = S.length - 1 := List.length_erase_of_mem hv
  have hsev : s ∈ S.erase v := (List.mem_erase_of_ne (Ne.symm hvs)).mpr hs
  have h2 : ((S.erase v).erase s).length = (S.erase v).length - 1 :=
    List.length_erase_of_mem hsev
  have h3 : 0 < (S.erase v).length := List.length_pos.mpr (List.ne_nil_of_mem hsev)
  have h4 : 2 ≤ S.length := by omega
  have h5 : (S.filter (fun t => decide (getD d v 0 < getD d t 0))).length
      ≤ S.length - 2 := by omega
  calc ((S.filter (fun t => decide (getD d v 0 < getD d t 0))).length : ℚ)
      ≤ ((S.length - 2 : ℕ) : ℚ) := by exact_mod_cast h5
    _ = (S.length : ℚ) - 2 := by
        rw [Nat.cast_sub h4]
        norm_num

/-- Partial accumulation bound: the mass `x` can have received from the
already-processed prefix of the reverse visit order. -/
def dpartial (P : List (String × List String)) (sigma : List (String × ℚ))
    (S : List String) (pre : List String) (x : String) : ℚ :=
  ((pre.filter (fun w => (getD P w []).contains x)).map
    (fun w => getD sigma x 0 / getD sigma w 0 * (1 + phi P sigma S w))).sum

theorem dpartial_append_one (P : List (String × List String))
    (sigma : List (String × ℚ)) (S : List String) (pre : List String)
    (w x : String) :
    dpartial P sigma S (pre ++ [w]) x
      = dpartial P sigma S pre x
        + (if (getD P w []).contains x
           then getD sigma x 0 / getD sigma w 0 * (1 + phi P sigma S w) else 0) := by
  unfold dpartial
  rw [List.filter_append, List.map_append, List.sum_append]
  congr 1
  by_cases hm : x ∈ getD P w []
  · rw [if_pos (by simpa using hm)]
    simp [hm]
  · rw [if_neg (by simpa using hm)]
    simp [hm]

theorem dpartial_le_phi {S : List String} {P : List (String × List String)}
    {sigma : List (String × ℚ)} {d : List (String × ℤ)} {s : String}
    (hb : BStatic S P sigma d s) (pre : List String)
    (hpre : pre <+: S.reverse) (w : String) (hw : w ∈ S) :
    dpartial P sigma S pre w ≤ phi P sigma S w := by
  have hfull : dpartial P sigma S S.reverse w
      = ((succL P S w).map (fun w2 =>
          getD sigma w 0 / getD sigma w2 0 * (1 + phi P sigma S w2))).sum := by
    unfold dpartial succL
    rw [List.filter_reverse, List.map_reverse, List.sum_reverse]
  have hsub : dpartial P sigma S pre w ≤ dpartial P sigma S S.reverse w := by
    unfold dpartial
    refine List.Sublist.sum_le_sum
      (List.Sublist.map _ (List.Sublist.filter _ hpre.sublist)) ?_
    intro a ha
    rcases List.mem_map.mp ha with ⟨w2, hw2, rfl⟩
    have hw2S : w2 ∈ S := by
      have := List.mem_of_mem_filter hw2
      rw [List.mem_reverse] at this
      exact this
    have h1 := hb.sigma_pos w hw
    have h2 := hb.sigma_pos w2 hw2S
    have h3 := phi_nonneg hb w2 hw2S
    positivity
  rw [hfull] at hsub
  exact le_trans hsub (phi_supersolution hb w hw)

theorem inner_fold_getD (sigma : List (String × ℚ)) (w : String)
    (Pw : List String) (hnw : w ∉ Pw) (hnd : Pw.Nodup)
    (dl0 : List (String × ℚ)) :
    ∀ x, getD (Pw.foldl (fun dl v =>
        bump dl v ((getD sigma v 0 / getD sigma w 0) * (1 + getD dl w 0))) dl0) x 0
      = getD dl0 x 0
        + (if x ∈ Pw
           then getD sigma x 0 / getD sigma w 0 * (1 + getD dl0 w 0) else 0) := by
  induction Pw generalizing dl0 with
  | nil =>
    intro x
    simp
  | cons v rest ih =>
    intro x
    rw [List.foldl_cons]
    have hwv : w ≠ v := fun hc => hnw (hc ▸ List.mem_cons_self v rest)
    have hwrest : w ∉ rest := fun hc => hnw (List.mem_cons_of_mem v hc)
    have hvrest : v ∉ rest := (List.nodup_cons.mp hnd).1
    have hdl1w : getD (bump dl0 v
        ((getD sigma v 0 / getD sigma w 0) * (1 + getD dl0 w 0))) w 0
        = getD dl0 w 0 := by
      rw [getD_bump, if_neg hwv]
    rw [ih hwrest (List.Nodup.of_cons hnd)
      (bump dl0 v ((getD sigma v 0 / getD sigma w 0) * (1 + getD dl0 w 0))) x,
      hdl1w, getD_bump]
    by_cases hxv : x = v
    · subst hxv
      rw [if_pos rfl]
      have hxrest : ¬ (x ∈ rest) := hvrest
      rw [if_neg hxrest, if_pos (List.mem_cons_self x rest)]
      ring
    · rw [if_neg hxv]
      by_cases hxrest : x ∈ rest
      · rw [if_pos hxrest, if_pos (List.mem_cons_of_mem v hxrest)]
      · rw [if_neg hxrest]
        have hxc : ¬ (x ∈ v :: rest) := by
          intro hc
          rcases List.mem_cons.mp hc with hc | hc
          · exact hxv hc
          · exact hxrest hc
        rw [if_neg hxc]

theorem acc_fold_aux {S : List String} {P : List (String × List String)}
    {sigma : List (String × ℚ)} {d : List (String × ℤ)} {s : String}
    (hb : BStatic S P sigma d s) :
    ∀ (rest pre : List String) (delta btw : List (String × ℚ)),
      pre ++ rest = S.reverse →
      (∀ x, 0 ≤ getD delta x 0) →
      (∀ x, getD delta x 0 ≤ dpartial P sigma S pre x) →
      ∀ y, getD btw y 0
          ≤ getD (rest.foldl
              (fun (acc : List (String × ℚ) × List (String × ℚ)) w =>
                let delta := (getD P w []).foldl (fun dl v =>
                    bump dl v ((getD sigma v 0 / getD sigma w 0)
                      * (1 + getD dl w 0))) acc.1
                let btw := if w != s then bump acc.2 w (getD delta w 0) else acc.2
                (delta, btw)) (delta, btw)).2 y 0
        ∧ getD (rest.foldl
              (fun (acc : List (String × ℚ) × List (String × ℚ)) w =>
                let delta := (getD P w []).foldl (fun dl v =>
                    bump dl v ((getD sigma v 0 / getD sigma w 0)
                      * (1 + getD dl w 0))) acc.1
                let btw := if w != s then bump acc.2 w (getD delta w 0) else acc.2
                (delta, btw)) (delta, btw)).2 y 0
          ≤ getD btw y 0
            + (if y ∈ rest ∧ y ≠ s then phi P sigma S y else 0) := by
  intro rest
  induction rest with
  | nil =>
    intro pre delta btw hsplit hd0 hdp y
    refine ⟨le_refl _, ?_⟩
    simp
  | cons w rest ih =>
    intro pre delta btw hsplit hd0 hdp y
    rw [List.foldl_cons]
    dsimp only
    have hwL : w ∈ S.reverse := by
      rw [← hsplit]
      exact List.mem_append_right _ (List.mem_cons_self w rest)
    have hwS : w ∈ S := List.mem_reverse.mp hwL
    have hnodupL : (pre ++ w :: rest).Nodup := by
      rw [hsplit]
      exact List.nodup_reverse.mpr hb.nodupS
    have hwrest : w ∉ rest := by
      rcases List.nodup_append.mp hnodupL with ⟨-, h2, -⟩
      exact (List.nodup_cons.mp h2).1
    have hmemS : ∀ y2 ∈ w :: rest, y2 ∈ S := by
      intro y2 hy2
      rw [← List.mem_reverse, ← hsplit]
      exact List.mem_append_right _ hy2
    have hPw_nodup := hb.nodupP w hwS
    have hwnotPw : w ∉ getD P w [] := by
      intro hc
      have := (hb.graded w hwS w hc).1
      omega
    have hdelta1 := inner_fold_getD sigma w (getD P w []) hwnotPw hPw_nodup delta
    have hpre : pre <+: S.reverse := ⟨w :: rest, hsplit⟩
    have hdw_le : getD delta w 0 ≤ phi P sigma S w :=
      le_trans (hdp w) (dpartial_le_phi hb pre hpre w hwS)
    have hsw : (0 : ℚ) < getD sigma w 0 := by
      have := hb.sigma_pos w hwS
      linarith
    have hd1_0 : ∀ x, 0 ≤ getD ((getD P w []).foldl (fun dl v =>
        bump dl v ((getD sigma v 0 / getD sigma w 0) * (1 + getD dl w 0)))
        delta) x 0 := by
      intro x
      rw [hdelta1 x]
      have hterm : 0 ≤ (if x ∈ getD P w []
          then getD sigma x 0 / getD sigma w 0 * (1 + getD delta w 0) else 0) := by
        by_cases hm : x ∈ getD P w []
        · rw [if_pos hm]
          have hxS : x ∈ S := (hb.graded w hwS x hm).2
          have hsx : (0 : ℚ) ≤ getD sigma x 0 := by
            have := hb.sigma_pos x hxS
            linarith
          have hdw0 := hd0 w
          have h1 : (0 : ℚ) ≤ 1 + getD delta w 0 := by linarith
          positivity
        · rw [if_neg hm]
      have := hd0 x
      linarith
    have hd1_p : ∀ x, getD ((getD P w []).foldl (fun dl v =>
        bump dl v ((getD sigma v 0 / getD sigma w 0) * (1 + getD dl w 0)))
        delta) x 0 ≤ dpartial P sigma S (pre ++ [w]) x := by
      intro x
      rw [hdelta1 x, dpartial_append_one]
      refine add_le_add (hdp x) ?_
      by_cases hm : x ∈ getD P w []
      · rw [if_pos hm, if_pos (by simpa using hm)]
        have hxS : x ∈ S := (hb.graded w hwS x hm).2
        have hsx : (0 : ℚ) ≤ getD sigma x 0 := by
          have := hb.sigma_pos x hxS
          linarith
        refine mul_le_mul_of_nonneg_left (by linarith) ?_
        positivity
      · rw [if_neg hm, if_neg (by simpa using hm)]
    have hd1w : getD ((getD P w []).foldl (fun dl v =>
        bump dl v ((getD sigma v 0 / getD sigma w 0) * (1 + getD dl w 0)))
        delta) w 0 = getD delta w 0 := by
      rw [hdelta1 w, if_neg hwnotPw]
      ring
    have hsplit' : (pre ++ [w]) ++ rest = S.reverse := by
      rw [List.append_assoc]
      exact hsplit
    by_cases hws : w = s
    · -- the source itself: betweenness is not bumped
      have hbne : (w != s) = false := by simp [bne, hws]
      rw [hbne, if_neg Bool.false_ne_true]
      have hrec := ih (pre ++ [w]) _ btw hsplit' hd1_0 hd1_p y
      refine ⟨hrec.1, le_trans hrec.2 ?_⟩
      refine add_le_add (le_refl _) ?_
      by_cases hy : y ∈ rest ∧ y ≠ s
      · rw [if_pos hy, if_pos ⟨List.mem_cons_of_mem w hy.1, hy.2⟩]
      · rw [if_neg hy]
        by_cases hy2 : y ∈ w :: rest ∧ y ≠ s
        · rw [if_pos hy2]
          exact phi_nonneg hb y (hmemS y hy2.1)
        · rw [if_neg hy2]
    · -- a non-source node: its final dependency lands in the table
      have hbne : (w != s) = true := by simp [bne, hws]
      rw [hbne, if_pos rfl, hd1w]
      have hrec := ih (pre ++ [w]) _ (bump btw w (getD delta w 0))
        hsplit' hd1_0 hd1_p y
      have hbw : getD (bump btw w (getD delta w 0)) y 0
          = if y = w then getD btw y 0 + getD delta w 0 else getD btw y 0 :=
        getD_bump _ _ _ _
      constructor
      · refine le_trans ?_ hrec.1
        rw [hbw]
        by_cases hyw : y = w
        · rw [if_pos hyw]
          have := hd0 w
          linarith
        · rw [if_neg hyw]
      · refine le_trans hrec.2 ?_
        rw [hbw]
        by_cases hyw : y = w
        · rw [if_pos hyw]
          have hynr : ¬ (y ∈ rest ∧ y ≠ s) := by
            intro hc
            exact hwrest (hyw ▸ hc.1)
          rw [if_neg hynr, if_pos ⟨hyw ▸ List.mem_cons_self w rest, hyw ▸ hws⟩,
            hyw]
          linarith
        · rw [if_neg hyw]
          refine add_le_add (le_refl _) ?_
          by_cases hy : y ∈ rest ∧ y ≠ s
          · rw [if_pos hy, if_pos ⟨List.mem_cons_of_mem w hy.1, hy.2⟩]
          · rw [if_neg hy]
            by_cases hy2 : y ∈ w :: rest ∧ y ≠ s
            · rw [if_pos hy2]
              exact phi_nonneg hb y (hmemS y hy2.1)
            · rw [if_neg hy2]

theorem brandes_accumulate_bound {S : List String}
    {P : List (String × List String)} {sigma : List (String × ℚ)}
    {d : List (String × ℤ)} {s : String} (hb : BStatic S P sigma d s)
    (nodes : List String) (btw : List (String × ℚ)) :
    ∀ y, getD btw y 0 ≤ getD (brandes_accumulate P sigma nodes S s btw) y 0
      ∧ getD (brandes_accumulate P sigma nodes S s btw) y 0
        ≤ getD btw y 0 + (if y ∈ S ∧ y ≠ s then phi P sigma S y else 0) := by
  intro y
  have hd0 : ∀ x, 0 ≤ getD (nodes.map (fun v => (v, (0 : ℚ)))) x 0 := by
    intro x
    rw [getD_map_const]
    by_cases h : x ∈ nodes <;> simp [h]
  have hdp : ∀ x, getD (nodes.map (fun v => (v, (0 : ℚ)))) x 0
      ≤ dpartial P sigma S [] x := by
    intro x
    rw [getD_map_const]
    have : dpartial P sigma S [] x = 0 := rfl
    rw [this]
    by_cases h : x ∈ nodes <;> simp [h]
  have haux := acc_fold_aux hb S.reverse [] (nodes.map (fun v => (v, (0 : ℚ))))
    btw (by simp) hd0 hdp y
  constructor
  · exact haux.1
  · refine le_trans haux.2 ?_
    refine add_le_add (le_refl _) (le_of_eq ?_)
    by_cases h : y ∈ S ∧ y ≠ s
    · rw [if_pos ⟨List.mem_reverse.mpr h.1, h.2⟩, if_pos h]
    · rw [if_neg (fun hc => h ⟨List.mem_reverse.mp hc.1, hc.2⟩), if_neg h]

theorem BStatic_of_BInv (nodes : List String) (adjm : AdjMap) (s : String)
    (st : BrandesState) (h : BInv nodes adjm s st) :
    BStatic st.S st.P st.sigma st.d s := by
  refine ⟨(List.nodup_append.mp h.nodup_sq).1,
    (List.pairwise_append.mp h.sorted_sq).1, ?_, ?_, ?_, ?_, h.s_P, h.s_d, ?_⟩
  · intro w hw u hu
    exact h.graded w (h.sub_sq w (List.mem_append_left _ hw)) u hu
  · intro w hw
    exact h.nodup_P w (h.sub_sq w (List.mem_append_left _ hw))
  · intro w hw hws
    exact h.consistent w (h.sub_sq w (List.mem_append_left _ hw)) hws
  · intro u hu
    exact h.sigma_pos u (List.mem_append_left _ hu)
  · intro u hu
    exact h.disc_d u (List.mem_append_left _ hu)

theorem nodup_adjGet_adjInsert (m : AdjMap) (a b : String)
    (hm : ∀ x, (adjGet m x).Nodup) : ∀ x, (adjGet (adjInsert m a b) x).Nodup := by
  intro x
  rw [adjGet_adjInsert]
  by_cases hx : x = a
  · rw [if_pos hx]
    by_cases hc : (adjGet m a).contains b = true
    · rw [if_pos hc]
      exact hm a
    · rw [if_neg hc]
      rw [List.nodup_append]
      refine ⟨hm a, List.nodup_singleton b, ?_⟩
      intro q hq hqb
      have hqb2 : q = b := by simpa using hqb
      have hbm : b ∉ adjGet m a := by simpa using hc
      exact hbm (hqb2 ▸ hq)
  · rw [if_neg hx]
    exact hm x

theorem nodup_adjGet_build (es : WMap) :
    ∀ u, (adjGet (build_adj_list es) u).Nodup := by
  suffices aux : ∀ (es : WMap) (m : AdjMap), (∀ x, (adjGet m x).Nodup) →
      ∀ u, (adjGet (es.foldl (fun m e =>
        adjInsert (adjInsert m e.1.1 e.1.2) e.1.2 e.1.1) m) u).Nodup by
    intro u
    refine aux es [] ?_ u
    intro x
    show (getD ([] : AdjMap) x []).Nodup
    simp [getD, getv]
  intro es
  induction es with
  | nil =>
    intro m hm u
    exact hm u
  | cons e rest ih =>
    intro m hm u
    rw [List.foldl_cons]
    exact ih _ (nodup_adjGet_adjInsert _ _ _
      (nodup_adjGet_adjInsert _ _ _ hm)) u

theorem keys_acc_fold (P : List (String × List String))
    (sigma : List (String × ℚ)) (s : String) :
    ∀ (rest : List String) (delta btw : List (String × ℚ)),
      (∀ w ∈ rest, w ∈ keys btw) →
      keys ((rest.foldl
          (fun (acc : List (String × ℚ) × List (String × ℚ)) w =>
            let delta := (getD P w []).foldl (fun dl v =>
                bump dl v ((getD sigma v 0 / getD sigma w 0)
                  * (1 + getD dl w 0))) acc.1
            let btw := if w != s then bump acc.2 w (getD delta w 0) else acc.2
            (delta, btw)) (delta, btw)).2) = keys btw := by
  intro rest
  induction rest with
  | nil =>
    intro delta btw _
    rfl
  | cons w rest ih =>
    intro delta btw hmem
    rw [List.foldl_cons]
    dsimp only
    by_cases hws : (w != s) = true
    · rw [hws, if_pos rfl]
      rw [ih _ _ ?_]
      · rw [keys_bump, if_pos (hmem w (List.mem_cons_self w rest))]
      · intro w2 hw2
        rw [keys_bump, if_pos (hmem w (List.mem_cons_self w rest))]
        exact hmem w2 (List.mem_cons_of_mem w hw2)
    · rw [Bool.not_eq_true] at hws
      rw [hws, if_neg Bool.false_ne_true]
      exact ih _ _ (fun w2 hw2 => hmem w2 (List.mem_cons_of_mem w hw2))

theorem keys_brandes_accumulate (P : List (String × List String))
    (sigma : List (String × ℚ)) (nodes S : List String) (s : String)
    (btw : List (String × ℚ)) (hS : ∀ w ∈ S, w ∈ keys btw) :
    keys (brandes_accumulate P sigma nodes S s btw) = keys btw := by
  unfold brandes_accumulate
  exact keys_acc_fold P sigma s S.reverse _ btw
    (fun w hw => hS w (List.mem_reverse.mp hw))

/-- One source pass of `brandes_betweenness`, named for reasoning. -/
def brandes_one_source (nodes : List String) (adjm : AdjMap)
    (btw : List (String × ℚ)) (s : String) : List (String × ℚ) :=
  let st0 : BrandesState :=
    { d := setv (nodes.map (fun v => (v, (-1 : ℤ)))) s 0
      sigma := setv (nodes.map (fun v => (v, (0 : ℚ)))) s 1
      P := nodes.map (fun v => (v, ([] : List String)))
      Q := [s]
      S := [] }
  let st := brandes_visit adjm (nodes.length + 1) st0
  brandes_accumulate st.P st.sigma nodes st.S s btw

theorem brandes_betweenness_eq (nodes : List String) (adjm : AdjMap) :
    brandes_betweenness nodes adjm
      = nodes.foldl (fun btw s => brandes_one_source nodes adjm btw s)
          (nodes.map (fun v => (v, 0))) := rfl

theorem brandes_one_source_bound (nodes : List String) (adjm : AdjMap)
    (hnodes : nodes.Nodup)
    (hadj_nodup : ∀ u, (adjGet adjm u).Nodup)
    (hadj_sub : ∀ u, ∀ w ∈ adjGet adjm u, w ∈ nodes)
    (hadj_ne : ∀ u, u ∉ adjGet adjm u)
    (s : String) (hs : s ∈ nodes) (btw : List (String × ℚ)) :
    ∀ y, getD btw y 0 ≤ getD (brandes_one_source nodes adjm btw s) y 0
      ∧ getD (brandes_one_source nodes adjm btw s) y 0
        ≤ getD btw y 0 + (if y = s then 0 else max 0 ((nodes.length : ℚ) - 2)) := by
  intro y
  have hinv := brandes_visit_inv nodes adjm s hadj_nodup hadj_sub hadj_ne
    (nodes.length + 1) _ (BInv_init nodes adjm s hnodes hs)
  have hbs := BStatic_of_BInv nodes adjm s _ hinv
  have hacc := brandes_accumulate_bound hbs nodes btw y
  refine ⟨hacc.1, le_trans hacc.2 ?_⟩
  refine add_le_add (le_refl _) ?_
  set st := brandes_visit adjm (nodes.length + 1)
    { d := setv (nodes.map (fun v => (v, (-1 : ℤ)))) s 0
      sigma := setv (nodes.map (fun v => (v, (0 : ℚ)))) s 1
      P := nodes.map (fun v => (v, ([] : List String)))
      Q := [s]
      S := [] }
  by_cases hcond : y ∈ st.S ∧ y ≠ s
  · rw [if_pos hcond, if_neg hcond.2]
    have hsS : s ∈ st.S := hinv.s_in (List.ne_nil_of_mem hcond.1)
    have h1 := phi_le_count hbs y hcond.1
    have h2 := count_le_length_sub_two st.S st.d hbs.nodupS y s hcond.1 hsS
      hcond.2 (hbs.dpos y hcond.1) hbs.sd
    have hSlen : st.S.length ≤ nodes.length :=
      nodup_subset_length_le hbs.nodupS
        (fun u hu => hinv.sub_sq u (List.mem_append_left _ hu))
    have h3 : (st.S.length : ℚ) - 2 ≤ (nodes.length : ℚ) - 2 := by
      have hc : (st.S.length : ℚ) ≤ (nodes.length : ℚ) := by exact_mod_cast hSlen
      linarith
    calc phi st.P st.sigma st.S y
        ≤ ((st.S.filter (fun t => decide (getD st.d y 0 < getD st.d t 0))).length : ℚ) := h1
      _ ≤ (st.S.length : ℚ) - 2 := h2
      _ ≤ (nodes.length : ℚ) - 2 := h3
      _ ≤ max 0 ((nodes.length : ℚ) - 2) := le_max_right _ _
  · rw [if_neg hcond]
    by_cases hys : y = s
    · rw [if_pos hys]
    · rw [if_neg hys]
      exact le_max_left 0 _

theorem keys_brandes_one_source (nodes : List String) (adjm : AdjMap)
    (hnodes : nodes.Nodup)
    (hadj_nodup : ∀ u, (adjGet adjm u).Nodup)
    (hadj_sub : ∀ u, ∀ w ∈ adjGet adjm u, w ∈ nodes)
    (hadj_ne : ∀ u, u ∉ adjGet adjm u)
    (s : String) (hs : s ∈ nodes) (btw : List (String × ℚ))
    (hkeys : ∀ w ∈ nodes, w ∈ keys btw) :
    keys (brandes_one_source nodes adjm btw s) = keys btw := by
  have hinv := brandes_visit_inv nodes adjm s hadj_nodup hadj_sub hadj_ne
    (nodes.length + 1) _ (BInv_init nodes adjm s hnodes hs)
  exact keys_brandes_accumulate _ _ nodes _ s btw
    (fun w hw => hkeys w (hinv.sub_sq w (List.mem_append_left _ hw)))

theorem brandes_sources_aux (nodes : List String) (adjm : AdjMap)
    (hnodes : nodes.Nodup)
    (hadj_nodup : ∀ u, (adjGet adjm u).Nodup)
    (hadj_sub : ∀ u, ∀ w ∈ adjGet adjm u, w ∈ nodes)
    (hadj_ne : ∀ u, u ∉ adjGet adjm u) :
    ∀ (ss : List String) (btw : List (String × ℚ)),
      (∀ s2 ∈ ss, s2 ∈ nodes) →
      ∀ y, getD btw y 0
          ≤ getD (ss.foldl (fun btw s => brandes_one_source nodes adjm btw s) btw) y 0
        ∧ getD (ss.foldl (fun btw s => brandes_one_source nodes adjm btw s) btw) y 0
          ≤ getD btw y 0 + ((ss.filter (fun s2 => !(s2 == y))).length : ℚ)
              * max 0 ((nodes.length : ℚ) - 2) := by
  intro ss
  induction ss with
  | nil =>
    intro btw _ y
    refine ⟨le_refl _, ?_⟩
    simp
  | cons s2 rest ih =>
    intro btw hss y
    rw [List.foldl_cons]
    have hsrc := brandes_one_source_bound nodes adjm hnodes hadj_nodup hadj_sub
      hadj_ne s2 (hss s2 (List.mem_cons_self s2 rest)) btw y
    have hrec := ih (brandes_one_source nodes adjm btw s2)
      (fun s3 h3 => hss s3 (List.mem_cons_of_mem s2 h3)) y
    have hM : (0 : ℚ) ≤ max 0 ((nodes.length : ℚ) - 2) := le_max_left 0 _
    constructor
    · exact le_trans hsrc.1 hrec.1
    · refine le_trans hrec.2 ?_
      by_cases hys : y = s2
      · have hflt : (s2 :: rest).filter (fun s3 => !(s3 == y))
            = rest.filter (fun s3 => !(s3 == y)) := by
          have hbeq : (s2 == y) = true := by simp [hys]
          simp [List.filter_cons, hbeq]
        rw [hflt]
        have h2 := hsrc.2
        rw [if_pos hys] at h2
        linarith
      · have hflt : (s2 :: rest).filter (fun s3 => !(s3 == y))
            = s2 :: rest.filter (fun s3 => !(s3 == y)) := by
          have hbeq : (s2 == y) = false := by
            simp [beq_iff_eq]
            exact fun hc => hys hc.symm
          simp [List.filter_cons, hbeq]
        rw [hflt, List.length_cons]
        have h2 := hsrc.2
        rw [if_neg hys] at h2
        push_cast
        linarith

theorem brandes_betweenness_bound (nodes : List String) (adjm : AdjMap)
    (hnodes : nodes.Nodup)
    (hadj_nodup : ∀ u, (adjGet adjm u).Nodup)
    (hadj_sub : ∀ u, ∀ w ∈ adjGet adjm u, w ∈ nodes)
    (hadj_ne : ∀ u, u ∉ adjGet adjm u) :
    ∀ y ∈ nodes, 0 ≤ getD (brandes_betweenness nodes adjm) y 0
      ∧ getD (brandes_betweenness nodes adjm) y 0
        ≤ ((nodes.length : ℚ) - 1) * max 0 ((nodes.length : ℚ) - 2) := by
  intro y hy
  rw [brandes_betweenness_eq]
  have haux := brandes_sources_aux nodes adjm hnodes hadj_nodup hadj_sub hadj_ne
    nodes (nodes.map (fun v => (v, 0))) (fun _ h => h) y
  have hbtw0 : getD (nodes.map (fun v => (v, (0 : ℚ)))) y 0 = 0 := by
    rw [getD_map_const]
    simp [hy]
  constructor
  · have h := haux.1
    rw [hbtw0] at h
    exact h
  · refine le_trans haux.2 ?_
    rw [hbtw0, zero_add]
    have hconv : nodes.filter (fun s2 => !(s2 == y))
        = nodes.filter (fun s2 => s2 != y) :=
      List.filter_congr (fun a _ => by simp [bne])
    have hlen : (nodes.filter (fun s2 => !(s2 == y))).length
        = nodes.length - 1 := by
      rw [hconv, ← List.Nodup.erase_eq_filter hnodes y]
      exact List.length_erase_of_mem hy
    have h1 : 1 ≤ nodes.length :=
      List.length_pos.mpr (List.ne_nil_of_mem hy)
    have hcast : ((nodes.filter (fun s2 => !(s2 == y))).length : ℚ)
        = (nodes.length : ℚ) - 1 := by
      rw [hlen, Nat.cast_sub h1]
      norm_num
    rw [hcast]

theorem keys_pair_map {ν : Type} (nodes : List String) (f : String → ν) :
    keys (nodes.map (fun v => (v, f v))) = nodes := by
  simp only [keys, List.map_map]
  have : (Prod.fst ∘ fun v : String => (v, f v)) = id := rfl
  rw [this, List.map_id]

theorem keys_brandes_betweenness (nodes : List String) (adjm : AdjMap)
    (hnodes : nodes.Nodup)
    (hadj_nodup : ∀ u, (adjGet adjm u).Nodup)
    (hadj_sub : ∀ u, ∀ w ∈ adjGet adjm u, w ∈ nodes)
    (hadj_ne : ∀ u, u ∉ adjGet adjm u) :
    keys (brandes_betweenness nodes adjm) = nodes := by
  rw [brandes_betweenness_eq]
  have hbase : keys (nodes.map (fun v => (v, (0 : ℚ)))) = nodes :=
    keys_pair_map nodes (fun _ => 0)
  suffices aux : ∀ (ss : List String) (btw : List (String × ℚ)),
      (∀ s2 ∈ ss, s2 ∈ nodes) → keys btw = nodes →
      keys (ss.foldl (fun btw s => brandes_one_source nodes adjm btw s) btw)
        = nodes by
    exact aux nodes _ (fun _ h => h) hbase
  intro ss
  induction ss with
  | nil =>
    intro btw _ hk
    exact hk
  | cons s2 rest ih =>
    intro btw hss hk
    rw [List.foldl_cons]
    refine ih _ (fun s3 h3 => hss s3 (List.mem_cons_of_mem s2 h3)) ?_
    rw [keys_brandes_one_source nodes adjm hnodes hadj_nodup hadj_sub hadj_ne
      s2 (hss s2 (List.mem_cons_self s2 rest)) btw (fun w hw => hk ▸ hw)]
    exact hk

theorem mem_table_getD (m : List (String × ℚ)) (hk : (keys m).Nodup) :
    ∀ p ∈ m, p.1 ∈ keys m ∧ p.2 = getD m p.1 0 := by
  intro p hp
  refine ⟨List.mem_map_of_mem Prod.fst hp, ?_⟩
  have := getv_of_mem_nodup m p hp hk
  rw [getD_eq_of_getv m p.1 0 p.2 this]

theorem closeness_of_nonneg (adjm : AdjMap) (nodes : List String)
    (node : String) : 0 ≤ closeness_of adjm nodes node := by
  unfold closeness_of
  dsimp only
  split
  · exact le_refl 0
  · apply div_nonneg
    · exact Nat.cast_nonneg _
    · apply List.sum_nonneg
      intro x hx
      rcases List.mem_filterMap.mp hx with ⟨d?, _, hmatch⟩
      cases d? with
      | none => exact absurd hmatch (by simp)
      | some d =>
        dsimp only at hmatch
        by_cases hd : 0 < d
        · rw [if_pos hd] at hmatch
          rw [← Option.some.inj hmatch]
          exact Nat.cast_nonneg d
        · rw [if_neg hd] at hmatch
          exact absurd hmatch (by simp)

theorem ccm_btw_raw (st : NetworkStats) (h0 : ¬ ((st.total_nodes == 0) = true)) :
    (calculate_centrality_measures st).betweenness_centrality
      = (if 2 < st.nodes.length
         then (brandes_betweenness st.nodes (build_adj_list st.edges)).map
            (fun e => (e.1, e.2 / (((st.nodes.length : ℚ) - 1)
              * ((st.nodes.length : ℚ) - 2))))
         else brandes_betweenness st.nodes (build_adj_list st.edges)) := by
  unfold calculate_centrality_measures
  rw [if_neg h0]

theorem ccm_cl_raw (st : NetworkStats) (h0 : ¬ ((st.total_nodes == 0) = true)) :
    (calculate_centrality_measures st).closeness_centrality
      = st.nodes.map (fun node =>
          (node, closeness_of (build_adj_list st.edges) st.nodes node)) := by
  unfold calculate_centrality_measures
  rw [if_neg h0]

/-- C4: betweenness centrality comes from Brandes' algorithm over
unweighted hop distances and, after division by `(n-1)(n-2)` when the
pruned node count `n` exceeds 2, every stored value lies in `[0, 1]`;
for `n ≤ 2` the table is left unnormalised and every value is `0`.
Closeness centrality maps each pruned node to
`len(reachable) / sum(reachable)` over its positive finite hop distances
(`0` when nothing is reachable), and every stored value is nonnegative. -/
theorem C4_betweenness_closeness_bounds (st : NetworkStats)
    (hstrict : strictPairs st.edges) (hnodes : st.nodes.Nodup)
    (hclosed : ∀ e ∈ st.edges, e.1.1 ∈ st.nodes ∧ e.1.2 ∈ st.nodes)
    (h0 : ¬ ((st.total_nodes == 0) = true)) :
    (∀ p ∈ (calculate_centrality_measures st).betweenness_centrality,
        0 ≤ p.2 ∧ (2 < st.nodes.length → p.2 ≤ 1)
          ∧ (st.nodes.length ≤ 2 → p.2 = 0))
    ∧ (calculate_centrality_measures st).closeness_centrality
        = st.nodes.map (fun node =>
            (node, closeness_of (build_adj_list st.edges) st.nodes node))
    ∧ ∀ p ∈ (calculate_centrality_measures st).closeness_centrality,
        0 ≤ p.2 := by
  have hadj_nodup := nodup_adjGet_build st.edges
  have hadj_sub := adj_sub_nodes st.edges st.nodes hclosed
  have hadj_ne := adj_no_self st.edges hstrict
  have hbb := brandes_betweenness_bound st.nodes (build_adj_list st.edges)
    hnodes hadj_nodup hadj_sub hadj_ne
  have hkeys := keys_brandes_betweenness st.nodes (build_adj_list st.edges)
    hnodes hadj_nodup hadj_sub hadj_ne
  have hknd : (keys (brandes_betweenness st.nodes (build_adj_list st.edges))).Nodup := by
    rw [hkeys]; exact hnodes
  have hentry := mem_table_getD
    (brandes_betweenness st.nodes (build_adj_list st.edges)) hknd
  refine ⟨?_, ccm_cl_raw st h0, ?_⟩
  · rw [ccm_btw_raw st h0]
    intro p hp
    by_cases hn : 2 < st.nodes.length
    · rw [if_pos hn] at hp
      rcases List.mem_map.mp hp with ⟨q, hq, hpq⟩
      have hq1 := hentry q hq
      have hyb := hbb q.1 (hkeys ▸ hq1.1)
      rw [← hq1.2] at hyb
      have hnq : (2 : ℚ) < (st.nodes.length : ℚ) := by exact_mod_cast hn
      have hmax : max 0 ((st.nodes.length : ℚ) - 2)
          = (st.nodes.length : ℚ) - 2 := by
        apply max_eq_right; linarith
      have hDpos : (0 : ℚ)
          < ((st.nodes.length : ℚ) - 1) * ((st.nodes.length : ℚ) - 2) := by
        apply mul_pos <;> linarith
      have hp2 : p.2 = q.2
          / (((st.nodes.length : ℚ) - 1) * ((st.nodes.length : ℚ) - 2)) := by
        rw [← hpq]
      refine ⟨?_, fun _ => ?_, fun hle => absurd hn (by omega)⟩
      · rw [hp2]
        exact div_nonneg hyb.1 (le_of_lt hDpos)
      · rw [hp2]
        rw [div_le_one hDpos]
        have := hyb.2
        rw [hmax] at this
        exact this
    · rw [if_neg hn] at hp
      have hq1 := hentry p hp
      have hyb := hbb p.1 (hkeys ▸ hq1.1)
      rw [← hq1.2] at hyb
      have hle : st.nodes.length ≤ 2 := by omega
      have hnq : (st.nodes.length : ℚ) ≤ 2 := by exact_mod_cast hle
      have hmax : max 0 ((st.nodes.length : ℚ) - 2) = 0 := by
        apply max_eq_left; linarith
      have hub := hyb.2
      rw [hmax, mul_zero] at hub
      have hz : p.2 = 0 := le_antisymm hub hyb.1
      exact ⟨hyb.1, fun hgt => absurd hgt hn, fun _ => hz⟩
  · rw [ccm_cl_raw st h0]
    intro p hp
    rcases List.mem_map.mp hp with ⟨node, _, hpq⟩
    rw [← hpq]
    exact closeness_of_nonneg (build_adj_list st.edges) st.nodes node

def c4w_st : NetworkStats :=
  { total_nodes := 3
    nodes := ["a", "b", "c"]
    edges := [(("a", "b"), 1), (("b", "c"), 1)] }

theorem C4_witness :
    (strictPairs c4w_st.edges ∧ c4w_st.nodes.Nodup
        ∧ (∀ e ∈ c4w_st.edges, e.1.1 ∈ c4w_st.nodes ∧ e.1.2 ∈ c4w_st.nodes)
        ∧ ¬ ((c4w_st.total_nodes == 0) = true))
      ∧ ((∀ p ∈ (calculate_centrality_measures c4w_st).betweenness_centrality,
            0 ≤ p.2 ∧ (2 < c4w_st.nodes.length → p.2 ≤ 1)
              ∧ (c4w_st.nodes.length ≤ 2 → p.2 = 0))
        ∧ (calculate_centrality_measures c4w_st).closeness_centrality
            = c4w_st.nodes.map (fun node =>
                (node, closeness_of (build_adj_list c4w_st.edges)
                  c4w_st.nodes node))
        ∧ ∀ p ∈ (calculate_centrality_measures c4w_st).closeness_centrality,
            0 ≤ p.2) :=
  ⟨⟨by decide, by decide, by decide, by decide⟩,
    C4_betweenness_closeness_bounds c4w_st (by decide) (by decide)
      (by decide) (by decide)⟩

end QQChat
